import Mathlib

/-!
Verification of the dense LU factorization core (partial and full pivoting)
and its solve routines, as a shallow embedding over an exact field.

Matrices are embedded as total functions `ℕ → ℕ → K` together with explicit
bounds; in-place mutation becomes functional update restricted to the ranges
the code writes.  The scalar type is a generic field `K` with a pivoting
score `score : K → ℚ` (the code's `score()`, monotone in magnitude); the
witnesses instantiate `K := ℚ`, `score := fun x => |x|`.

Out-of-scope collaborators (`faer_core`: `matmul`, the triangular solves,
`permute_rows`) are modelled from the spec where noted.
-/

set_option linter.unusedSectionVars false

namespace FaerLU

/-- A matrix view: entry access, indexed from `(0, 0)`.  The code's strided
views become index offsets into one ambient function. -/
abbrev Mat (K : Type) := ℕ → ℕ → K

section Defs

variable {K : Type} [Field K]

/-- `faer_core::permutation::swap_rows` applied to a view whose columns are
the range `[cl, ch)` of the ambient matrix: swaps rows `i1` and `i2` across
those columns. -/
def rowSwap (A : Mat K) (i1 i2 cl ch : ℕ) : Mat K := fun i j =>
  if cl ≤ j ∧ j < ch then
    (if i = i1 then A i2 j else if i = i2 then A i1 j else A i j)
  else A i j

/-- `faer_core::permutation::swap_cols` applied to a view whose rows are
`[0, m)`: swaps columns `j1` and `j2`. -/
def colSwap (A : Mat K) (j1 j2 m : ℕ) : Mat K := fun i j =>
  if i < m then
    (if j = j1 then A i j2 else if j = j2 then A i j1 else A i j)
  else A i j

/-- The running column-pivot scan of `lu_in_place_unblocked`
(partial_pivoting/compute.rs): starting from `(max, imax) = (0, j)`,
for `s` rows beginning at row `i`, replace the running best by strict `>`
on the score. -/
def bestInColGo (score : K → ℚ) (col : ℕ → K) : ℕ → ℕ → ℚ × ℕ → ℚ × ℕ
  | _, 0, best => best
  | i, s+1, best =>
      bestInColGo score col (i+1) s
        (if score (col i) > best.1 then (score (col i), i) else best)

/-- The pivot row chosen for column `c` among rows `[j, m)`
(partial_pivoting/compute.rs, lines 92-101). -/
def pivotRow (score : K → ℚ) (A : Mat K) (c j m : ℕ) : ℕ :=
  (bestInColGo score (fun i => A i c) j (m - j) (0, j)).2

/-- State of the partial-pivoting factorization: the matrix, the permutation
slice (view-relative), the transposition offsets recorded so far, and the
transposition count. -/
structure PpState (K : Type) where
  A : Mat K
  p : ℕ → ℕ
  ts : List ℕ
  cnt : ℕ

/-- The pivot-column scaling of `update` (partial_pivoting/compute.rs,
lines 120-125): rows `(r, m)` of column `c` are multiplied by the inverse of
the pivot entry `A r c`. -/
def scaleColPP (A : Mat K) (r c m : ℕ) : Mat K := fun i c' =>
  if c' = c ∧ r < i ∧ i < m then A i c' * (A r c)⁻¹ else A i c'

/-- The rank-1 update of `update` (lines 126-135): entries with row in
`(r, m)` and column in `(c, cHi)` receive `-= lhs·rhs` with `lhs` the scaled
pivot column and `rhs` the pivot row. -/
def rank1PP (A : Mat K) (r c m cHi : ℕ) : Mat K := fun i c' =>
  if r < i ∧ i < m ∧ c < c' ∧ c' < cHi then A i c' - A i c * A r c'
  else A i c'

/-- The matrix transformation of one unblocked elimination step: row swap
with the pivot row across the view columns, scaling of the pivot column,
rank-1 update of the trailing window. -/
def ppElim (B : Mat K) (imax m cl ch wLo n rOff j : ℕ) : Mat K :=
  rank1PP (scaleColPP (rowSwap B (rOff + j) imax cl ch) (rOff + j) (wLo + j) m)
    (rOff + j) (wLo + j) m (wLo + n)

/-- One iteration of the loop of `lu_in_place_unblocked` (partial pivoting):
pivot search in window column `j` over rows `[rOff+j, m)`, unconditional row
swap across the view columns `[cl, ch)`, conditional permutation swap and
count, scaling of the pivot column by the inverse pivot, and rank-1 update of
the trailing window (`update`, lines 120-136). -/
def ppStep (score : K → ℚ) (m cl ch wLo n rOff : ℕ) (j : ℕ) (st : PpState K) :
    PpState K :=
  let imax := pivotRow score st.A (wLo + j) (rOff + j) m
  let t := imax - (rOff + j)
  let cnt := if imax ≠ rOff + j then st.cnt + 1 else st.cnt
  let p1 := if imax ≠ rOff + j then
      (fun x => if x = j then st.p (imax - rOff)
                else if x = imax - rOff then st.p j else st.p x)
    else st.p
  ⟨ppElim st.A imax m cl ch wLo n rOff j, p1, st.ts ++ [t], cnt⟩

/-- The loop of `lu_in_place_unblocked`, from step `j`, for `s` more steps. -/
def ppGo (score : K → ℚ) (m cl ch wLo n rOff : ℕ) :
    ℕ → ℕ → PpState K → PpState K
  | _, 0, st => st
  | j, s+1, st => ppGo score m cl ch wLo n rOff (j+1) s
      (ppStep score m cl ch wLo n rOff j st)

/-- `lu_in_place_unblocked` (partial_pivoting/compute.rs, lines 73-118) on the
view with rows `[rOff, m)` and columns `[cl, ch)`, factoring the window
columns `[wLo, wLo + n)`. -/
def ppUnb (score : K → ℚ) (A : Mat K) (p : ℕ → ℕ) (m cl ch wLo n rOff : ℕ) :
    PpState K :=
  ppGo score m cl ch wLo n rOff 0 n ⟨A, p, [], 0⟩

/-- `blocksize` (partial_pivoting/compute.rs, lines 142-155): the remainder
`n - bs` is rounded to a multiple of a register-friendly count. -/
def blocksize (n : ℕ) : ℕ :=
  let r := n / 2
  n - (if 32 ≤ n then (r + 15) / 16 * 16
       else if 16 ≤ n then (r + 7) / 8 * 8
       else if 8 ≤ n then (r + 3) / 4 * 4
       else r)

/-- Modelled from the spec: the triangular-solve collaborator
`faer_core::solve::solve_unit_lower_triangular_in_place` (out of scope, used
as a black box).  Forward substitution against the unit-lower factor stored
in `A` at rows `rOff + ·`, columns `wLo + ·`, solving column `c` of `A`
itself; the first argument of the recursion is fuel (call it with `i + 1`). -/
def fsubUnit (A : Mat K) (rOff wLo c : ℕ) : ℕ → ℕ → K
  | 0, _ => 0
  | f+1, i => A (rOff + i) c -
      ∑ k ∈ Finset.range i, A (rOff + i) (wLo + k) * fsubUnit A rOff wLo c f k

/-- Modelled from the spec: in-place unit-lower triangular solve of the block
with rows `[rOff, rOff + bs)` and columns `[cLo, cHi)` against the unit-lower
factor at columns `[wLo, wLo + bs)` of the same matrix. -/
def trsmUnitLower (A : Mat K) (rOff wLo bs cLo cHi : ℕ) : Mat K := fun i c =>
  if rOff ≤ i ∧ i < rOff + bs ∧ cLo ≤ c ∧ c < cHi then
    fsubUnit A rOff wLo c (i - rOff + 1) (i - rOff)
  else A i c

/-- Modelled from the spec: the matrix-multiply collaborator
`faer_core::mul::matmul` with accumulator `Some(1)` and factor `-1`
(`dst ← dst - lhs·rhs`), as used for the Schur update of the bottom-right
block: rows `[rOff + bs, m)`, columns `[cLo, cHi)`, with `lhs` the columns
`[wLo, wLo + bs)` of the same rows and `rhs` the rows `[rOff, rOff + bs)` of
the same columns. -/
def schurSub (A : Mat K) (rOff bs m wLo cLo cHi : ℕ) : Mat K := fun i c =>
  if rOff + bs ≤ i ∧ i < m ∧ cLo ≤ c ∧ c < cHi then
    A i c - ∑ k ∈ Finset.range bs, A i (wLo + k) * A (rOff + k) c
  else A i c

/-- A row swap applied only to the columns selected by `P` (the unit of work
of the transposition-fixup loops of `lu_in_place_impl`). -/
def rowSwapCols (A : Mat K) (i1 i2 : ℕ) (P : ℕ → Bool) : Mat K := fun i j =>
  if P j then (if i = i1 then A i2 j else if i = i2 then A i1 j else A i j)
  else A i j

/-- Application of a recorded transposition list: entry `i` of the list swaps
rows `i0 + i` and `i0 + i + t` across the columns selected by `P`.  This is
the swap-major first branch of the fixup section of `lu_in_place_impl`
(lines 250-278); the two `for_each_raw` branches perform the same element
swaps column by column. -/
def applyTransCols (P : ℕ → Bool) : ℕ → List ℕ → Mat K → Mat K
  | _, [], A => A
  | i0, t :: ts, A => applyTransCols P (i0 + 1) ts (rowSwapCols A i0 (i0 + t) P)

/-- `lu_in_place_impl` (partial_pivoting/compute.rs, lines 178-314), with
fuel as first argument (the window width strictly decreases, so fuel `n + 1`
suffices).  View rows `[rOff, m)`, view columns `[cl, ch)`, window columns
`[wLo, wLo + n)`. -/
def luImplGo (score : K → ℚ) :
    ℕ → Mat K → (ℕ → ℕ) → ℕ → ℕ → ℕ → ℕ → ℕ → ℕ → PpState K
  | 0, A, p, _, _, _, _, _, _ => ⟨A, p, [], 0⟩
  | f+1, A, p, m, cl, ch, wLo, n, rOff =>
    if n ≤ 16 then ppUnb score A p m cl ch wLo n rOff
    else
      let bs := blocksize n
      let L := luImplGo score f A p m wLo (wLo + n) wLo bs rOff
      let A2 := trsmUnitLower L.A rOff wLo bs (wLo + bs) (wLo + n)
      let A3 := schurSub A2 rOff bs m wLo (wLo + bs) (wLo + n)
      let R := luImplGo score f A3 (fun i => i) m wLo (wLo + n) (wLo + bs)
          (n - bs) (rOff + bs)
      let p2 : ℕ → ℕ := fun i => if i < bs then L.p i else L.p (bs + R.p (i - bs))
      let outside : ℕ → Bool := fun c =>
        decide ((cl ≤ c ∧ c < wLo) ∨ (wLo + n ≤ c ∧ c < ch))
      let A5 := applyTransCols outside (rOff + bs) R.ts
          (applyTransCols outside rOff L.ts R.A)
      ⟨A5, p2, L.ts ++ R.ts, L.cnt + R.cnt⟩

/-- The inverse-permutation loop `for i in 0..m { perm_inv[perm[i]] = i }`
(later writes win; for a bijective `p` every slot below `m` is written
exactly once). -/
def invPerm (p : ℕ → ℕ) (m : ℕ) : ℕ → ℕ := fun j =>
  (List.range m).foldl (fun acc i => if p i = j then i else acc) 0

/-- `lu_in_place` (partial pivoting, compute.rs lines 359-408) after its
leading length asserts: permutation initialized to the identity, blocked
factorization of the first `min n m` columns, and for a wide matrix the
final unit-lower solve extending `U` to the remaining columns.  Returns the
factored matrix, `perm`, `perm_inv`, the recorded transpositions and the
transposition count. -/
def luPP (score : K → ℚ) (A : Mat K) (m n : ℕ) :
    Mat K × (ℕ → ℕ) × (ℕ → ℕ) × List ℕ × ℕ :=
  let size := min n m
  let r := luImplGo score (size + 1) A (fun i => i) m 0 n 0 size 0
  let F := if m < n then trsmUnitLower r.A 0 0 m m n else r.A
  (F, r.p, invPerm r.p m, r.ts, r.cnt)

/-- `lu_in_place` (partial pivoting) including its leading
`assert!(perm.len() == matrix.nrows())` and
`assert!(perm_inv.len() == matrix.nrows())`: these run before the matrix or
either permutation buffer is touched, so a length mismatch aborts with no
result. -/
def luPPChecked (score : K → ℚ) (A : Mat K) (m n permLen permInvLen : ℕ) :
    Except Unit (Mat K × (ℕ → ℕ) × (ℕ → ℕ) × List ℕ × ℕ) :=
  if permLen = m ∧ permInvLen = m then .ok (luPP score A m n) else .error ()

end Defs

section FullPivot

variable {K : Type} [Field K]

/-- The scalar fallback branch of `best_in_matrix`
(full_pivoting/compute.rs, lines 936-954): a column-major double loop
keeping a running `(max_row, max_col, max)` updated by strict `>`. -/
def bestInMat (score : K → ℚ) (A : Mat K) (m n : ℕ) : ℕ × ℕ × ℚ :=
  (List.range n).foldl (fun acc j =>
    (List.range m).foldl (fun acc2 i =>
      if score (A i j) > acc2.2.2 then (i, j, score (A i j)) else acc2) acc)
    (0, 0, 0)

/-- `best_in_matrix` of the trailing sub-matrix with rows `[rLo, m)` and
columns `[cLo, n)`, returning indices relative to the sub-matrix. -/
def bestInSub (score : K → ℚ) (A : Mat K) (rLo cLo m n : ℕ) : ℕ × ℕ × ℚ :=
  bestInMat score (fun i c => A (rLo + i) (cLo + c)) (m - rLo) (n - cLo)

/-- The per-worker results of the parallel branch of `lu_in_place_unblocked`
(full pivoting, lines 1068-1093): worker `idx` receives the contiguous column
chunk of width `ws[idx]` starting at offset `off`, runs the fused
update-and-best kernel on it, and adds its column offset to the local best. -/
def fpChunkBests (score : K → ℚ) (A : Mat K) (rLo cLo m : ℕ) :
    ℕ → List ℕ → List (ℕ × ℕ × ℚ)
  | _, [] => []
  | off, w :: ws =>
      (let b := bestInMat score (fun i c => A (rLo + i) (cLo + off + c)) (m - rLo) w
       (b.1, off + b.2.1, b.2.2)) ::
      fpChunkBests score A rLo cLo m (off + w) ws

/-- The reduction of the per-worker best triples (lines 1095-1104): strict
`>` on the value, earlier workers winning ties. -/
def fpBestPar (score : K → ℚ) (A : Mat K) (rLo cLo m : ℕ) (ws : List ℕ) :
    ℕ × ℕ × ℚ :=
  (fpChunkBests score A rLo cLo m 0 ws).foldl
    (fun acc b => if b.2.2 > acc.2.2 then b else acc) (0, 0, 0)

/-- The rank-1 Schur update of the trailing block `(k, m) × (k, n)`:
`dst ← dst - col_k · row_k` (performed identically by the fused kernel and
by the `matmul` fallback, and identically in both storage orientations). -/
def fpUpdate (A : Mat K) (k m n : ℕ) : Mat K := fun i c =>
  if k < i ∧ i < m ∧ k < c ∧ c < n then A i c - A i k * A k c else A i c

/-- The transposed-view scaling of full-pivoting elimination (the `else`
branch of lines 1041-1046): columns `(c, n)` of row `r` are multiplied by
the inverse of the pivot entry `A r c`. -/
def scaleRowFP (A : Mat K) (r c n : ℕ) : Mat K := fun i c' =>
  if i = r ∧ c < c' ∧ c' < n then A i c' * (A r c)⁻¹ else A i c'

/-- State of full-pivoting elimination: matrix, the two transposition arrays,
the transposition count, and the pending best position `(mr, mc)` for the
next step. -/
structure FpState (K : Type) where
  A : Mat K
  rowT : ℕ → ℕ
  colT : ℕ → ℕ
  cnt : ℕ
  mr : ℕ
  mc : ℕ

/-- One iteration of the loop of full-pivoting `lu_in_place_unblocked`
(lines 1021-1109): record the pending best as the step's transpositions,
swap row and column when they differ from `k`, scale the eliminated column
(row when operating on the transposed view) by the inverse pivot, and unless
this is the last step perform the fused rank-1 update and pivot search of the
remaining block (sequential, or split column-wise by `strat k`). -/
def fpStep (score : K → ℚ) (strat : ℕ → Option (List ℕ)) (m n size : ℕ)
    (transposed : Bool) (k : ℕ) (st : FpState K) : FpState K :=
  let rowT1 := fun x => if x = k then st.mr else st.rowT x
  let colT1 := fun x => if x = k then st.mc else st.colT x
  let cnt1 := st.cnt + (if st.mr ≠ k then 1 else 0) + (if st.mc ≠ k then 1 else 0)
  let A1 := if st.mr ≠ k then rowSwap st.A k st.mr 0 n else st.A
  let A2 := if st.mc ≠ k then colSwap A1 k st.mc m else A1
  let A3 : Mat K :=
    if transposed then scaleRowFP A2 k k n else scaleColPP A2 k k m
  if k + 1 = size then ⟨A3, rowT1, colT1, cnt1, st.mr, st.mc⟩
  else
    let A4 := fpUpdate A3 k m n
    let b := match strat k with
      | none => bestInSub score A4 (k+1) (k+1) m n
      | some ws => fpBestPar score A4 (k+1) (k+1) m ws
    ⟨A4, rowT1, colT1, cnt1, k + 1 + b.1, k + 1 + b.2.1⟩

/-- The elimination loop of full-pivoting `lu_in_place_unblocked`, from step
`k`, for `s` more steps. -/
def fpGo (score : K → ℚ) (strat : ℕ → Option (List ℕ)) (m n size : ℕ)
    (transposed : Bool) : ℕ → ℕ → FpState K → FpState K
  | _, 0, st => st
  | k, s+1, st => fpGo score strat m n size transposed (k+1) s
      (fpStep score strat m n size transposed k st)

/-- `lu_in_place_unblocked` (full_pivoting/compute.rs, lines 997-1112) on an
`m × n` view; the transposition arrays start as the identity (they are
created by `stack.make_with(len, |i| i)` in `lu_in_place`). -/
def fpUnb (score : K → ℚ) (strat : ℕ → Option (List ℕ)) (A : Mat K)
    (m n : ℕ) (transposed : Bool) : FpState K :=
  if n = 0 ∨ m = 0 then ⟨A, fun i => i, fun i => i, 0, 0, 0⟩
  else
    let size := min m n
    let b := bestInMat score A m n
    fpGo score strat m n size transposed 0 size
      ⟨A, fun i => i, fun i => i, 0, b.1, b.2.1⟩

/-- The permutation-array construction of full-pivoting `lu_in_place`
(lines 1215-1223): starting from the identity, `perm.swap(i, t i)` for
`i = i0, i0+1, …` for `s` steps. -/
def buildPermFrom (tr : ℕ → ℕ) : ℕ → ℕ → (ℕ → ℕ) → (ℕ → ℕ)
  | _, 0, p => p
  | i, s+1, p => buildPermFrom tr (i+1) s
      (fun x => if x = i then p (tr i) else if x = tr i then p i else p x)

/-- The permutation array built from a transposition array over `[0, m)`. -/
def buildPerm (tr : ℕ → ℕ) (m : ℕ) : ℕ → ℕ :=
  buildPermFrom tr 0 m (fun i => i)

/-- `lu_in_place` (full pivoting, compute.rs lines 1170-1239) after its
length asserts.  `rowMajor` is the outcome of the stride comparison
`row_stride.abs() < col_stride.abs()` being false: in that case the code
runs the elimination on the transposed view with the roles of the two
transposition arrays exchanged.  Returns the factored matrix (in the
original orientation), `row_perm`, `row_perm_inv`, `col_perm`,
`col_perm_inv`, the two transposition arrays and the count. -/
def luFP (score : K → ℚ) (strat : ℕ → Option (List ℕ)) (A : Mat K)
    (m n : ℕ) (rowMajor : Bool) :
    Mat K × (ℕ → ℕ) × (ℕ → ℕ) × (ℕ → ℕ) × (ℕ → ℕ) × (ℕ → ℕ) × (ℕ → ℕ) × ℕ :=
  let res :=
    if rowMajor then
      let r := fpUnb score strat (fun i j => A j i) n m true
      ((fun i j => r.A j i), r.colT, r.rowT, r.cnt)
    else
      let r := fpUnb score strat A m n false
      (r.A, r.rowT, r.colT, r.cnt)
  let rowPerm := buildPerm res.2.1 m
  let colPerm := buildPerm res.2.2.1 n
  (res.1, rowPerm, invPerm rowPerm m, colPerm, invPerm colPerm n,
    res.2.1, res.2.2.1, res.2.2.2)

/-- Full-pivoting `lu_in_place` including its four leading length
`assert!`s (lines 1187-1190), which run before any buffer is touched. -/
def luFPChecked (score : K → ℚ) (strat : ℕ → Option (List ℕ)) (A : Mat K)
    (m n rpLen rpiLen cpLen cpiLen : ℕ) (rowMajor : Bool) :
    Except Unit
      (Mat K × (ℕ → ℕ) × (ℕ → ℕ) × (ℕ → ℕ) × (ℕ → ℕ) × (ℕ → ℕ) × (ℕ → ℕ) × ℕ) :=
  if rpLen = m ∧ rpiLen = m ∧ cpLen = n ∧ cpiLen = n then
    .ok (luFP score strat A m n rowMajor)
  else .error ()

end FullPivot

section Solve

variable {K : Type} [Field K]

/-- Modelled from the spec: `faer_core::permutation::permute_rows` — row `i`
of the destination is row `p i` of the source (`temp ← P(row_fwd) B`). -/
def permuteRows (p : ℕ → ℕ) (B : Mat K) : Mat K := fun i j => B (p i) j

/-- Modelled from the spec:
`faer_core::solve::solve_unit_lower_triangular_in_place_with_conj` — forward
substitution against the strictly lower part of `M` with implicit unit
diagonal, operand entries conjugated by `cf`.  Fuel-indexed; row `i` uses
fuel `i + 1`. -/
def fwdUnitGo (cf : K → K) (M B : Mat K) : ℕ → ℕ → ℕ → K
  | 0, _, _ => 0
  | f+1, i, j => B i j -
      ∑ k ∈ Finset.range i, cf (M i k) * fwdUnitGo cf M B f k j

/-- In-place result of the unit-lower triangular solve. -/
def solveUnitLower (cf : K → K) (M B : Mat K) : Mat K := fun i j =>
  fwdUnitGo cf M B (i + 1) i j

/-- Modelled from the spec:
`faer_core::solve::solve_lower_triangular_in_place_with_conj` — forward
substitution against the lower part of `M` including the diagonal. -/
def fwdGo (cf : K → K) (M B : Mat K) : ℕ → ℕ → ℕ → K
  | 0, _, _ => 0
  | f+1, i, j => (B i j -
      ∑ k ∈ Finset.range i, cf (M i k) * fwdGo cf M B f k j) * (cf (M i i))⁻¹

/-- In-place result of the (non-unit) lower triangular solve. -/
def solveLower (cf : K → K) (M B : Mat K) : Mat K := fun i j =>
  fwdGo cf M B (i + 1) i j

/-- Modelled from the spec:
`faer_core::solve::solve_upper_triangular_in_place_with_conj` — backward
substitution against the upper part of `M` including the diagonal, on an
`n × ·` system.  Fuel-indexed; row `i` uses fuel `n - i`. -/
def bwdGo (cf : K → K) (M B : Mat K) (n : ℕ) : ℕ → ℕ → ℕ → K
  | 0, _, _ => 0
  | f+1, i, j => (B i j -
      ∑ k ∈ Finset.Ico (i+1) n, cf (M i k) * bwdGo cf M B n f k j) *
      (cf (M i i))⁻¹

/-- In-place result of the (non-unit) upper triangular solve. -/
def solveUpper (cf : K → K) (M B : Mat K) (n : ℕ) : Mat K := fun i j =>
  bwdGo cf M B n (n - i) i j

/-- Modelled from the spec:
`faer_core::solve::solve_unit_upper_triangular_in_place_with_conj` —
backward substitution against the strictly upper part of `M` with implicit
unit diagonal. -/
def bwdUnitGo (cf : K → K) (M B : Mat K) (n : ℕ) : ℕ → ℕ → ℕ → K
  | 0, _, _ => 0
  | f+1, i, j => B i j -
      ∑ k ∈ Finset.Ico (i+1) n, cf (M i k) * bwdUnitGo cf M B n f k j

/-- In-place result of the unit-upper triangular solve. -/
def solveUnitUpper (cf : K → K) (M B : Mat K) (n : ℕ) : Mat K := fun i j =>
  bwdUnitGo cf M B n (n - i) i j

/-- `solve_impl` (partial_pivoting/solve.rs, lines 9-49):
`temp ← P(row_fwd)·B`, then the unit-lower and the upper triangular solves
against the stored factors (conjugated by `cf` when `conj_lhs` is set), the
result copied to the destination. -/
def solvePP (cf : K → K) (LU : Mat K) (p : ℕ → ℕ) (B : Mat K) (n : ℕ) :
    Mat K :=
  solveUpper cf LU (solveUnitLower cf LU (permuteRows p B)) n

/-- `solve_transpose_impl` (partial_pivoting/solve.rs, lines 51-97):
`temp ← B`, then the lower solve against `lu_factors.transpose()` (that is,
against `Uᵗ`) and the unit-upper solve against `lu_factors.transpose()`
(against `Lᵗ`), then `dst ← P(row_inv)·temp`. -/
def solvePPT (cf : K → K) (LU : Mat K) (pinv : ℕ → ℕ) (B : Mat K) (n : ℕ) :
    Mat K :=
  permuteRows pinv
    (solveUnitUpper cf (fun i j => LU j i)
      (solveLower cf (fun i j => LU j i) B) n)

/-- `solve_impl` (full_pivoting/solve.rs, lines 9-50): as the partial
pivoting one but with a final `dst ← P(col_inv)·temp`. -/
def solveFP (cf : K → K) (LU : Mat K) (p qinv : ℕ → ℕ) (B : Mat K) (n : ℕ) :
    Mat K :=
  permuteRows qinv (solveUpper cf LU (solveUnitLower cf LU (permuteRows p B)) n)

/-- `solve_transpose_impl` (full_pivoting/solve.rs, lines 52-99):
`temp ← P(col_fwd)·B`, the lower and unit-upper solves against
`lu_factors.transpose()`, then `dst ← P(row_inv)·temp`. -/
def solveFPT (cf : K → K) (LU : Mat K) (pinv q : ℕ → ℕ) (B : Mat K) (n : ℕ) :
    Mat K :=
  permuteRows pinv
    (solveUnitUpper cf (fun i j => LU j i)
      (solveLower cf (fun i j => LU j i) (permuteRows q B)) n)

/-- The reconstruction product `L·U` of the stored factors of an in-place LU
decomposition with `size = min(m, n)` pivot steps: `L` is the strictly lower
triangle with implicit unit diagonal, `U` the upper triangle including the
diagonal. -/
def luProd (F : Mat K) (size : ℕ) : Mat K := fun i j =>
  ∑ k ∈ Finset.range (min (i + 1) (min size (j + 1))),
    (if k = i then 1 else F i k) * F k j

end Solve

section ScoreFacts

/-- The properties of the code's `score()` used by the algorithms: it is the
absolute value for real scalars and the squared modulus for complex ones, so
it is nonnegative, zero exactly on the zero scalar. -/
structure ScoreOk {K : Type} [Field K] (score : K → ℚ) : Prop where
  nonneg : ∀ x, 0 ≤ score x
  zero : score 0 = 0
  eq_zero : ∀ x, score x ≤ 0 → x = 0

theorem scoreOk_qabs : ScoreOk (fun x : ℚ => |x|) :=
  ⟨fun x => abs_nonneg x, abs_zero, fun x h => abs_eq_zero.mp (le_antisymm h (abs_nonneg x))⟩

end ScoreFacts

section ArgmaxFold

/-! Generic characterization of the strict-`>` running-argmax folds used by
all pivot searches and by the cross-thread reduction. -/

/-- One step of a running argmax over positions with a value function. -/
def amaxStep (v : ℕ × ℕ → ℚ) (acc : ℕ × ℕ × ℚ) (x : ℕ × ℕ) : ℕ × ℕ × ℚ :=
  if v x > acc.2.2 then (x.1, x.2, v x) else acc

/-- Running argmax over a list of positions. -/
def amaxFold (v : ℕ × ℕ → ℚ) (b : ℕ × ℕ × ℚ) (xs : List (ℕ × ℕ)) : ℕ × ℕ × ℚ :=
  List.foldl (amaxStep v) b xs

theorem amaxFold_nil (v : ℕ × ℕ → ℚ) (b) : amaxFold v b [] = b := rfl

theorem amaxFold_cons (v : ℕ × ℕ → ℚ) (b x xs) :
    amaxFold v b (x :: xs) = amaxFold v (amaxStep v b x) xs := rfl

theorem amaxFold_append (v : ℕ × ℕ → ℚ) (b xs ys) :
    amaxFold v b (xs ++ ys) = amaxFold v (amaxFold v b xs) ys := by
  unfold amaxFold
  exact List.foldl_append _ _ _ _

/-- The running value never decreases. -/
theorem amaxFold_val_mono (v : ℕ × ℕ → ℚ) (xs : List (ℕ × ℕ)) :
    ∀ b, b.2.2 ≤ (amaxFold v b xs).2.2 := by
  induction xs with
  | nil => intro b; exact le_rfl
  | cons x t ih =>
    intro b
    rw [amaxFold_cons]
    refine le_trans ?_ (ih (amaxStep v b x))
    unfold amaxStep
    split
    · exact le_of_lt (by assumption)
    · exact le_rfl

/-- Every scanned value is bounded by the result value. -/
theorem amaxFold_le (v : ℕ × ℕ → ℚ) (xs : List (ℕ × ℕ)) :
    ∀ b, ∀ x ∈ xs, v x ≤ (amaxFold v b xs).2.2 := by
  induction xs with
  | nil => intro _ x hx; cases hx
  | cons y t ih =>
    intro b x hx
    rw [amaxFold_cons]
    rcases List.mem_cons.mp hx with h | h
    · subst h
      refine le_trans ?_ (amaxFold_val_mono v t _)
      unfold amaxStep
      split
      · exact le_rfl
      · exact le_of_not_gt (by assumption)
    · exact ih _ x h

/-- The result is either the initial accumulator, or carries the value of
one of the scanned positions. -/
theorem amaxFold_attained (v : ℕ × ℕ → ℚ) (xs : List (ℕ × ℕ)) :
    ∀ b, amaxFold v b xs = b ∨
      ∃ x ∈ xs, amaxFold v b xs = (x.1, x.2, v x) := by
  induction xs with
  | nil => intro b; exact Or.inl rfl
  | cons y t ih =>
    intro b
    rw [amaxFold_cons]
    rcases ih (amaxStep v b y) with h | ⟨x, hx, hh⟩
    · rw [h]
      unfold amaxStep
      split
      · exact Or.inr ⟨y, List.mem_cons_self y t, rfl⟩
      · exact Or.inl rfl
    · exact Or.inr ⟨x, List.mem_cons_of_mem y hx, hh⟩

/-- Key decomposition: folding from an accumulator with nonnegative value is
either a no-op or agrees with the fold from the bottom accumulator.  This is
what makes the chunked (parallel) reduction agree with the sequential scan. -/
theorem amaxFold_absorb (v : ℕ × ℕ → ℚ) (xs : List (ℕ × ℕ)) :
    ∀ b : ℕ × ℕ × ℚ, 0 ≤ b.2.2 →
      amaxFold v b xs =
        (if (amaxFold v (0, 0, 0) xs).2.2 > b.2.2 then amaxFold v (0, 0, 0) xs
         else b) := by
  induction xs with
  | nil =>
    intro b hb
    rw [amaxFold_nil, amaxFold_nil, if_neg]
    exact not_lt.mpr hb
  | cons x t ih =>
    intro b hb
    rw [amaxFold_cons, amaxFold_cons]
    by_cases hx : v x > b.2.2
    · have hx0 : v x > (0 : ℚ) := lt_of_le_of_lt hb hx
      have h1 : amaxStep v b x = (x.1, x.2, v x) := by
        unfold amaxStep; rw [if_pos hx]
      have h2 : amaxStep v (0, 0, 0) x = (x.1, x.2, v x) := by
        unfold amaxStep; rw [if_pos hx0]
      rw [h1, h2, if_pos
        (lt_of_lt_of_le hx (amaxFold_val_mono v t (x.1, x.2, v x)))]
    · have h1 : amaxStep v b x = b := by
        unfold amaxStep; rw [if_neg hx]
      rw [h1]
      by_cases hx0 : v x > (0 : ℚ)
      · have h2 : amaxStep v (0, 0, 0) x = (x.1, x.2, v x) := by
          unfold amaxStep; rw [if_pos hx0]
        rw [h2, ih b hb, ih (x.1, x.2, v x) (le_of_lt hx0)]
        by_cases h3 : (amaxFold v (0, 0, 0) t).2.2 > v x
        · rw [if_pos h3]
        · rw [if_neg h3]
          have hvb : v x ≤ b.2.2 := not_lt.mp hx
          have hfb : ¬ (amaxFold v (0, 0, 0) t).2.2 > b.2.2 :=
            not_lt.mpr (le_trans (not_lt.mp h3) hvb)
          have hvx : ¬ ((x.1, x.2, v x) : ℕ × ℕ × ℚ).2.2 > b.2.2 := not_lt.mpr hvb
          rw [if_neg hfb, if_neg hvx]
      · have h2 : amaxStep v (0, 0, 0) x = (0, 0, 0) := by
          unfold amaxStep; rw [if_neg hx0]
        rw [h2, ih b hb]

/-- Full characterization of the running strict-`>` argmax: either no scanned
value exceeds the initial one and the accumulator is returned, or the result
is the first position whose value is strictly above everything before it and
at least everything after it. -/
theorem amaxFold_first (v : ℕ × ℕ → ℚ) (xs : List (ℕ × ℕ)) :
    ∀ b : ℕ × ℕ × ℚ,
      ((∀ x ∈ xs, v x ≤ b.2.2) ∧ amaxFold v b xs = b) ∨
      ∃ pre x post, xs = pre ++ x :: post ∧
        amaxFold v b xs = (x.1, x.2, v x) ∧ v x > b.2.2 ∧
        (∀ y ∈ pre, v y < v x) ∧ (∀ y ∈ post, v y ≤ v x) := by
  induction xs with
  | nil =>
    intro b
    exact Or.inl ⟨fun x hx => absurd hx (List.not_mem_nil x), rfl⟩
  | cons x t ih =>
    intro b
    rw [amaxFold_cons]
    by_cases hx : v x > b.2.2
    · have h1 : amaxStep v b x = (x.1, x.2, v x) := by
        unfold amaxStep; rw [if_pos hx]
      rw [h1]
      rcases ih (x.1, x.2, v x) with ⟨hall, heq⟩ | ⟨pre, y, post, hsplit, heq, hgt, hpre, hpost⟩
      · exact Or.inr ⟨[], x, t, rfl, heq, hx,
          fun y hy => absurd hy (List.not_mem_nil y), hall⟩
      · refine Or.inr ⟨x :: pre, y, post, by rw [hsplit]; rfl, heq, lt_trans hx hgt, ?_, hpost⟩
        intro z hz
        rcases List.mem_cons.mp hz with h | h
        · subst h; exact hgt
        · exact hpre z h
    · have h1 : amaxStep v b x = b := by
        unfold amaxStep; rw [if_neg hx]
      rw [h1]
      rcases ih b with ⟨hall, heq⟩ | ⟨pre, y, post, hsplit, heq, hgt, hpre, hpost⟩
      · refine Or.inl ⟨?_, heq⟩
        intro z hz
        rcases List.mem_cons.mp hz with h | h
        · subst h; exact not_lt.mp hx
        · exact hall z h
      · refine Or.inr ⟨x :: pre, y, post, by rw [hsplit]; rfl, heq, hgt, ?_, hpost⟩
        intro z hz
        rcases List.mem_cons.mp hz with h | h
        · subst h; exact lt_of_le_of_lt (not_lt.mp hx) hgt
        · exact hpre z h

/-- The column-major position list of an `m × n` block: all `(i, j)` with
`j` outer, `i` inner — the scan order of the scalar `best_in_matrix`. -/
def cmIdx (m n : ℕ) : List (ℕ × ℕ) :=
  (List.range n).flatMap (fun j => (List.range m).map (fun i => (i, j)))

theorem cmIdx_zero (m : ℕ) : cmIdx m 0 = [] := rfl

theorem cmIdx_succ (m n : ℕ) :
    cmIdx m (n+1) = cmIdx m n ++ (List.range m).map (fun i => (i, n)) := by
  unfold cmIdx
  rw [List.range_succ, List.flatMap_append]
  simp

theorem mem_cmIdx {m n : ℕ} {x : ℕ × ℕ} (h : x ∈ cmIdx m n) :
    x.1 < m ∧ x.2 < n := by
  unfold cmIdx at h
  rcases List.mem_flatMap.mp h with ⟨j, hj, hx⟩
  rcases List.mem_map.mp hx with ⟨i, hi, he⟩
  subst he
  exact ⟨List.mem_range.mp hi, List.mem_range.mp hj⟩

section Bridges

variable {K : Type} [Field K]

/-- `bestInMat` is the running argmax over the column-major position list. -/
theorem bestInMat_eq_amax (score : K → ℚ) (A : Mat K) (m n : ℕ) :
    bestInMat score A m n =
      amaxFold (fun x => score (A x.1 x.2)) (0, 0, 0) (cmIdx m n) := by
  unfold bestInMat
  induction n with
  | zero => rfl
  | succ n ih =>
    rw [List.range_succ, List.foldl_append, ih, cmIdx_succ, amaxFold_append]
    generalize amaxFold (fun x => score (A x.1 x.2)) (0, 0, 0) (cmIdx m n) = b
    show List.foldl _ b [n] = _
    rw [List.foldl_cons, List.foldl_nil]
    unfold amaxFold
    rw [List.foldl_map]
    rfl

/-- Direct specification of the running column scan `bestInColGo`: the value
never decreases, bounds every scanned score, and the result is either the
initial accumulator or the first scanned row whose score strictly exceeds
everything before it. -/
theorem bestInColGo_spec (score : K → ℚ) (col : ℕ → K) :
    ∀ (s i : ℕ) (b : ℚ × ℕ),
      b.1 ≤ (bestInColGo score col i s b).1 ∧
      (∀ x, i ≤ x → x < i + s →
        score (col x) ≤ (bestInColGo score col i s b).1) ∧
      (bestInColGo score col i s b = b ∨
        (b.1 < (bestInColGo score col i s b).1 ∧
         i ≤ (bestInColGo score col i s b).2 ∧
         (bestInColGo score col i s b).2 < i + s ∧
         (bestInColGo score col i s b).1 =
           score (col (bestInColGo score col i s b).2) ∧
         ∀ x, i ≤ x → x < (bestInColGo score col i s b).2 →
           score (col x) < (bestInColGo score col i s b).1)) := by
  intro s
  induction s with
  | zero =>
    intro i b
    refine ⟨le_rfl, ?_, Or.inl rfl⟩
    intro x h1 h2
    omega
  | succ s ih =>
    intro i b
    set b' := if score (col i) > b.1 then (score (col i), i) else b with hb'
    have hunf : bestInColGo score col i (s+1) b = bestInColGo score col (i+1) s b' :=
      rfl
    rw [hunf]
    obtain ⟨ih1, ih2, ih3⟩ := ih (i+1) b'
    have hbb' : b.1 ≤ b'.1 := by
      rw [hb']
      split
      · exact le_of_lt (by assumption)
      · exact le_rfl
    have hcolb' : score (col i) ≤ b'.1 := by
      rw [hb']
      split
      · exact le_rfl
      · exact le_of_not_gt (by assumption)
    refine ⟨le_trans hbb' ih1, ?_, ?_⟩
    · intro x h1 h2
      rcases Nat.eq_or_lt_of_le h1 with h | h
      · subst h
        exact le_trans hcolb' ih1
      · exact ih2 x h (by omega)
    · rcases ih3 with heq | ⟨hlt, hge, hub, hat, hstrict⟩
      · rw [heq]
        rw [hb']
        by_cases hc : score (col i) > b.1
        · rw [if_pos hc]
          refine Or.inr ⟨hc, le_rfl, (by show i < i + (s+1); omega), rfl, ?_⟩
          intro x h1 h2
          have h2' : x < i := h2
          omega
        · rw [if_neg hc]
          exact Or.inl rfl
      · refine Or.inr ⟨lt_of_le_of_lt hbb' hlt, by omega, by omega, hat, ?_⟩
        intro x h1 h2
        rcases Nat.eq_or_lt_of_le h1 with h | h
        · subst h
          exact lt_of_le_of_lt hcolb' hlt
        · exact hstrict x h h2

/-- Specification of the partial-pivoting column search: the returned row is
in range, its score is maximal over the searched rows, and every earlier
searched row has a strictly smaller score (first occurrence wins). -/
theorem pivotRow_spec (score : K → ℚ) (hs : ScoreOk score) (A : Mat K)
    (c j m : ℕ) (hjm : j < m) :
    j ≤ pivotRow score A c j m ∧ pivotRow score A c j m < m ∧
    (∀ i, j ≤ i → i < m → score (A i c) ≤ score (A (pivotRow score A c j m) c)) ∧
    (∀ i, j ≤ i → i < pivotRow score A c j m →
      score (A i c) < score (A (pivotRow score A c j m) c)) := by
  obtain ⟨h1, h2, h3⟩ :=
    bestInColGo_spec score (fun i => A i c) (m - j) j (0, j)
  unfold pivotRow
  rcases h3 with heq | ⟨hlt, hge, hub, hat, hstrict⟩
  · rw [heq]
    refine ⟨le_rfl, hjm, ?_, ?_⟩
    · intro i hi1 hi2
      have := h2 i hi1 (by omega)
      rw [heq] at this
      exact le_trans this (hs.nonneg _)
    · intro i hi1 hi2
      omega
  · refine ⟨hge, by omega, ?_, ?_⟩
    · intro i hi1 hi2
      have := h2 i hi1 (by omega)
      rw [hat] at this
      exact this
    · intro i hi1 hi2
      have := hstrict i hi1 hi2
      rw [hat] at this
      exact this

/-- If the chosen pivot entry is zero, the whole searched column segment is
zero (the degenerate-pivot argument). -/
theorem pivotRow_zero (score : K → ℚ) (hs : ScoreOk score) (A : Mat K)
    (c j m : ℕ) (hjm : j < m)
    (hz : A (pivotRow score A c j m) c = 0) :
    ∀ i, j ≤ i → i < m → A i c = 0 := by
  intro i h1 h2
  have hspec := pivotRow_spec score hs A c j m hjm
  have hle := hspec.2.2.1 i h1 h2
  rw [hz, hs.zero] at hle
  exact hs.eq_zero _ hle

/-- Splitting the column-major scan at a column boundary. -/
theorem cmIdx_add (m a b : ℕ) :
    cmIdx m (a + b) = cmIdx m a ++ (cmIdx m b).map (fun x => (x.1, a + x.2)) := by
  induction b with
  | zero => simp [cmIdx_zero]
  | succ b ih =>
    rw [show a + (b + 1) = (a + b) + 1 from rfl, cmIdx_succ, ih, cmIdx_succ,
      List.map_append, List.append_assoc]
    congr 2
    rw [List.map_map]
    rfl

/-- Shift of a position's column index. -/
def colShift (off : ℕ) (x : ℕ × ℕ) : ℕ × ℕ := (x.1, off + x.2)

/-- Shift of an accumulator's column index (value untouched). -/
def triShift (off : ℕ) (r : ℕ × ℕ × ℚ) : ℕ × ℕ × ℚ := (r.1, off + r.2.1, r.2.2)

/-- The cross-thread reduction step of the parallel pivot search. -/
def combineMax (a b : ℕ × ℕ × ℚ) : ℕ × ℕ × ℚ := if b.2.2 > a.2.2 then b else a

theorem triShift_val (off : ℕ) (r : ℕ × ℕ × ℚ) : (triShift off r).2.2 = r.2.2 :=
  rfl

/-- Column shifts commute with the running argmax (positions and the
accumulator shifted together). -/
theorem amaxFold_shift (v : ℕ × ℕ → ℚ) (off : ℕ) (xs : List (ℕ × ℕ)) :
    ∀ b : ℕ × ℕ × ℚ,
      amaxFold v (triShift off b) (xs.map (colShift off)) =
        triShift off (amaxFold (fun x => v (colShift off x)) b xs) := by
  induction xs with
  | nil => intro b; rfl
  | cons x t ih =>
    intro b
    rw [List.map_cons, amaxFold_cons, amaxFold_cons]
    have hstep : amaxStep v (triShift off b) (colShift off x) =
        triShift off (amaxStep (fun y => v (colShift off y)) b x) := by
      unfold amaxStep triShift colShift
      by_cases hc : v (x.1, off + x.2) > b.2.2
      · rw [if_pos hc, if_pos hc]
      · rw [if_neg hc, if_neg hc]
    rw [hstep]
    exact ih (amaxStep (fun y => v (colShift off y)) b x)

/-- The cross-thread reduce of one chunk result against a running
accumulator equals continuing the sequential scan over that chunk. -/
theorem combine_chunk (v : ℕ × ℕ → ℚ) (off : ℕ) (xs : List (ℕ × ℕ))
    (acc : ℕ × ℕ × ℚ) (hacc : 0 ≤ acc.2.2) :
    combineMax acc
        (triShift off (amaxFold (fun x => v (colShift off x)) (0, 0, 0) xs)) =
      amaxFold v acc (xs.map (colShift off)) := by
  have hshift : amaxFold v (0, off, 0) (xs.map (colShift off)) =
      triShift off (amaxFold (fun x => v (colShift off x)) (0, 0, 0) xs) :=
    amaxFold_shift v off xs (0, 0, 0)
  have habs := amaxFold_absorb v (xs.map (colShift off)) acc hacc
  have habs0 : amaxFold v (0, off, 0) (xs.map (colShift off)) =
      (if (amaxFold v (0, 0, 0) (xs.map (colShift off))).2.2 > 0 then
        amaxFold v (0, 0, 0) (xs.map (colShift off)) else (0, off, 0)) :=
    amaxFold_absorb v (xs.map (colShift off)) (0, off, 0) (le_refl 0)
  have hmono := amaxFold_val_mono v (xs.map (colShift off)) (0, 0, 0)
  set R := amaxFold v (0, 0, 0) (xs.map (colShift off)) with hR
  set r := amaxFold (fun x => v (colShift off x)) (0, 0, 0) xs with hr
  unfold combineMax
  rw [triShift_val]
  by_cases hpos : R.2.2 > 0
  · have h1 : triShift off r = R := by
      rw [← hshift, habs0, if_pos hpos]
    have h2 : r.2.2 = R.2.2 := by
      rw [← triShift_val off r, h1]
    rw [habs, h1, h2]
  · have hz : R.2.2 = 0 := le_antisymm (not_lt.mp hpos) hmono
    have h1 : triShift off r = (0, off, 0) := by
      rw [← hshift, habs0, if_neg hpos]
    have h2 : r.2.2 = 0 := by
      rw [← triShift_val off r, h1]
    have hc1 : ¬ r.2.2 > acc.2.2 := by
      rw [h2]; exact not_lt.mpr hacc
    have hc2 : ¬ R.2.2 > acc.2.2 := by
      rw [hz]; exact not_lt.mpr hacc
    rw [habs, if_neg hc1, if_neg hc2]

section ParSeq

variable {K : Type} [Field K]

theorem fpChunkBests_cons (score : K → ℚ) (A : Mat K) (rLo cLo m off w : ℕ)
    (ws : List ℕ) :
    fpChunkBests score A rLo cLo m off (w :: ws) =
      triShift off
          (bestInMat score (fun i c => A (rLo + i) (cLo + off + c)) (m - rLo) w) ::
        fpChunkBests score A rLo cLo m (off + w) ws := by
  rfl

/-- The chunked (parallel) reduction over any contiguous column split,
starting from any accumulator with nonnegative value, equals continuing the
sequential column-major scan over the same columns. -/
theorem fpChunk_fold (score : K → ℚ) (A : Mat K) (rLo cLo m : ℕ) :
    ∀ (ws : List ℕ) (off : ℕ) (acc : ℕ × ℕ × ℚ), 0 ≤ acc.2.2 →
      (fpChunkBests score A rLo cLo m off ws).foldl combineMax acc =
        amaxFold (fun x => score (A (rLo + x.1) (cLo + x.2))) acc
          ((cmIdx (m - rLo) ws.sum).map (colShift off)) := by
  intro ws
  induction ws with
  | nil =>
    intro off acc hacc
    rw [show List.sum ([] : List ℕ) = 0 from rfl, cmIdx_zero]
    rfl
  | cons w t ih =>
    intro off acc hacc
    rw [show (w :: t).sum = w + t.sum from by rw [List.sum_cons]]
    rw [cmIdx_add, List.map_append, amaxFold_append]
    rw [fpChunkBests_cons, List.foldl_cons]
    have hb : bestInMat score (fun i c => A (rLo + i) (cLo + off + c))
        (m - rLo) w =
        amaxFold (fun x => score (A (rLo + x.1) (cLo + off + x.2))) (0, 0, 0)
          (cmIdx (m - rLo) w) :=
      bestInMat_eq_amax score (fun i c => A (rLo + i) (cLo + off + c)) (m - rLo) w
    have hvc : (fun x : ℕ × ℕ => score (A (rLo + x.1) (cLo + off + x.2))) =
        (fun x : ℕ × ℕ =>
          score (A (rLo + (colShift off x).1) (cLo + (colShift off x).2))) := by
      funext x
      show score (A (rLo + x.1) (cLo + off + x.2)) =
        score (A (rLo + x.1) (cLo + (off + x.2)))
      rw [Nat.add_assoc]
    have hcomb := combine_chunk
      (fun x => score (A (rLo + x.1) (cLo + x.2))) off (cmIdx (m - rLo) w)
      acc hacc
    rw [hb, hvc] at *
    rw [hcomb]
    rw [ih (off + w) _ (le_trans hacc (amaxFold_val_mono _ _ acc))]
    congr 1
    rw [List.map_map]
    congr 1
    funext x
    unfold colShift
    show ((x.1, (off + w) + x.2) : ℕ × ℕ) = (x.1, off + (w + x.2))
    rw [Nat.add_assoc]

/-- The parallel fused search over any contiguous chunking of the region's
columns returns exactly the sequential result. -/
theorem fpBestPar_eq_seq (score : K → ℚ) (A : Mat K) (rLo cLo m n : ℕ)
    (ws : List ℕ) (hsum : ws.sum = n - cLo) :
    fpBestPar score A rLo cLo m ws = bestInSub score A rLo cLo m n := by
  have hfold : fpBestPar score A rLo cLo m ws =
      (fpChunkBests score A rLo cLo m 0 ws).foldl combineMax (0, 0, 0) := rfl
  rw [hfold, fpChunk_fold score A rLo cLo m ws 0 (0, 0, 0) le_rfl, hsum]
  unfold bestInSub
  rw [bestInMat_eq_amax]
  have hmap : (cmIdx (m - rLo) (n - cLo)).map (colShift 0) =
      cmIdx (m - rLo) (n - cLo) := by
    have h0 : colShift 0 = (fun x : ℕ × ℕ => x) := by
      funext x
      unfold colShift
      rw [Nat.zero_add]
    rw [h0, List.map_id']
  rw [hmap]

end ParSeq

end Bridges

end ArgmaxFold

section SwapPerm

/-- Elementary transposition of two positions. -/
def swapPos (a b x : ℕ) : ℕ := if x = a then b else if x = b then a else x

theorem swapPos_self (a x : ℕ) : swapPos a a x = x := by
  unfold swapPos
  by_cases h : x = a
  · rw [if_pos h, h]
  · rw [if_neg h, if_neg h]

theorem swapPos_left (a b : ℕ) : swapPos a b a = b := by
  unfold swapPos
  rw [if_pos rfl]

theorem swapPos_right (a b : ℕ) : swapPos a b b = a := by
  unfold swapPos
  by_cases h : b = a
  · rw [if_pos h]; exact h
  · rw [if_neg h, if_pos rfl]

theorem swapPos_other {a b x : ℕ} (h1 : x ≠ a) (h2 : x ≠ b) :
    swapPos a b x = x := by
  unfold swapPos
  rw [if_neg h1, if_neg h2]

theorem swapPos_invol (a b x : ℕ) : swapPos a b (swapPos a b x) = x := by
  unfold swapPos
  split_ifs <;> omega

theorem swapPos_lt {a b x M : ℕ} (ha : a < M) (hb : b < M) (hx : x < M) :
    swapPos a b x < M := by
  unfold swapPos
  split
  · exact hb
  · split
    · exact ha
    · exact hx

theorem swapPos_add (r a b x : ℕ) :
    swapPos (r + a) (r + b) (r + x) = r + swapPos a b x := by
  unfold swapPos
  by_cases h1 : x = a
  · subst h1
    rw [if_pos rfl, if_pos rfl]
  · rw [if_neg (by omega), if_neg h1]
    by_cases h2 : x = b
    · subst h2
      rw [if_pos rfl, if_pos rfl]
    · rw [if_neg (by omega), if_neg h2]

/-- The permutation array obtained from a transposition list: entry `q`
swaps positions `i0 + q` and `i0 + q + ts[q]`, applied in order (this is
the semantics of `perm.swap(j, imax)` in step order). -/
def sigmaOf : List ℕ → ℕ → ℕ → ℕ
  | [], _, x => x
  | t :: ts, i0, x => swapPos i0 (i0 + t) (sigmaOf ts (i0 + 1) x)

theorem sigmaOf_nil (i0 x : ℕ) : sigmaOf [] i0 x = x := rfl

theorem sigmaOf_append_one (ts : List ℕ) (t : ℕ) :
    ∀ i0 x, sigmaOf (ts ++ [t]) i0 x =
      sigmaOf ts i0 (swapPos (i0 + ts.length) (i0 + ts.length + t) x) := by
  induction ts with
  | nil =>
    intro i0 x
    show swapPos i0 (i0 + t) (sigmaOf [] (i0+1) x) = _
    rw [sigmaOf_nil]
    show swapPos i0 (i0 + t) x = swapPos (i0 + 0) (i0 + 0 + t) x
    rw [Nat.add_zero]
  | cons s ts ih =>
    intro i0 x
    show swapPos i0 (i0 + s) (sigmaOf (ts ++ [t]) (i0+1) x) = _
    rw [ih (i0+1) x]
    have h1 : i0 + 1 + ts.length = i0 + (s :: ts).length := by
      rw [List.length_cons]
      omega
    rw [h1]
    rfl

/-- Positions below the start of the swap range are fixed. -/
theorem sigmaOf_lt_start (ts : List ℕ) :
    ∀ i0 x, x < i0 → sigmaOf ts i0 x = x := by
  induction ts with
  | nil => intro i0 x _; rfl
  | cons t ts ih =>
    intro i0 x hx
    show swapPos i0 (i0 + t) (sigmaOf ts (i0+1) x) = x
    rw [ih (i0+1) x (by omega)]
    exact swapPos_other (by omega) (by omega)

/-- The image of the swap range stays in range. -/
theorem sigmaOf_lt (ts : List ℕ) :
    ∀ (i0 M : ℕ), (∀ q (h : q < ts.length), i0 + q + ts[q] < M) →
      ∀ x, x < M → sigmaOf ts i0 x < M := by
  induction ts with
  | nil => intro _ _ _ x hx; exact hx
  | cons t ts ih =>
    intro i0 M hb x hx
    show swapPos i0 (i0 + t) (sigmaOf ts (i0+1) x) < M
    have h0 : i0 + 0 + t < M := hb 0 (by simp)
    refine swapPos_lt (by omega) (by omega) ?_
    refine ih (i0+1) M ?_ x hx
    intro q h
    have h2 := hb (q+1) (by simp only [List.length_cons]; omega)
    simp only [List.getElem_cons_succ] at h2
    omega

/-- The reverse application, an explicit inverse for `sigmaOf`. -/
def sigmaInv : List ℕ → ℕ → ℕ → ℕ
  | [], _, x => x
  | t :: ts, i0, x => sigmaInv ts (i0 + 1) (swapPos i0 (i0 + t) x)

theorem sigmaInv_sigmaOf (ts : List ℕ) :
    ∀ i0 x, sigmaInv ts i0 (sigmaOf ts i0 x) = x := by
  induction ts with
  | nil => intro _ _; rfl
  | cons t ts ih =>
    intro i0 x
    show sigmaInv ts (i0+1) (swapPos i0 (i0+t) (swapPos i0 (i0+t) (sigmaOf ts (i0+1) x))) = x
    rw [swapPos_invol, ih]

theorem sigmaOf_sigmaInv (ts : List ℕ) :
    ∀ i0 x, sigmaOf ts i0 (sigmaInv ts i0 x) = x := by
  induction ts with
  | nil => intro _ _; rfl
  | cons t ts ih =>
    intro i0 x
    show swapPos i0 (i0+t) (sigmaOf ts (i0+1) (sigmaInv ts (i0+1) (swapPos i0 (i0+t) x))) = x
    rw [ih, swapPos_invol]

theorem sigmaInv_lt (ts : List ℕ) :
    ∀ (i0 M : ℕ), (∀ q (h : q < ts.length), i0 + q + ts[q] < M) →
      ∀ x, x < M → sigmaInv ts i0 x < M := by
  induction ts with
  | nil => intro _ _ _ x hx; exact hx
  | cons t ts ih =>
    intro i0 M hb x hx
    show sigmaInv ts (i0+1) (swapPos i0 (i0 + t) x) < M
    have h0 : i0 + 0 + t < M := hb 0 (by simp)
    refine ih (i0+1) M ?_ _ (swapPos_lt (by omega) (by omega) hx)
    intro q h
    have h2 := hb (q+1) (by simp only [List.length_cons]; omega)
    simp only [List.getElem_cons_succ] at h2
    omega

end SwapPerm

section EntryLemmas

variable {K : Type} [Field K]

theorem rowSwap_in (A : Mat K) (i1 i2 cl ch i c' : ℕ)
    (h : cl ≤ c' ∧ c' < ch) :
    rowSwap A i1 i2 cl ch i c' = A (swapPos i1 i2 i) c' := by
  unfold rowSwap swapPos
  rw [if_pos h]
  split_ifs <;> rfl

theorem rowSwap_out (A : Mat K) (i1 i2 cl ch i c' : ℕ)
    (h : ¬ (cl ≤ c' ∧ c' < ch)) :
    rowSwap A i1 i2 cl ch i c' = A i c' := by
  unfold rowSwap
  rw [if_neg h]

theorem rowSwap_other (A : Mat K) (i1 i2 cl ch i c' : ℕ)
    (h1 : i ≠ i1) (h2 : i ≠ i2) :
    rowSwap A i1 i2 cl ch i c' = A i c' := by
  unfold rowSwap
  by_cases hc : cl ≤ c' ∧ c' < ch
  · rw [if_pos hc, if_neg h1, if_neg h2]
  · rw [if_neg hc]

theorem scaleColPP_on (A : Mat K) (r c m i c' : ℕ)
    (h : c' = c ∧ r < i ∧ i < m) :
    scaleColPP A r c m i c' = A i c' * (A r c)⁻¹ := by
  unfold scaleColPP
  rw [if_pos h]

theorem scaleColPP_off (A : Mat K) (r c m i c' : ℕ)
    (h : ¬ (c' = c ∧ r < i ∧ i < m)) :
    scaleColPP A r c m i c' = A i c' := by
  unfold scaleColPP
  rw [if_neg h]

theorem rank1PP_on (A : Mat K) (r c m cHi i c' : ℕ)
    (h : r < i ∧ i < m ∧ c < c' ∧ c' < cHi) :
    rank1PP A r c m cHi i c' = A i c' - A i c * A r c' := by
  unfold rank1PP
  rw [if_pos h]

theorem rank1PP_off (A : Mat K) (r c m cHi i c' : ℕ)
    (h : ¬ (r < i ∧ i < m ∧ c < c' ∧ c' < cHi)) :
    rank1PP A r c m cHi i c' = A i c' := by
  unfold rank1PP
  rw [if_neg h]

section PpElimEntries

variable (B : Mat K) (imax m cl ch wLo n rOff j : ℕ)

/-- Rows above the step's pivot row are untouched. -/
theorem ppElim_row_low (him1 : rOff + j ≤ imax) (i c' : ℕ) (hlow : i < rOff + j) :
    ppElim B imax m cl ch wLo n rOff j i c' = B i c' := by
  unfold ppElim
  rw [rank1PP_off _ _ _ _ _ _ _ (by omega), scaleColPP_off _ _ _ _ _ _ (by omega)]
  exact rowSwap_other _ _ _ _ _ _ _ (by omega) (by omega)

/-- Rows at or beyond `m` are untouched. -/
theorem ppElim_row_high (him1 : rOff + j ≤ imax) (him2 : imax < m)
    (i c' : ℕ) (hhigh : m ≤ i) :
    ppElim B imax m cl ch wLo n rOff j i c' = B i c' := by
  unfold ppElim
  rw [rank1PP_off _ _ _ _ _ _ _ (by omega), scaleColPP_off _ _ _ _ _ _ (by omega)]
  exact rowSwap_other _ _ _ _ _ _ _ (by omega) (by omega)

/-- Columns outside the view are untouched. -/
theorem ppElim_col_out (hcl : cl ≤ wLo) (hch : wLo + n ≤ ch) (hj : j < n)
    (i c' : ℕ) (hout : c' < cl ∨ ch ≤ c') :
    ppElim B imax m cl ch wLo n rOff j i c' = B i c' := by
  unfold ppElim
  rw [rank1PP_off _ _ _ _ _ _ _ (by omega), scaleColPP_off _ _ _ _ _ _ (by omega)]
  exact rowSwap_out _ _ _ _ _ _ _ (by omega)

/-- The pivot row holds (swapped-in) unscaled values across the view. -/
theorem ppElim_pivot_row (c' : ℕ) (hc : cl ≤ c' ∧ c' < ch) :
    ppElim B imax m cl ch wLo n rOff j (rOff + j) c' = B imax c' := by
  unfold ppElim
  rw [rank1PP_off _ _ _ _ _ _ _ (by omega), scaleColPP_off _ _ _ _ _ _ (by omega),
    rowSwap_in _ _ _ _ _ _ _ hc, swapPos_left]

/-- View columns outside the window and left of (or at) the pivot column,
on any row: only the row swap acts. -/
theorem ppElim_swap_only (i c' : ℕ) (hc : cl ≤ c' ∧ c' < ch)
    (hnc : c' ≠ wLo + j) (hside : c' ≤ wLo + j ∨ wLo + n ≤ c') :
    ppElim B imax m cl ch wLo n rOff j i c' = B (swapPos (rOff + j) imax i) c' := by
  unfold ppElim
  rw [rank1PP_off _ _ _ _ _ _ _ (by omega), scaleColPP_off _ _ _ _ _ _ (by omega),
    rowSwap_in _ _ _ _ _ _ _ hc]

/-- The scaled pivot column below the pivot. -/
theorem ppElim_scaled_col (hcl : cl ≤ wLo) (hch : wLo + n ≤ ch) (hj : j < n)
    (i : ℕ) (hi : rOff + j < i ∧ i < m) :
    ppElim B imax m cl ch wLo n rOff j i (wLo + j) =
      B (swapPos (rOff + j) imax i) (wLo + j) * (B imax (wLo + j))⁻¹ := by
  unfold ppElim
  rw [rank1PP_off _ _ _ _ _ _ _ (by omega),
    scaleColPP_on _ _ _ _ _ _ ⟨rfl, hi.1, hi.2⟩,
    rowSwap_in _ _ _ _ _ _ _ ⟨by omega, by omega⟩,
    rowSwap_in _ _ _ _ _ _ _ ⟨by omega, by omega⟩, swapPos_left]

/-- The Schur-updated trailing block. -/
theorem ppElim_schur (hcl : cl ≤ wLo) (hch : wLo + n ≤ ch) (hj : j < n)
    (i c' : ℕ) (hi : rOff + j < i ∧ i < m)
    (hc : wLo + j < c' ∧ c' < wLo + n) :
    ppElim B imax m cl ch wLo n rOff j i c' =
      B (swapPos (rOff + j) imax i) c' -
        B (swapPos (rOff + j) imax i) (wLo + j) * (B imax (wLo + j))⁻¹ *
          B imax c' := by
  unfold ppElim
  rw [rank1PP_on _ _ _ _ _ _ _ ⟨hi.1, hi.2, hc.1, hc.2⟩,
    scaleColPP_off _ _ _ _ _ _ (by omega),
    scaleColPP_on _ _ _ _ _ _ ⟨rfl, hi.1, hi.2⟩,
    scaleColPP_off _ _ _ _ _ _ (by omega),
    rowSwap_in _ _ _ _ _ _ _ ⟨by omega, by omega⟩,
    rowSwap_in _ _ _ _ _ _ _ ⟨by omega, by omega⟩,
    rowSwap_in _ _ _ _ _ _ _ ⟨by omega, by omega⟩,
    rowSwap_in _ _ _ _ _ _ _ ⟨by omega, by omega⟩, swapPos_left]

end PpElimEntries

end EntryLemmas

section PpInvariant

variable {K : Type} [Field K]

/-- Loop invariant of unblocked partial-pivoting elimination after `j`
steps, relating the current state to the original matrix `A0` and the
incoming permutation slice `p0`: the recorded transpositions are in range
and determine the count, the permutation slice and the row placement of all
view columns outside the window, and the window columns carry the partly
built `L`/`U` factors with the Schur residual. -/
structure PpInv (A0 : Mat K) (p0 : ℕ → ℕ) (m cl ch wLo n rOff j : ℕ)
    (st : PpState K) : Prop where
  len : st.ts.length = j
  tsb : ∀ q (h : q < st.ts.length), q + st.ts[q] < m - rOff
  cnt : st.cnt = (st.ts.filter (fun t => t ≠ 0)).length
  perm : ∀ x, st.p x = p0 (sigmaOf st.ts 0 x)
  untouched : ∀ i c, i < rOff ∨ m ≤ i ∨ c < cl ∨ ch ≤ c → st.A i c = A0 i c
  outside : ∀ t, t < m - rOff → ∀ c, cl ≤ c → c < ch →
    c < wLo ∨ wLo + n ≤ c → st.A (rOff + t) c = A0 (rOff + sigmaOf st.ts 0 t) c
  eqn : ∀ t, t < m - rOff → ∀ q, q < n →
    A0 (rOff + sigmaOf st.ts 0 t) (wLo + q) =
      (∑ k ∈ Finset.range (min j (min t (q+1))),
        st.A (rOff + t) (wLo + k) * st.A (rOff + k) (wLo + q)) +
      (if q < j ∧ q < t then 0 else st.A (rOff + t) (wLo + q))

/-- The invariant holds initially. -/
theorem ppInv_init (A0 : Mat K) (p0 : ℕ → ℕ) (m cl ch wLo n rOff : ℕ) :
    PpInv A0 p0 m cl ch wLo n rOff 0 ⟨A0, p0, [], 0⟩ := by
  refine ⟨rfl, ?_, rfl, ?_, ?_, ?_, ?_⟩
  · intro q h
    simp at h
  · intro x
    rfl
  · intro i c _
    rfl
  · intro t _ c _ _ _
    rfl
  · intro t _ q _
    show A0 (rOff + t) (wLo + q) =
      (∑ k ∈ Finset.range (min 0 (min t (q+1))), _) + _
    rw [Nat.zero_min, Finset.range_zero, Finset.sum_empty,
      if_neg (by omega), zero_add]

/-- One elimination step preserves the invariant (with the step counter
advanced). -/
theorem ppStep_inv (score : K → ℚ) (hs : ScoreOk score) (A0 : Mat K)
    (p0 : ℕ → ℕ) (m cl ch wLo n rOff j : ℕ) (st : PpState K)
    (hcl : cl ≤ wLo) (hch : wLo + n ≤ ch) (hmn : rOff + n ≤ m) (hj : j < n)
    (hinv : PpInv A0 p0 m cl ch wLo n rOff j st) :
    PpInv A0 p0 m cl ch wLo n rOff (j+1)
      (ppStep score m cl ch wLo n rOff j st) := by
  have hjm : rOff + j < m := by omega
  obtain ⟨hp1, hp2, hp3, hp4⟩ :=
    pivotRow_spec score hs st.A (wLo + j) (rOff + j) m hjm
  set imax := pivotRow score st.A (wLo + j) (rOff + j) m with himdef
  set tj := imax - (rOff + j) with htjdef
  have himax : imax = rOff + (j + tj) := by omega
  have htjM : j + tj < m - rOff := by omega
  have hjM : j < m - rOff := by omega
  set B' := ppElim st.A imax m cl ch wLo n rOff j with hBdef
  have hA' : (ppStep score m cl ch wLo n rOff j st).A = B' := rfl
  have hts' : (ppStep score m cl ch wLo n rOff j st).ts = st.ts ++ [tj] := rfl
  have hcnt' : (ppStep score m cl ch wLo n rOff j st).cnt =
      if imax ≠ rOff + j then st.cnt + 1 else st.cnt := rfl
  have hp' : (ppStep score m cl ch wLo n rOff j st).p =
      (if imax ≠ rOff + j then
        (fun x => if x = j then st.p (imax - rOff)
                  else if x = imax - rOff then st.p j else st.p x)
       else st.p) := rfl
  have hsig : ∀ x, sigmaOf (st.ts ++ [tj]) 0 x =
      sigmaOf st.ts 0 (swapPos j (j + tj) x) := by
    intro x
    rw [sigmaOf_append_one, hinv.len, Nat.zero_add]
  have hswap : ∀ t', swapPos (rOff + j) imax (rOff + t') =
      rOff + swapPos j (j + tj) t' := by
    intro t'
    rw [himax]
    exact swapPos_add rOff j (j + tj) t'
  -- entry facts
  have F1 : ∀ i k, k < j → B' i (wLo + k) =
      st.A (swapPos (rOff + j) imax i) (wLo + k) := by
    intro i k hk
    exact ppElim_swap_only st.A imax m cl ch wLo n rOff j i (wLo + k)
      ⟨by omega, by omega⟩ (by omega) (by omega)
  have Flow : ∀ i c', i < rOff + j → B' i c' = st.A i c' := by
    intro i c' hl
    exact ppElim_row_low st.A imax m cl ch wLo n rOff j hp1 i c' hl
  have Fpiv : ∀ c', cl ≤ c' → c' < ch →
      B' (rOff + j) c' = st.A imax c' := by
    intro c' h1 h2
    exact ppElim_pivot_row st.A imax m cl ch wLo n rOff j c' ⟨h1, h2⟩
  have Fscal : ∀ i, rOff + j < i → i < m → B' i (wLo + j) =
      st.A (swapPos (rOff + j) imax i) (wLo + j) *
        (st.A imax (wLo + j))⁻¹ := by
    intro i h1 h2
    exact ppElim_scaled_col st.A imax m cl ch wLo n rOff j hcl hch hj i ⟨h1, h2⟩
  have Fschur : ∀ i c', rOff + j < i → i < m → wLo + j < c' → c' < wLo + n →
      B' i c' = st.A (swapPos (rOff + j) imax i) c' -
        st.A (swapPos (rOff + j) imax i) (wLo + j) *
          (st.A imax (wLo + j))⁻¹ * st.A imax c' := by
    intro i c' h1 h2 h3 h4
    exact ppElim_schur st.A imax m cl ch wLo n rOff j hcl hch hj i c'
      ⟨h1, h2⟩ ⟨h3, h4⟩
  -- the degenerate-pivot fact, used in the q = j case
  have Fhigh : ∀ i c', m ≤ i → B' i c' = st.A i c' := by
    intro i c' h
    exact ppElim_row_high st.A imax m cl ch wLo n rOff j hp1 hp2 i c' h
  have Fout : ∀ i c', c' < cl ∨ ch ≤ c' → B' i c' = st.A i c' := by
    intro i c' h
    exact ppElim_col_out st.A imax m cl ch wLo n rOff j hcl hch hj i c' h
  have Fzero : st.A imax (wLo + j) = 0 →
      ∀ i, rOff + j ≤ i → i < m → st.A i (wLo + j) = 0 := by
    intro hz i h1 h2
    exact pivotRow_zero score hs st.A (wLo + j) (rOff + j) m hjm hz i h1 h2
  constructor
  · rw [hts', List.length_append, hinv.len]
    rfl
  · rw [hts']
    intro q hlt
    by_cases hq : q < st.ts.length
    · rw [List.getElem_append_left hq]
      exact hinv.tsb q hq
    · have hqlen : q = st.ts.length := by
        rw [List.length_append, List.length_singleton] at hlt
        omega
      have hqj : q = j := by
        rw [hinv.len] at hqlen
        exact hqlen
      have hgv : (st.ts ++ [tj])[q] = tj := by
        subst hqlen
        rw [List.getElem_append_right (le_refl _)]
        simp
      rw [hgv]
      omega
  · rw [hcnt', hts', List.filter_append, List.length_append, hinv.cnt]
    by_cases hz : imax = rOff + j
    · have htz : tj = 0 := by omega
      rw [if_neg (by omega), htz]
      simp
    · have htz : tj ≠ 0 := by omega
      rw [if_pos hz]
      have : List.filter (fun t => decide (t ≠ 0)) [tj] = [tj] := by
        simp [htz]
      rw [this]
      rfl
  · rw [hp', hts']
    intro x
    rw [hsig x]
    by_cases hz : imax = rOff + j
    · have htz : tj = 0 := by omega
      rw [if_neg (by omega), htz, Nat.add_zero, swapPos_self]
      exact hinv.perm x
    · have hjne : j ≠ j + tj := by omega
      rw [if_pos hz]
      show (if x = j then st.p (imax - rOff)
            else if x = imax - rOff then st.p j else st.p x) =
        p0 (sigmaOf st.ts 0 (swapPos j (j + tj) x))
      by_cases hx1 : x = j
      · have harg : imax - rOff = j + tj := by omega
        rw [if_pos hx1, hx1, swapPos_left, hinv.perm, harg]
      · rw [if_neg hx1]
        by_cases hx2 : x = imax - rOff
        · have hx2' : x = j + tj := by omega
          rw [if_pos hx2, hx2', swapPos_right]
          exact hinv.perm j
        · have hx2' : x ≠ j + tj := by omega
          rw [if_neg hx2, swapPos_other hx1 hx2']
          exact hinv.perm x
  · rw [hA']
    intro i c h
    rcases h with h | h | h | h
    · rw [Flow i c (by omega)]
      exact hinv.untouched i c (Or.inl h)
    · rw [Fhigh i c h]
      exact hinv.untouched i c (Or.inr (Or.inl h))
    · rw [Fout i c (Or.inl h)]
      exact hinv.untouched i c (Or.inr (Or.inr (Or.inl h)))
    · rw [Fout i c (Or.inr h)]
      exact hinv.untouched i c (Or.inr (Or.inr (Or.inr h)))
  · rw [hA', hts']
    intro t ht c hc1 hc2 hcw
    rw [hsig t]
    have hstep : B' (rOff + t) c =
        st.A (swapPos (rOff + j) imax (rOff + t)) c :=
      ppElim_swap_only st.A imax m cl ch wLo n rOff j (rOff + t) c
        ⟨hc1, hc2⟩ (by omega) (by omega)
    rw [hstep, hswap t]
    have ht2 : swapPos j (j + tj) t < m - rOff := swapPos_lt hjM htjM ht
    exact hinv.outside (swapPos j (j + tj) t) ht2 c hc1 hc2 hcw
  · rw [hA', hts']
    intro t ht q hq
    rw [hsig t]
    set t2 := swapPos j (j + tj) t with ht2def
    have ht2 : t2 < m - rOff := swapPos_lt hjM htjM ht
    have hEq := hinv.eqn t2 ht2 q hq
    -- helper: the value of B' on window entries with row index rewritten
    have F1' : ∀ t' k, k < j → B' (rOff + t') (wLo + k) =
        st.A (rOff + swapPos j (j + tj) t') (wLo + k) := by
      intro t' k hk
      rw [F1 (rOff + t') k hk, hswap t']
    have FlowW : ∀ k c', k < j → B' (rOff + k) c' = st.A (rOff + k) c' := by
      intro k c' hk
      exact Flow (rOff + k) c' (by omega)
    rcases Nat.lt_trichotomy t j with htj1 | htj1 | htj1
    · -- t < j : row untouched by the step
      have ht2t : t2 = t := by
        rw [ht2def]
        exact swapPos_other (by omega) (by omega)
      rw [ht2t]
      have hEqt := hinv.eqn t ht q hq
      have hmin : min (j+1) (min t (q+1)) = min j (min t (q+1)) := by omega
      rw [hmin]
      have hsum : ∑ k ∈ Finset.range (min j (min t (q+1))),
          B' (rOff + t) (wLo + k) * B' (rOff + k) (wLo + q) =
          ∑ k ∈ Finset.range (min j (min t (q+1))),
            st.A (rOff + t) (wLo + k) * st.A (rOff + k) (wLo + q) := by
        apply Finset.sum_congr rfl
        intro k hk
        rw [Finset.mem_range] at hk
        have hkj : k < j := by omega
        rw [Flow (rOff + t) (wLo + k) (by omega), FlowW k (wLo + q) hkj]
      rw [hsum]
      by_cases hqt : q < t
      · rw [if_pos (by omega)]
        rw [if_pos (by omega)] at hEqt
        exact hEqt
      · rw [if_neg (by omega)]
        rw [if_neg (by omega)] at hEqt
        rw [Flow (rOff + t) (wLo + q) (by omega)]
        exact hEqt
    · -- t = j : the pivot row
      subst htj1
      have ht2t : t2 = t + tj := by
        rw [ht2def, swapPos_left]
      rw [ht2t]
      have hEq2 := hinv.eqn (t + tj) (by omega) q hq
      have hmin : min (t+1) (min t (q+1)) = min t (min (t + tj) (q+1)) := by
        omega
      rw [hmin]
      have hsum : ∑ k ∈ Finset.range (min t (min (t + tj) (q+1))),
          B' (rOff + t) (wLo + k) * B' (rOff + k) (wLo + q) =
          ∑ k ∈ Finset.range (min t (min (t + tj) (q+1))),
            st.A (rOff + (t + tj)) (wLo + k) * st.A (rOff + k) (wLo + q) := by
        apply Finset.sum_congr rfl
        intro k hk
        rw [Finset.mem_range] at hk
        have hkj : k < t := by omega
        rw [F1' t k hkj, swapPos_left, FlowW k (wLo + q) hkj]
      rw [hsum]
      by_cases hqt : q < t
      · rw [if_pos (by omega)]
        rw [if_pos (by omega)] at hEq2
        exact hEq2
      · rw [if_neg (by omega)]
        rw [if_neg (by omega)] at hEq2
        rw [Fpiv (wLo + q) (by omega) (by omega), himax]
        exact hEq2
    · -- t > j
      have ht2ge : j ≤ t2 := by
        rw [ht2def]
        unfold swapPos
        split_ifs <;> omega
      rcases Nat.lt_trichotomy q j with hqj | hqj | hqj
      · -- q < j : factored L column region
        have hminn : min (j+1) (min t (q+1)) = q + 1 := by omega
        have hmino : min j (min t2 (q+1)) = q + 1 := by omega
        rw [hminn]
        rw [hmino] at hEq
        have hsum : ∑ k ∈ Finset.range (q+1),
            B' (rOff + t) (wLo + k) * B' (rOff + k) (wLo + q) =
            ∑ k ∈ Finset.range (q+1),
              st.A (rOff + t2) (wLo + k) * st.A (rOff + k) (wLo + q) := by
          apply Finset.sum_congr rfl
          intro k hk
          rw [Finset.mem_range] at hk
          have hkj : k < j := by omega
          rw [F1' t k hkj, FlowW k (wLo + q) hkj, ht2def]
        rw [hsum, if_pos (by omega)]
        rw [if_pos (by omega)] at hEq
        exact hEq
      · -- q = j : the newly scaled L column
        subst hqj
        have hminn : min (q+1) (min t (q+1)) = q + 1 := by omega
        have hmino : min q (min t2 (q+1)) = q := by omega
        rw [hminn]
        rw [hmino] at hEq
        rw [Finset.sum_range_succ]
        have hsum : ∑ k ∈ Finset.range q,
            B' (rOff + t) (wLo + k) * B' (rOff + k) (wLo + q) =
            ∑ k ∈ Finset.range q,
              st.A (rOff + t2) (wLo + k) * st.A (rOff + k) (wLo + q) := by
          apply Finset.sum_congr rfl
          intro k hk
          rw [Finset.mem_range] at hk
          rw [F1' t k hk, FlowW k (wLo + q) hk, ht2def]
        rw [hsum]
        rw [Fscal (rOff + t) (by omega) (by omega),
          Fpiv (wLo + q) (by omega) (by omega), hswap t, ← ht2def]
        rw [if_pos (by omega)]
        rw [if_neg (by omega)] at hEq
        by_cases hpz : st.A imax (wLo + q) = 0
        · have hz1 : st.A (rOff + t2) (wLo + q) = 0 := by
            refine Fzero hpz (rOff + t2) (by omega) (by omega)
          rw [hEq, hz1, hpz]
          ring
        · rw [hEq]
          field_simp
      · -- q > j : the Schur-updated block
        have hminn : min (j+1) (min t (q+1)) = j + 1 := by omega
        have hmino : min j (min t2 (q+1)) = j := by omega
        rw [hminn]
        rw [hmino] at hEq
        rw [Finset.sum_range_succ]
        have hsum : ∑ k ∈ Finset.range j,
            B' (rOff + t) (wLo + k) * B' (rOff + k) (wLo + q) =
            ∑ k ∈ Finset.range j,
              st.A (rOff + t2) (wLo + k) * st.A (rOff + k) (wLo + q) := by
          apply Finset.sum_congr rfl
          intro k hk
          rw [Finset.mem_range] at hk
          rw [F1' t k hk, FlowW k (wLo + q) hk, ht2def]
        rw [hsum]
        rw [Fscal (rOff + t) (by omega) (by omega),
          Fpiv (wLo + q) (by omega) (by omega),
          Fschur (rOff + t) (wLo + q) (by omega) (by omega) (by omega) (by omega),
          hswap t, ← ht2def]
        rw [if_neg (by omega)]
        rw [if_neg (by omega)] at hEq
        rw [hEq]
        ring

end PpInvariant

section MoreSigma

theorem sigmaOf_append (ts1 ts2 : List ℕ) :
    ∀ i0 x, sigmaOf (ts1 ++ ts2) i0 x =
      sigmaOf ts1 i0 (sigmaOf ts2 (i0 + ts1.length) x) := by
  induction ts1 with
  | nil =>
    intro i0 x
    show sigmaOf ts2 i0 x = sigmaOf ts2 (i0 + 0) x
    rw [Nat.add_zero]
  | cons t ts ih =>
    intro i0 x
    show swapPos i0 (i0 + t) (sigmaOf (ts ++ ts2) (i0+1) x) = _
    rw [ih (i0+1) x]
    have h1 : i0 + 1 + ts.length = i0 + (t :: ts).length := by
      rw [List.length_cons]
      omega
    rw [h1]
    rfl

theorem sigmaOf_shift (ts : List ℕ) :
    ∀ b i0 x, sigmaOf ts (b + i0) (b + x) = b + sigmaOf ts i0 x := by
  induction ts with
  | nil => intro b i0 x; rfl
  | cons t ts ih =>
    intro b i0 x
    show swapPos (b + i0) (b + i0 + t) (sigmaOf ts (b + i0 + 1) (b + x)) =
      b + swapPos i0 (i0 + t) (sigmaOf ts (i0 + 1) x)
    have h1 : b + i0 + 1 = b + (i0 + 1) := by omega
    rw [h1, ih b (i0+1) x]
    have h2 : b + i0 + t = b + (i0 + t) := by omega
    rw [h2]
    exact swapPos_add b i0 (i0 + t) _

theorem sigmaOf_ge_start (ts : List ℕ) :
    ∀ i0 x, i0 ≤ x → i0 ≤ sigmaOf ts i0 x := by
  induction ts with
  | nil => intro _ _ h; exact h
  | cons t ts ih =>
    intro i0 x hx
    show i0 ≤ swapPos i0 (i0 + t) (sigmaOf ts (i0+1) x)
    have h1 : i0 ≤ sigmaOf ts (i0+1) x := by
      by_cases hx1 : i0 + 1 ≤ x
      · exact le_trans (by omega) (ih (i0+1) x hx1)
      · have hxe : x = i0 := by omega
        rw [hxe, sigmaOf_lt_start ts (i0+1) i0 (by omega)]
    unfold swapPos
    split_ifs <;> omega

theorem sigmaOf_ge_fix (ts : List ℕ) :
    ∀ (i0 mA : ℕ), (∀ q (h : q < ts.length), i0 + q + ts[q] < mA) →
      ∀ x, mA ≤ x → sigmaOf ts i0 x = x := by
  induction ts with
  | nil => intro _ _ _ _ _; rfl
  | cons t ts ih =>
    intro i0 mA hb x hx
    show swapPos i0 (i0 + t) (sigmaOf ts (i0+1) x) = x
    have h0 : i0 + 0 + t < mA := hb 0 (by simp)
    have hrec : sigmaOf ts (i0+1) x = x := by
      refine ih (i0+1) mA ?_ x hx
      intro q h
      have h2 := hb (q+1) (by simp only [List.length_cons]; omega)
      simp only [List.getElem_cons_succ] at h2
      omega
    rw [hrec]
    exact swapPos_other (by omega) (by omega)

end MoreSigma

section TrsmSpec

variable {K : Type} [Field K]

/-- Fuel stability of the forward substitution. -/
theorem fsubUnit_stable (A : Mat K) (rOff wLo c : ℕ) :
    ∀ i f g, i < f → i < g →
      fsubUnit A rOff wLo c f i = fsubUnit A rOff wLo c g i := by
  intro i
  induction i using Nat.strong_induction_on with
  | _ i ih =>
    intro f g hf hg
    obtain ⟨f', rfl⟩ : ∃ f', f = f' + 1 := ⟨f - 1, by omega⟩
    obtain ⟨g', rfl⟩ : ∃ g', g = g' + 1 := ⟨g - 1, by omega⟩
    show (A (rOff + i) c - _) = (A (rOff + i) c - _)
    congr 1
    apply Finset.sum_congr rfl
    intro k hk
    rw [Finset.mem_range] at hk
    rw [ih k hk f' g' (by omega) (by omega)]

/-- Defining property of the modelled unit-lower triangular solve: the block
solved in place satisfies `L·X = B` row by row, reading the unit-lower factor
from the original matrix. -/
theorem trsmUnitLower_spec (A : Mat K) (rOff wLo bs cLo cHi : ℕ) :
    ∀ i, i < bs → ∀ c, cLo ≤ c → c < cHi →
      (∑ k ∈ Finset.range i,
        A (rOff + i) (wLo + k) * trsmUnitLower A rOff wLo bs cLo cHi (rOff + k) c) +
        trsmUnitLower A rOff wLo bs cLo cHi (rOff + i) c =
      A (rOff + i) c := by
  intro i hi c hc1 hc2
  have hval : ∀ k, k < bs → trsmUnitLower A rOff wLo bs cLo cHi (rOff + k) c =
      fsubUnit A rOff wLo c (k+1) k := by
    intro k hk
    unfold trsmUnitLower
    rw [if_pos (by omega)]
    have h1 : rOff + k - rOff = k := by omega
    rw [h1]
  rw [hval i hi]
  have hsum : ∀ k ∈ Finset.range i,
      A (rOff + i) (wLo + k) * trsmUnitLower A rOff wLo bs cLo cHi (rOff + k) c =
      A (rOff + i) (wLo + k) * fsubUnit A rOff wLo c i k := by
    intro k hk
    rw [Finset.mem_range] at hk
    rw [hval k (by omega), fsubUnit_stable A rOff wLo c k (k+1) i (by omega) hk]
  rw [Finset.sum_congr rfl hsum]
  have hunf : fsubUnit A rOff wLo c (i+1) i = A (rOff + i) c -
      ∑ k ∈ Finset.range i, A (rOff + i) (wLo + k) * fsubUnit A rOff wLo c i k := rfl
  rw [hunf]
  ring

/-- `trsmUnitLower` leaves every entry outside the solved block unchanged. -/
theorem trsmUnitLower_off (A : Mat K) (rOff wLo bs cLo cHi : ℕ) (i c : ℕ)
    (h : ¬ (rOff ≤ i ∧ i < rOff + bs ∧ cLo ≤ c ∧ c < cHi)) :
    trsmUnitLower A rOff wLo bs cLo cHi i c = A i c := by
  unfold trsmUnitLower
  rw [if_neg h]

end TrsmSpec

section FixupSpec

variable {K : Type} [Field K]

theorem rowSwapCols_eq (A : Mat K) (i1 i2 : ℕ) (P : ℕ → Bool) (i c : ℕ) :
    rowSwapCols A i1 i2 P i c = if P c then A (swapPos i1 i2 i) c else A i c := by
  unfold rowSwapCols swapPos
  by_cases hp : P c
  · rw [if_pos hp, if_pos hp]
    by_cases h1 : i = i1
    · subst h1
      rw [if_pos rfl, if_pos rfl]
    · rw [if_neg h1, if_neg h1]
      by_cases h2 : i = i2
      · subst h2
        rw [if_pos rfl, if_pos rfl]
      · rw [if_neg h2, if_neg h2]
  · rw [if_neg hp, if_neg hp]

/-- The transposition-fixup loop applied to the columns selected by `P` acts
on each selected column as the composed swap permutation of the rows, and
leaves the other columns alone. -/
theorem applyTransCols_eq (P : ℕ → Bool) :
    ∀ (ts : List ℕ) (i0 : ℕ) (A : Mat K) (i c : ℕ),
      applyTransCols P i0 ts A i c =
        if P c then A (sigmaOf ts i0 i) c else A i c := by
  intro ts
  induction ts with
  | nil =>
    intro i0 A i c
    show A i c = _
    by_cases hp : P c
    · rw [if_pos hp]; rfl
    · rw [if_neg hp]
  | cons t ts ih =>
    intro i0 A i c
    show applyTransCols P (i0+1) ts (rowSwapCols A i0 (i0+t) P) i c = _
    rw [ih (i0+1) _ i c]
    by_cases hp : P c
    · rw [if_pos hp, if_pos hp, rowSwapCols_eq, if_pos hp]
      rfl
    · rw [if_neg hp, if_neg hp, rowSwapCols_eq, if_neg hp]

end FixupSpec

section UnblockedSpec

variable {K : Type} [Field K]

/-- The elimination loop preserves the invariant across any number of
steps. -/
theorem ppGo_inv (score : K → ℚ) (hs : ScoreOk score) (A0 : Mat K)
    (p0 : ℕ → ℕ) (m cl ch wLo n rOff : ℕ)
    (hcl : cl ≤ wLo) (hch : wLo + n ≤ ch) (hmn : rOff + n ≤ m) :
    ∀ s j st, j + s ≤ n → PpInv A0 p0 m cl ch wLo n rOff j st →
      PpInv A0 p0 m cl ch wLo n rOff (j + s)
        (ppGo score m cl ch wLo n rOff j s st) := by
  intro s
  induction s with
  | zero =>
    intro j st _ h
    show PpInv A0 p0 m cl ch wLo n rOff (j + 0) st
    rw [Nat.add_zero]
    exact h
  | succ s ih =>
    intro j st hle h
    show PpInv A0 p0 m cl ch wLo n rOff (j + (s+1))
      (ppGo score m cl ch wLo n rOff (j+1) s (ppStep score m cl ch wLo n rOff j st))
    have h1 := ppStep_inv score hs A0 p0 m cl ch wLo n rOff j st hcl hch hmn
      (by omega) h
    have h2 := ih (j+1) _ (by omega) h1
    have he : j + 1 + s = j + (s + 1) := by omega
    rw [he] at h2
    exact h2

/-- Specification of the unblocked factorization: the full invariant at step
`n`. -/
theorem ppUnb_inv (score : K → ℚ) (hs : ScoreOk score) (A : Mat K)
    (p : ℕ → ℕ) (m cl ch wLo n rOff : ℕ)
    (hcl : cl ≤ wLo) (hch : wLo + n ≤ ch) (hmn : rOff + n ≤ m) :
    PpInv A p m cl ch wLo n rOff n (ppUnb score A p m cl ch wLo n rOff) := by
  have h := ppGo_inv score hs A p m cl ch wLo n rOff hcl hch hmn n 0
    ⟨A, p, [], 0⟩ (by omega) (ppInv_init A p m cl ch wLo n rOff)
  rw [Nat.zero_add] at h
  exact h

/-- The post-state specification of `lu_in_place_impl` on a view: identical to
`PpInv` at `j = n`, with the completed-window simplifications applied. -/
structure ImplSpec (A0 : Mat K) (p0 : ℕ → ℕ) (m cl ch wLo n rOff : ℕ)
    (r : PpState K) : Prop where
  len : r.ts.length = n
  tsb : ∀ q (h : q < r.ts.length), q + r.ts[q] < m - rOff
  cnt : r.cnt = (r.ts.filter (fun t => t ≠ 0)).length
  perm : ∀ x, r.p x = p0 (sigmaOf r.ts 0 x)
  untouched : ∀ i c, i < rOff ∨ m ≤ i ∨ c < cl ∨ ch ≤ c → r.A i c = A0 i c
  outside : ∀ t, t < m - rOff → ∀ c, cl ≤ c → c < ch →
    c < wLo ∨ wLo + n ≤ c → r.A (rOff + t) c = A0 (rOff + sigmaOf r.ts 0 t) c
  eqn : ∀ t, t < m - rOff → ∀ q, q < n →
    A0 (rOff + sigmaOf r.ts 0 t) (wLo + q) =
      (∑ k ∈ Finset.range (min t (q+1)),
        r.A (rOff + t) (wLo + k) * r.A (rOff + k) (wLo + q)) +
      (if q < t then 0 else r.A (rOff + t) (wLo + q))

theorem ppInv_implSpec (A0 : Mat K) (p0 : ℕ → ℕ) (m cl ch wLo n rOff : ℕ)
    (st : PpState K) (h : PpInv A0 p0 m cl ch wLo n rOff n st) :
    ImplSpec A0 p0 m cl ch wLo n rOff st := by
  refine ⟨h.len, h.tsb, h.cnt, h.perm, h.untouched, h.outside, ?_⟩
  intro t ht q hq
  have he := h.eqn t ht q hq
  have hmin : min n (min t (q+1)) = min t (q+1) := by omega
  rw [hmin] at he
  by_cases hqt : q < t
  · rw [if_pos ⟨hq, hqt⟩] at he
    rw [if_pos hqt]
    exact he
  · rw [if_neg (by omega)] at he
    rw [if_neg hqt]
    exact he

/-- Bounds for `blocksize` in the blocked branch. -/
theorem blocksize_bounds (n : ℕ) (h : 16 < n) :
    1 ≤ blocksize n ∧ blocksize n < n := by
  have h2 : blocksize n = n -
      (if 32 ≤ n then (n/2 + 15) / 16 * 16
       else if 16 ≤ n then (n/2 + 7) / 8 * 8
       else if 8 ≤ n then (n/2 + 3) / 4 * 4
       else n/2) := rfl
  rw [h2]
  split_ifs <;> omega

end UnblockedSpec

section BlockedSpec

variable {K : Type} [Field K]

theorem sum_range_split (f : ℕ → K) (a b : ℕ) :
    ∑ k ∈ Finset.range (a + b), f k =
      (∑ k ∈ Finset.range a, f k) + ∑ k ∈ Finset.range b, f (a + k) := by
  induction b with
  | zero => rw [Nat.add_zero, Finset.range_zero, Finset.sum_empty, add_zero]
  | succ b ih =>
    rw [Nat.add_succ, Finset.sum_range_succ, Finset.sum_range_succ, ih, add_assoc]

/-- The blocked recursion `lu_in_place_impl` satisfies the same
post-specification as the unblocked elimination on its view. -/
theorem luImplGo_spec (score : K → ℚ) (hs : ScoreOk score) :
    ∀ (fuel : ℕ) (A : Mat K) (p : ℕ → ℕ) (m cl ch wLo n rOff : ℕ),
      n < fuel → cl ≤ wLo → wLo + n ≤ ch → rOff + n ≤ m →
      ImplSpec A p m cl ch wLo n rOff
        (luImplGo score fuel A p m cl ch wLo n rOff) := by
  intro fuel
  induction fuel with
  | zero =>
    intro A p m cl ch wLo n rOff hf
    omega
  | succ f ih =>
    intro A p m cl ch wLo n rOff hf hcl hch hmn
    by_cases h16 : n ≤ 16
    · have hunf : luImplGo score (f+1) A p m cl ch wLo n rOff =
          ppUnb score A p m cl ch wLo n rOff := by
        simp only [luImplGo]
        rw [if_pos h16]
      rw [hunf]
      exact ppInv_implSpec A p m cl ch wLo n rOff _
        (ppUnb_inv score hs A p m cl ch wLo n rOff hcl hch hmn)
    · have h16' : 16 < n := by omega
      obtain ⟨hbs1, hbs2⟩ := blocksize_bounds n h16'
      set bs := blocksize n with hbsd
      set L := luImplGo score f A p m wLo (wLo + n) wLo bs rOff with hLd
      set A2 := trsmUnitLower L.A rOff wLo bs (wLo + bs) (wLo + n) with hA2d
      set A3 := schurSub A2 rOff bs m wLo (wLo + bs) (wLo + n) with hA3d
      set R := luImplGo score f A3 (fun i => i) m wLo (wLo + n) (wLo + bs)
        (n - bs) (rOff + bs) with hRd
      set P := (fun c => decide ((cl ≤ c ∧ c < wLo) ∨ (wLo + n ≤ c ∧ c < ch)) :
        ℕ → Bool) with hPd
      set A5 := applyTransCols P (rOff + bs) R.ts
        (applyTransCols P rOff L.ts R.A) with hA5d
      have hunf : luImplGo score (f+1) A p m cl ch wLo n rOff =
          ⟨A5, fun i => if i < bs then L.p i else L.p (bs + R.p (i - bs)),
            L.ts ++ R.ts, L.cnt + R.cnt⟩ := by
        rw [hA5d, hPd, hRd, hA3d, hA2d, hLd, hbsd]
        simp only [luImplGo]
        rw [if_neg h16]
      rw [hunf]
      -- sub-call specifications
      have specL : ImplSpec A p m wLo (wLo + n) wLo bs rOff L := by
        rw [hLd]
        exact ih A p m wLo (wLo + n) wLo bs rOff (by omega) (le_refl _)
          (by omega) (by omega)
      have specR : ImplSpec A3 (fun i => i) m wLo (wLo + n) (wLo + bs)
          (n - bs) (rOff + bs) R := by
        rw [hRd]
        exact ih A3 (fun i => i) m wLo (wLo + n) (wLo + bs) (n - bs)
          (rOff + bs) (by omega) (by omega) (by omega) (by omega)
      -- predicate evaluation
      have hPwin : ∀ q, q < n → P (wLo + q) = false := by
        intro q hq
        rw [hPd]
        simp only [decide_eq_false_iff_not]
        omega
      have hPout : ∀ c, cl ≤ c → c < ch → (c < wLo ∨ wLo + n ≤ c) →
          P c = true := by
        intro c h1 h2 h3
        rw [hPd]
        simp only [decide_eq_true_eq]
        omega
      have hPfar : ∀ c, c < cl ∨ ch ≤ c → P c = false := by
        intro c h
        rw [hPd]
        simp only [decide_eq_false_iff_not]
        omega
      -- fixup characterizations
      have hA5far : ∀ i c, P c = false → A5 i c = R.A i c := by
        intro i c hp
        rw [hA5d, applyTransCols_eq, hp, if_neg Bool.false_ne_true,
          applyTransCols_eq, hp, if_neg Bool.false_ne_true]
      have hA5win : ∀ i q, q < n → A5 i (wLo + q) = R.A i (wLo + q) := by
        intro i q hq
        exact hA5far i (wLo + q) (hPwin q hq)
      have hA5out : ∀ i c, P c = true → A5 i c =
          R.A (sigmaOf L.ts rOff (sigmaOf R.ts (rOff + bs) i)) c := by
        intro i c hp
        rw [hA5d, applyTransCols_eq, hp, if_pos rfl, applyTransCols_eq, hp,
          if_pos rfl]
      -- layer-peeling lemmas
      have hRlow : ∀ i c, i < rOff + bs ∨ m ≤ i → R.A i c = A3 i c := by
        intro i c h
        apply specR.untouched
        rcases h with h | h
        · exact Or.inl h
        · exact Or.inr (Or.inl h)
      have hA3off : ∀ i c,
          ¬ (rOff + bs ≤ i ∧ i < m ∧ wLo + bs ≤ c ∧ c < wLo + n) →
          A3 i c = A2 i c := by
        intro i c h
        rw [hA3d]
        unfold schurSub
        rw [if_neg h]
      have hA2off : ∀ i c,
          ¬ (rOff ≤ i ∧ i < rOff + bs ∧ wLo + bs ≤ c ∧ c < wLo + n) →
          A2 i c = L.A i c := by
        intro i c h
        rw [hA2d]
        exact trsmUnitLower_off L.A rOff wLo bs (wLo + bs) (wLo + n) i c h
      have hX : ∀ k c, k < bs → wLo + bs ≤ c → c < wLo + n →
          A2 (rOff + k) c = fsubUnit L.A rOff wLo c (k + 1) k := by
        intro k c hk h1 h2
        rw [hA2d]
        unfold trsmUnitLower
        rw [if_pos ⟨by omega, by omega, h1, h2⟩]
        have h3 : rOff + k - rOff = k := by omega
        rw [h3]
      -- sigma facts
      have hσRslt : ∀ y, y < bs → sigmaOf R.ts bs y = y := by
        intro y hy
        exact sigmaOf_lt_start R.ts bs y hy
      have hσRsge : ∀ y, bs ≤ y →
          sigmaOf R.ts bs y = bs + sigmaOf R.ts 0 (y - bs) := by
        intro y hy
        have h1 := sigmaOf_shift R.ts bs 0 (y - bs)
        rw [Nat.add_zero] at h1
        have h3 : bs + (y - bs) = y := by omega
        rw [h3] at h1
        exact h1
      have hσRsM : ∀ t, t < m - rOff → sigmaOf R.ts bs t < m - rOff := by
        intro t ht
        by_cases h : t < bs
        · rw [hσRslt t h]
          omega
        · rw [hσRsge t (by omega)]
          have hb : ∀ q (hq : q < R.ts.length),
              0 + q + R.ts[q] < m - (rOff + bs) := by
            intro q hq
            have := specR.tsb q hq
            omega
          have := sigmaOf_lt R.ts 0 (m - (rOff + bs)) hb (t - bs) (by omega)
          omega
      have hσRsge2 : ∀ y, bs ≤ y → bs ≤ sigmaOf R.ts bs y := by
        intro y hy
        exact sigmaOf_ge_start R.ts bs y hy
      have htot : ∀ x, sigmaOf (L.ts ++ R.ts) 0 x =
          sigmaOf L.ts 0 (sigmaOf R.ts bs x) := by
        intro x
        rw [sigmaOf_append, specL.len, Nat.zero_add]
      -- composite entry facts
      have hGLL : ∀ t k, t < bs → k < bs →
          A5 (rOff + t) (wLo + k) = L.A (rOff + t) (wLo + k) := by
        intro t k ht hk
        rw [hA5win (rOff + t) k (by omega),
          hRlow (rOff + t) (wLo + k) (Or.inl (by omega)),
          hA3off (rOff + t) (wLo + k) (by omega),
          hA2off (rOff + t) (wLo + k) (by omega)]
      have hGLX : ∀ k q, k < bs → bs ≤ q → q < n →
          A5 (rOff + k) (wLo + q) =
          fsubUnit L.A rOff wLo (wLo + q) (k + 1) k := by
        intro k q hk hq1 hq2
        rw [hA5win (rOff + k) q hq2,
          hRlow (rOff + k) (wLo + q) (Or.inl (by omega)),
          hA3off (rOff + k) (wLo + q) (by omega)]
        exact hX k (wLo + q) hk (by omega) (by omega)
      have hGRL : ∀ y k, bs ≤ y → y < m - rOff → k < bs →
          A5 (rOff + y) (wLo + k) =
          L.A (rOff + sigmaOf R.ts bs y) (wLo + k) := by
        intro y k hy1 hy2 hk
        rw [hA5win (rOff + y) k (by omega)]
        have h1 : rOff + y = (rOff + bs) + (y - bs) := by omega
        rw [h1]
        rw [specR.outside (y - bs) (by omega) (wLo + k) (by omega) (by omega)
          (Or.inl (by omega))]
        rw [hA3off _ (wLo + k) (by omega), hA2off _ (wLo + k) (by omega)]
        have i4 : rOff + bs + sigmaOf R.ts 0 (y - bs) =
            rOff + sigmaOf R.ts bs y := by
          rw [hσRsge y hy1]
          omega
        rw [i4]
      -- untouched back-propagation
      have hback : ∀ i c, (i < rOff ∨ m ≤ i) ∨ (c < wLo ∨ wLo + n ≤ c) →
          R.A i c = A i c := by
        intro i c h
        have h3 : R.A i c = A3 i c := by
          apply specR.untouched
          rcases h with (h | h) | h | h
          · exact Or.inl (by omega)
          · exact Or.inr (Or.inl h)
          · exact Or.inr (Or.inr (Or.inl h))
          · exact Or.inr (Or.inr (Or.inr h))
        rw [h3]
        have h4 : A3 i c = A2 i c := by
          apply hA3off
          rcases h with (h | h) | h | h <;> omega
        rw [h4]
        have h5 : A2 i c = L.A i c := by
          apply hA2off
          rcases h with (h | h) | h | h <;> omega
        rw [h5]
        apply specL.untouched
        rcases h with (h | h) | h | h
        · exact Or.inl h
        · exact Or.inr (Or.inl h)
        · exact Or.inr (Or.inr (Or.inl h))
        · exact Or.inr (Or.inr (Or.inr h))
      have hrowfix : ∀ i c, i < rOff ∨ m ≤ i → A5 i c = A i c := by
        intro i c hrow
        have hb1 : ∀ q (hq : q < R.ts.length),
            rOff + bs + q + R.ts[q] < m := by
          intro q hq
          have := specR.tsb q hq
          omega
        have hb2 : ∀ q (hq : q < L.ts.length), rOff + q + L.ts[q] < m := by
          intro q hq
          have := specL.tsb q hq
          omega
        by_cases hp : P c = true
        · rw [hA5out i c hp]
          have h1 : sigmaOf R.ts (rOff + bs) i = i := by
            rcases hrow with h | h
            · exact sigmaOf_lt_start R.ts (rOff + bs) i (by omega)
            · exact sigmaOf_ge_fix R.ts (rOff + bs) m hb1 i h
          rw [h1]
          have h2 : sigmaOf L.ts rOff i = i := by
            rcases hrow with h | h
            · exact sigmaOf_lt_start L.ts rOff i (by omega)
            · exact sigmaOf_ge_fix L.ts rOff m hb2 i h
          rw [h2]
          exact hback i c (Or.inl hrow)
        · rw [Bool.not_eq_true] at hp
          rw [hA5far i c hp]
          exact hback i c (Or.inl hrow)
      -- assemble the specification
      refine ⟨?_, ?_, ?_, ?_, ?_, ?_, ?_⟩
      · show (L.ts ++ R.ts).length = n
        rw [List.length_append, specL.len, specR.len]
        omega
      · intro q h
        have h' : q < (L.ts ++ R.ts).length := h
        rw [List.length_append] at h'
        show q + (L.ts ++ R.ts)[q] < m - rOff
        by_cases hq : q < L.ts.length
        · rw [List.getElem_append_left hq]
          have := specL.tsb q hq
          omega
        · have hq2 : L.ts.length ≤ q := by omega
          rw [List.getElem_append_right hq2]
          have hq3 : q - L.ts.length < R.ts.length := by omega
          have := specR.tsb (q - L.ts.length) hq3
          have hL := specL.len
          omega
      · show L.cnt + R.cnt = ((L.ts ++ R.ts).filter (fun t => t ≠ 0)).length
        rw [List.filter_append, List.length_append, specL.cnt, specR.cnt]
      · intro x
        show (if x < bs then L.p x else L.p (bs + R.p (x - bs))) =
          p (sigmaOf (L.ts ++ R.ts) 0 x)
        rw [htot x]
        by_cases hx : x < bs
        · rw [if_pos hx, hσRslt x hx]
          exact specL.perm x
        · rw [if_neg hx]
          have hRp : R.p (x - bs) = sigmaOf R.ts 0 (x - bs) :=
            specR.perm (x - bs)
          rw [hRp, ← hσRsge x (by omega)]
          exact specL.perm (sigmaOf R.ts bs x)
      · intro i c h
        show A5 i c = A i c
        rcases h with h | h | h | h
        · exact hrowfix i c (Or.inl h)
        · exact hrowfix i c (Or.inr h)
        · rw [hA5far i c (hPfar c (Or.inl h))]
          exact hback i c (Or.inr (Or.inl (by omega)))
        · rw [hA5far i c (hPfar c (Or.inr h))]
          exact hback i c (Or.inr (Or.inr (by omega)))
      · intro t ht c h1 h2 h3
        show A5 (rOff + t) c = A (rOff + sigmaOf (L.ts ++ R.ts) 0 t) c
        rw [htot t, hA5out (rOff + t) c (hPout c h1 h2 h3)]
        have e1 : sigmaOf R.ts (rOff + bs) (rOff + t) =
            rOff + sigmaOf R.ts bs t := sigmaOf_shift R.ts rOff bs t
        rw [e1]
        have e2 : sigmaOf L.ts rOff (rOff + sigmaOf R.ts bs t) =
            rOff + sigmaOf L.ts 0 (sigmaOf R.ts bs t) := by
          have h4 := sigmaOf_shift L.ts rOff 0 (sigmaOf R.ts bs t)
          rw [Nat.add_zero] at h4
          exact h4
        rw [e2]
        exact hback (rOff + sigmaOf L.ts 0 (sigmaOf R.ts bs t)) c (Or.inr h3)
      · intro t ht q hq
        show A (rOff + sigmaOf (L.ts ++ R.ts) 0 t) (wLo + q) =
          (∑ k ∈ Finset.range (min t (q+1)),
            A5 (rOff + t) (wLo + k) * A5 (rOff + k) (wLo + q)) +
          (if q < t then 0 else A5 (rOff + t) (wLo + q))
        rw [htot t]
        by_cases htb : t < bs
        · rw [hσRslt t htb]
          by_cases hqb : q < bs
          · have he := specL.eqn t ht q hqb
            rw [he]
            congr 1
            · apply Finset.sum_congr rfl
              intro k hk
              rw [Finset.mem_range] at hk
              rw [hGLL t k htb (by omega), hGLL k q (by omega) hqb]
            · by_cases hqt : q < t
              · rw [if_pos hqt, if_pos hqt]
              · rw [if_neg hqt, if_neg hqt, hGLL t q htb hqb]
          · have hqb' : bs ≤ q := by omega
            have hmin : min t (q+1) = t := by omega
            rw [hmin, if_neg (by omega)]
            have hL1 : ∀ k ∈ Finset.range t,
                A5 (rOff + t) (wLo + k) * A5 (rOff + k) (wLo + q) =
                L.A (rOff + t) (wLo + k) *
                  fsubUnit L.A rOff wLo (wLo + q) (k + 1) k := by
              intro k hk
              rw [Finset.mem_range] at hk
              rw [hGLL t k htb (by omega), hGLX k q (by omega) hqb' hq]
            rw [Finset.sum_congr rfl hL1, hGLX t q htb (by omega) hq]
            rw [← specL.outside t ht (wLo + q) (by omega) (by omega)
              (Or.inr (by omega))]
            have hts := trsmUnitLower_spec L.A rOff wLo bs (wLo + bs)
              (wLo + n) t htb (wLo + q) (by omega) (by omega)
            rw [← hA2d] at hts
            have hconv : ∀ k ∈ Finset.range t,
                L.A (rOff + t) (wLo + k) * A2 (rOff + k) (wLo + q) =
                L.A (rOff + t) (wLo + k) *
                  fsubUnit L.A rOff wLo (wLo + q) (k + 1) k := by
              intro k hk
              rw [Finset.mem_range] at hk
              rw [hX k (wLo + q) (by omega) (by omega) (by omega)]
            rw [Finset.sum_congr rfl hconv,
              hX t (wLo + q) htb (by omega) (by omega)] at hts
            exact hts.symm
        · have htb' : bs ≤ t := by omega
          have hyM : sigmaOf R.ts bs t < m - rOff := hσRsM t ht
          have hyge : bs ≤ sigmaOf R.ts bs t := hσRsge2 t htb'
          by_cases hqb : q < bs
          · have hmin : min t (q+1) = q + 1 := by omega
            rw [hmin, if_pos (by omega), add_zero]
            have he := specL.eqn (sigmaOf R.ts bs t) hyM q hqb
            have hminL : min (sigmaOf R.ts bs t) (q+1) = q + 1 := by omega
            rw [hminL, if_pos (show q < sigmaOf R.ts bs t by omega),
              add_zero] at he
            rw [he]
            apply Finset.sum_congr rfl
            intro k hk
            rw [Finset.mem_range] at hk
            rw [hGRL t k htb' ht (by omega), hGLL k q (by omega) hqb]
          · have hq' : bs ≤ q := by omega
            have ht' : t - bs < m - (rOff + bs) := by omega
            have hq2 : q - bs < n - bs := by omega
            have hRe := specR.eqn (t - bs) ht' (q - bs) hq2
            have i1 : (rOff + bs) + (t - bs) = rOff + t := by omega
            have i2 : (wLo + bs) + (q - bs) = wLo + q := by omega
            rw [i1, i2] at hRe
            have i3 : rOff + bs + sigmaOf R.ts 0 (t - bs) =
                rOff + sigmaOf R.ts bs t := by
              rw [hσRsge t htb']
              omega
            rw [i3] at hRe
            have hsch : A3 (rOff + sigmaOf R.ts bs t) (wLo + q) =
                A2 (rOff + sigmaOf R.ts bs t) (wLo + q) -
                ∑ k ∈ Finset.range bs,
                  A2 (rOff + sigmaOf R.ts bs t) (wLo + k) *
                  A2 (rOff + k) (wLo + q) := by
              rw [hA3d]
              unfold schurSub
              rw [if_pos ⟨by omega, by omega, by omega, by omega⟩]
            have hA2row1 : A2 (rOff + sigmaOf R.ts bs t) (wLo + q) =
                L.A (rOff + sigmaOf R.ts bs t) (wLo + q) :=
              hA2off _ _ (by omega)
            have hsch2 : A3 (rOff + sigmaOf R.ts bs t) (wLo + q) =
                L.A (rOff + sigmaOf R.ts bs t) (wLo + q) -
                ∑ k ∈ Finset.range bs,
                  L.A (rOff + sigmaOf R.ts bs t) (wLo + k) *
                  fsubUnit L.A rOff wLo (wLo + q) (k + 1) k := by
              rw [hsch, hA2row1]
              congr 1
              apply Finset.sum_congr rfl
              intro k hk
              rw [Finset.mem_range] at hk
              rw [hA2off _ (wLo + k) (by omega),
                hX k (wLo + q) hk (by omega) (by omega)]
            rw [← specL.outside (sigmaOf R.ts bs t) hyM (wLo + q) (by omega)
              (by omega) (Or.inr (by omega))]
            have hmin2 : min t (q+1) = bs + min (t - bs) ((q - bs) + 1) := by
              omega
            rw [hmin2, sum_range_split]
            have hs1 : ∀ k ∈ Finset.range bs,
                A5 (rOff + t) (wLo + k) * A5 (rOff + k) (wLo + q) =
                L.A (rOff + sigmaOf R.ts bs t) (wLo + k) *
                  fsubUnit L.A rOff wLo (wLo + q) (k + 1) k := by
              intro k hk
              rw [Finset.mem_range] at hk
              rw [hGRL t k htb' ht hk, hGLX k q hk hq' hq]
            rw [Finset.sum_congr rfl hs1]
            have hs2 : ∀ k ∈ Finset.range (min (t - bs) ((q - bs) + 1)),
                A5 (rOff + t) (wLo + (bs + k)) *
                  A5 (rOff + (bs + k)) (wLo + q) =
                R.A (rOff + t) ((wLo + bs) + k) *
                  R.A ((rOff + bs) + k) (wLo + q) := by
              intro k hk
              rw [Finset.mem_range] at hk
              have hk2 : bs + k < n := by omega
              rw [hA5win (rOff + t) (bs + k) hk2,
                hA5win (rOff + (bs + k)) q (by omega)]
              have j1 : wLo + (bs + k) = (wLo + bs) + k := by omega
              have j2 : rOff + (bs + k) = (rOff + bs) + k := by omega
              rw [j1, j2]
            rw [Finset.sum_congr rfl hs2]
            have htail : (if q < t then (0:K) else A5 (rOff + t) (wLo + q)) =
                (if q - bs < t - bs then (0:K)
                 else R.A (rOff + t) (wLo + q)) := by
              by_cases hqt : q < t
              · rw [if_pos hqt, if_pos (by omega)]
              · rw [if_neg hqt, if_neg (by omega),
                  hA5win (rOff + t) q (by omega)]
            rw [htail, add_assoc, ← hRe, hsch2]
            ring

end BlockedSpec

section LuPPSpec

variable {K : Type} [Field K]

/-- The core blocked call inside `lu_in_place` (partial pivoting) satisfies
the factorization specification on the whole matrix. -/
theorem luPP_core_spec (score : K → ℚ) (hs : ScoreOk score) (A : Mat K)
    (m n : ℕ) :
    ImplSpec A (fun x => x) m 0 n 0 (min n m) 0
      (luImplGo score (min n m + 1) A (fun x => x) m 0 n 0 (min n m) 0) :=
  luImplGo_spec score hs (min n m + 1) A (fun x => x) m 0 n 0 (min n m) 0
    (by omega) (le_refl 0) (by omega) (by omega)

/-- Reconstruction for partial pivoting: row `i` of `L·U` is row `perm i` of
the input, for every shape `m × n`. -/
theorem luPP_reconstruct (score : K → ℚ) (hs : ScoreOk score) (A : Mat K)
    (m n : ℕ) : ∀ i, i < m → ∀ j, j < n →
    luProd (luPP score A m n).1 (min n m) i j = A ((luPP score A m n).2.1 i) j := by
  intro i hi j hj
  set size := min n m with hszd
  set r := luImplGo score (size + 1) A (fun x => x) m 0 n 0 size 0 with hrd
  have spec : ImplSpec A (fun x => x) m 0 n 0 size 0 r := by
    rw [hrd]
    exact luPP_core_spec score hs A m n
  have hF : (luPP score A m n).1 =
      (if m < n then trsmUnitLower r.A 0 0 m m n else r.A) := rfl
  have hp : (luPP score A m n).2.1 = r.p := rfl
  rw [hF, hp]
  have hperm : r.p i = sigmaOf r.ts 0 i := spec.perm i
  rw [hperm]
  have heqn : ∀ t, t < m → ∀ q, q < size →
      A (sigmaOf r.ts 0 t) q =
        (∑ k ∈ Finset.range (min t (q+1)), r.A t k * r.A k q) +
        (if q < t then 0 else r.A t q) := by
    intro t ht q hq
    have h := spec.eqn t (by omega) q hq
    simp only [Nat.zero_add] at h
    exact h
  have houtside : ∀ t, t < m → ∀ c, size ≤ c → c < n →
      r.A t c = A (sigmaOf r.ts 0 t) c := by
    intro t ht c h1 h2
    have h := spec.outside t (by omega) c (by omega) (by omega)
      (Or.inr (by omega))
    simp only [Nat.zero_add] at h
    exact h
  have hcore : ∀ i2, i2 < m → ∀ j2, j2 < size →
      (∑ k ∈ Finset.range (min (i2+1) (min size (j2+1))),
        (if k = i2 then 1 else r.A i2 k) * r.A k j2) =
      A (sigmaOf r.ts 0 i2) j2 := by
    intro i2 hi2 j2 hj2
    have he := heqn i2 hi2 j2 hj2
    by_cases hji : j2 < i2
    · have hmin : min (i2+1) (min size (j2+1)) = j2 + 1 := by omega
      rw [hmin]
      have hmin2 : min i2 (j2+1) = j2 + 1 := by omega
      rw [hmin2, if_pos hji, add_zero] at he
      rw [he]
      apply Finset.sum_congr rfl
      intro k hk
      rw [Finset.mem_range] at hk
      rw [if_neg (by omega)]
    · have hmin : min (i2+1) (min size (j2+1)) = i2 + 1 := by omega
      rw [hmin, Finset.sum_range_succ, if_pos rfl, one_mul]
      have hmin2 : min i2 (j2+1) = i2 := by omega
      rw [hmin2, if_neg (by omega)] at he
      rw [he]
      congr 1
      apply Finset.sum_congr rfl
      intro k hk
      rw [Finset.mem_range] at hk
      rw [if_neg (by omega)]
  have hlp : ∀ (G : Mat K) (i2 j2 : ℕ), luProd G size i2 j2 =
      ∑ k ∈ Finset.range (min (i2+1) (min size (j2+1))),
        (if k = i2 then 1 else G i2 k) * G k j2 := fun G i2 j2 => rfl
  by_cases hmn : m < n
  · rw [if_pos hmn]
    have hszm : size = m := by omega
    have hFoff : ∀ a b, b < m →
        trsmUnitLower r.A 0 0 m m n a b = r.A a b := by
      intro a b hb
      exact trsmUnitLower_off r.A 0 0 m m n a b (by omega)
    by_cases hjm : j < m
    · rw [hlp]
      have hconv : ∀ k ∈ Finset.range (min (i+1) (min size (j+1))),
          (if k = i then 1 else trsmUnitLower r.A 0 0 m m n i k) *
            trsmUnitLower r.A 0 0 m m n k j =
          (if k = i then 1 else r.A i k) * r.A k j := by
        intro k hk
        rw [Finset.mem_range] at hk
        rw [hFoff k j hjm]
        by_cases hki : k = i
        · rw [if_pos hki, if_pos hki]
        · rw [if_neg hki, if_neg hki, hFoff i k (by omega)]
      rw [Finset.sum_congr rfl hconv]
      exact hcore i hi j (by omega)
    · have hjm' : m ≤ j := by omega
      rw [hlp]
      have hmin : min (i+1) (min size (j+1)) = i + 1 := by omega
      rw [hmin, Finset.sum_range_succ, if_pos rfl, one_mul]
      have hterm : ∀ k ∈ Finset.range i,
          (if k = i then 1 else trsmUnitLower r.A 0 0 m m n i k) *
            trsmUnitLower r.A 0 0 m m n k j =
          r.A i k * trsmUnitLower r.A 0 0 m m n k j := by
        intro k hk
        rw [Finset.mem_range] at hk
        rw [if_neg (by omega), hFoff i k (by omega)]
      rw [Finset.sum_congr rfl hterm]
      have hts := trsmUnitLower_spec r.A 0 0 m m n i hi j hjm' hj
      simp only [Nat.zero_add] at hts
      rw [hts]
      exact houtside i hi j (by omega) hj
  · rw [if_neg hmn, hlp]
    exact hcore i hi j (by omega)

/-- The last write wins in the `perm_inv` fill loop: once the accumulator
holds the unique preimage, it keeps it. -/
theorem foldl_write_stick (p : ℕ → ℕ) (j x : ℕ) :
    ∀ l : List ℕ, (∀ i ∈ l, p i = j → i = x) →
      l.foldl (fun acc i => if p i = j then i else acc) x = x := by
  intro l
  induction l with
  | nil => intro _; rfl
  | cons a l ih =>
    intro h
    rw [List.foldl_cons]
    by_cases ha : p a = j
    · rw [if_pos ha, h a (List.mem_cons_self a l) ha]
      exact ih (fun i hi => h i (List.mem_cons_of_mem a hi))
    · rw [if_neg ha]
      exact ih (fun i hi => h i (List.mem_cons_of_mem a hi))

theorem foldl_write_finds (p : ℕ → ℕ) (j x : ℕ) :
    ∀ (l : List ℕ) (acc : ℕ), (∀ i ∈ l, p i = j → i = x) → x ∈ l →
      p x = j →
      l.foldl (fun acc i => if p i = j then i else acc) acc = x := by
  intro l
  induction l with
  | nil => intro acc _ hx _; exact absurd hx (List.not_mem_nil x)
  | cons a l ih =>
    intro acc hall hx hpx
    rw [List.foldl_cons]
    by_cases hax : a = x
    · rw [hax, if_pos hpx]
      exact foldl_write_stick p j x l
        (fun i hi => hall i (List.mem_cons_of_mem a hi))
    · have hx2 : x ∈ l := by
        rcases List.mem_cons.mp hx with h | h
        · exact absurd h.symm hax
        · exact h
      exact ih _ (fun i hi => hall i (List.mem_cons_of_mem a hi)) hx2 hpx

/-- For an injective permutation, the `perm_inv` fill loop inverts it. -/
theorem invPerm_left (p : ℕ → ℕ) (m : ℕ)
    (hinj : ∀ x y, p x = p y → x = y) :
    ∀ x, x < m → invPerm p m (p x) = x := by
  intro x hx
  unfold invPerm
  exact foldl_write_finds p (p x) x (List.range m) 0
    (fun i _ hi => hinj i x hi) (List.mem_range.mpr hx) rfl

/-- The two permutation arrays returned by partial-pivoting `lu_in_place` are
mutually inverse on the row range. -/
theorem luPP_perm_inverse (score : K → ℚ) (hs : ScoreOk score) (A : Mat K)
    (m n : ℕ) :
    (∀ i, i < m →
      (luPP score A m n).2.2.1 ((luPP score A m n).2.1 i) = i) ∧
    (∀ i, i < m →
      (luPP score A m n).2.1 ((luPP score A m n).2.2.1 i) = i) := by
  set size := min n m with hszd
  set r := luImplGo score (size + 1) A (fun x => x) m 0 n 0 size 0 with hrd
  have spec : ImplSpec A (fun x => x) m 0 n 0 size 0 r := by
    rw [hrd]
    exact luPP_core_spec score hs A m n
  have hp : (luPP score A m n).2.1 = r.p := rfl
  have hpi : (luPP score A m n).2.2.1 = invPerm r.p m := rfl
  rw [hp, hpi]
  have hperm : ∀ x, r.p x = sigmaOf r.ts 0 x := spec.perm
  have hinj : ∀ x y, r.p x = r.p y → x = y := by
    intro x y hxy
    rw [hperm x, hperm y] at hxy
    have h1 := sigmaInv_sigmaOf r.ts 0 x
    have h2 := sigmaInv_sigmaOf r.ts 0 y
    rw [hxy] at h1
    rw [h1] at h2
    exact h2
  have hbnd : ∀ q (h : q < r.ts.length), 0 + q + r.ts[q] < m := by
    intro q h
    have := spec.tsb q h
    omega
  constructor
  · intro i hi
    exact invPerm_left r.p m hinj i hi
  · intro i hi
    have hx : sigmaInv r.ts 0 i < m := sigmaInv_lt r.ts 0 m hbnd i hi
    have hpx : r.p (sigmaInv r.ts 0 i) = i := by
      rw [hperm]
      exact sigmaOf_sigmaInv r.ts 0 i
    rw [← hpx, invPerm_left r.p m hinj (sigmaInv r.ts 0 i) hx, hpx]

/-- The transposition count returned by partial-pivoting `lu_in_place` is the
number of recorded nonzero transpositions, the list has `min n m` entries,
and the count is bounded by `min n m`. -/
theorem luPP_count (score : K → ℚ) (hs : ScoreOk score) (A : Mat K)
    (m n : ℕ) :
    (luPP score A m n).2.2.2.2 =
      ((luPP score A m n).2.2.2.1.filter (fun t => t ≠ 0)).length ∧
    (luPP score A m n).2.2.2.1.length = min n m ∧
    (luPP score A m n).2.2.2.2 ≤ min n m := by
  set size := min n m with hszd
  set r := luImplGo score (size + 1) A (fun x => x) m 0 n 0 size 0 with hrd
  have spec : ImplSpec A (fun x => x) m 0 n 0 size 0 r := by
    rw [hrd]
    exact luPP_core_spec score hs A m n
  have hts : (luPP score A m n).2.2.2.1 = r.ts := rfl
  have hc : (luPP score A m n).2.2.2.2 = r.cnt := rfl
  rw [hts, hc]
  refine ⟨spec.cnt, spec.len, ?_⟩
  rw [spec.cnt]
  calc (r.ts.filter (fun t => t ≠ 0)).length ≤ r.ts.length :=
        List.length_filter_le _ _
    _ = size := spec.len

end LuPPSpec

section FpPrep

variable {K : Type} [Field K]

theorem mem_cmIdx_of {m n i c : ℕ} (hi : i < m) (hc : c < n) :
    (i, c) ∈ cmIdx m n := by
  unfold cmIdx
  refine List.mem_flatMap.mpr ⟨c, List.mem_range.mpr hc, ?_⟩
  exact List.mem_map.mpr ⟨i, List.mem_range.mpr hi, rfl⟩

/-- Every entry's score is bounded by the value returned by the column-major
scan of `best_in_matrix`. -/
theorem bestInMat_le (score : K → ℚ) (A : Mat K) (m n : ℕ) :
    ∀ i c, i < m → c < n →
      score (A i c) ≤ (bestInMat score A m n).2.2 := by
  intro i c hi hc
  rw [bestInMat_eq_amax]
  exact amaxFold_le (fun x => score (A x.1 x.2)) (cmIdx m n) (0, 0, 0)
    (i, c) (mem_cmIdx_of hi hc)

/-- The indices returned by `best_in_matrix` are in range for a nonempty
matrix. -/
theorem bestInMat_bounds (score : K → ℚ) (A : Mat K) (m n : ℕ)
    (hm : 1 ≤ m) (hn : 1 ≤ n) :
    (bestInMat score A m n).1 < m ∧ (bestInMat score A m n).2.1 < n := by
  rw [bestInMat_eq_amax]
  rcases amaxFold_attained (fun x => score (A x.1 x.2)) (cmIdx m n)
    (0, 0, 0) with h | ⟨x, hx, h⟩
  · rw [h]
    exact ⟨hm, hn⟩
  · obtain ⟨h1, h2⟩ := mem_cmIdx hx
    rw [h]
    exact ⟨h1, h2⟩

/-- Under the properties of `score`, `best_in_matrix` attains its value at
the returned position. -/
theorem bestInMat_att (score : K → ℚ) (hs : ScoreOk score) (A : Mat K)
    (m n : ℕ) (hm : 1 ≤ m) (hn : 1 ≤ n) :
    score (A (bestInMat score A m n).1 (bestInMat score A m n).2.1) =
      (bestInMat score A m n).2.2 := by
  rcases amaxFold_attained (fun x => score (A x.1 x.2)) (cmIdx m n)
    (0, 0, 0) with h | ⟨x, hx, h⟩
  · have h00 : score (A 0 0) ≤ (bestInMat score A m n).2.2 :=
      bestInMat_le score A m n 0 0 hm hn
    rw [bestInMat_eq_amax, h] at h00 ⊢
    have h0 : score (A 0 0) = 0 := le_antisymm h00 (hs.nonneg _)
    exact h0
  · rw [bestInMat_eq_amax, h]

/-- The maximum property of `best_in_matrix`, combined: the score at the
returned position dominates every entry. -/
theorem bestInMat_max (score : K → ℚ) (hs : ScoreOk score) (A : Mat K)
    (m n : ℕ) (hm : 1 ≤ m) (hn : 1 ≤ n) :
    ∀ i c, i < m → c < n →
      score (A i c) ≤
        score (A (bestInMat score A m n).1 (bestInMat score A m n).2.1) := by
  intro i c hi hc
  rw [bestInMat_att score hs A m n hm hn]
  exact bestInMat_le score A m n i c hi hc

theorem colSwap_in (A : Mat K) (j1 j2 m i c : ℕ) (h : i < m) :
    colSwap A j1 j2 m i c = A i (swapPos j1 j2 c) := by
  unfold colSwap swapPos
  rw [if_pos h]
  split_ifs <;> rfl

end FpPrep

section SigmaFun

/-- Composition of the transpositions `(k, tr k)` for `k = i0, …, i0+s-1`,
applied back to front (the same convention as the in-place array swaps). -/
def sigmaFun (tr : ℕ → ℕ) : ℕ → ℕ → ℕ → ℕ
  | _, 0, x => x
  | i0, s+1, x => swapPos i0 (tr i0) (sigmaFun tr (i0+1) s x)

theorem sigmaFun_zero (tr : ℕ → ℕ) (i0 x : ℕ) : sigmaFun tr i0 0 x = x := rfl

theorem sigmaFun_snoc (tr : ℕ → ℕ) :
    ∀ s i0 x, sigmaFun tr i0 (s+1) x =
      sigmaFun tr i0 s (swapPos (i0+s) (tr (i0+s)) x) := by
  intro s
  induction s with
  | zero =>
    intro i0 x
    show swapPos i0 (tr i0) (sigmaFun tr (i0+1) 0 x) = swapPos (i0+0) (tr (i0+0)) x
    rw [sigmaFun_zero, Nat.add_zero]
  | succ s ih =>
    intro i0 x
    show swapPos i0 (tr i0) (sigmaFun tr (i0+1) (s+1) x) = _
    rw [ih (i0+1) x]
    have h1 : i0 + 1 + s = i0 + (s+1) := by omega
    rw [h1]
    rfl

theorem sigmaFun_congr (tr tr' : ℕ → ℕ) :
    ∀ s i0 x, (∀ k, i0 ≤ k → k < i0 + s → tr k = tr' k) →
      sigmaFun tr i0 s x = sigmaFun tr' i0 s x := by
  intro s
  induction s with
  | zero => intro _ _ _; rfl
  | succ s ih =>
    intro i0 x h
    show swapPos i0 (tr i0) (sigmaFun tr (i0+1) s x) =
      swapPos i0 (tr' i0) (sigmaFun tr' (i0+1) s x)
    rw [h i0 (le_refl _) (by omega), ih (i0+1) x (fun k h1 h2 => h k (by omega) (by omega))]

theorem sigmaFun_lt (tr : ℕ → ℕ) :
    ∀ s i0 M, (∀ k, i0 ≤ k → k < i0 + s → tr k < M) → i0 + s ≤ M →
      ∀ x, x < M → sigmaFun tr i0 s x < M := by
  intro s
  induction s with
  | zero => intro _ _ _ _ x hx; exact hx
  | succ s ih =>
    intro i0 M hb hle x hx
    show swapPos i0 (tr i0) (sigmaFun tr (i0+1) s x) < M
    have h1 : sigmaFun tr (i0+1) s x < M :=
      ih (i0+1) M (fun k h1 h2 => hb k (by omega) (by omega)) (by omega) x hx
    have h2 : tr i0 < M := hb i0 (le_refl _) (by omega)
    unfold swapPos
    split_ifs <;> omega

/-- If the trailing transpositions are trivial, the composition only depends
on the leading ones. -/
theorem sigmaFun_id_ext (tr : ℕ → ℕ) :
    ∀ u s i0 x, (∀ k, i0 + s ≤ k → k < i0 + s + u → tr k = k) →
      sigmaFun tr i0 (s + u) x = sigmaFun tr i0 s x := by
  intro u
  induction u with
  | zero => intro s i0 x _; rfl
  | succ u ih =>
    intro s i0 x h
    have h1 : s + (u + 1) = (s + u) + 1 := by omega
    rw [h1, sigmaFun_snoc, h (i0 + (s+u)) (by omega) (by omega), swapPos_self]
    exact ih s i0 x (fun k hk1 hk2 => h k hk1 (by omega))

def sigmaFunInv (tr : ℕ → ℕ) : ℕ → ℕ → ℕ → ℕ
  | _, 0, x => x
  | i0, s+1, x => sigmaFunInv tr (i0+1) s (swapPos i0 (tr i0) x)

theorem sigmaFunInv_sigmaFun (tr : ℕ → ℕ) :
    ∀ s i0 x, sigmaFunInv tr i0 s (sigmaFun tr i0 s x) = x := by
  intro s
  induction s with
  | zero => intro _ _; rfl
  | succ s ih =>
    intro i0 x
    show sigmaFunInv tr (i0+1) s
      (swapPos i0 (tr i0) (swapPos i0 (tr i0) (sigmaFun tr (i0+1) s x))) = x
    rw [swapPos_invol, ih (i0+1) x]

theorem sigmaFun_sigmaFunInv (tr : ℕ → ℕ) :
    ∀ s i0 x, sigmaFun tr i0 s (sigmaFunInv tr i0 s x) = x := by
  intro s
  induction s with
  | zero => intro _ _; rfl
  | succ s ih =>
    intro i0 x
    show swapPos i0 (tr i0)
      (sigmaFun tr (i0+1) s (sigmaFunInv tr (i0+1) s (swapPos i0 (tr i0) x))) = x
    rw [ih (i0+1) (swapPos i0 (tr i0) x), swapPos_invol]

/-- The permutation array built by the swap loop of full-pivoting
`lu_in_place` is the composed transposition permutation. -/
theorem buildPermFrom_eq (tr : ℕ → ℕ) :
    ∀ s i p, buildPermFrom tr i s p = fun x => p (sigmaFun tr i s x) := by
  intro s
  induction s with
  | zero => intro i p; rfl
  | succ s ih =>
    intro i p
    show buildPermFrom tr (i+1) s _ = _
    rw [ih (i+1)]
    funext x
    show (if sigmaFun tr (i+1) s x = i then p (tr i)
          else if sigmaFun tr (i+1) s x = tr i then p i
          else p (sigmaFun tr (i+1) s x)) = p (sigmaFun tr i (s+1) x)
    show _ = p (swapPos i (tr i) (sigmaFun tr (i+1) s x))
    unfold swapPos
    split_ifs <;> rfl

theorem buildPerm_eq (tr : ℕ → ℕ) (m : ℕ) :
    buildPerm tr m = fun x => sigmaFun tr 0 m x := by
  unfold buildPerm
  rw [buildPermFrom_eq]

end SigmaFun

section StratEq

variable {K : Type} [Field K]

/-- Validity of a column-splitting strategy for the parallel pivot search: at
step `k` the chunk widths must tile the remaining columns `[k+1, n)`.  This
is what `par_split_indices` guarantees for any thread count. -/
def StratOk (strat : ℕ → Option (List ℕ)) (n : ℕ) : Prop :=
  ∀ k ws, strat k = some ws → ws.sum = n - (k + 1)

theorem fpStep_strat (score : K → ℚ) (strat : ℕ → Option (List ℕ))
    (m n size : ℕ) (tr : Bool) (k : ℕ) (st : FpState K)
    (h : ∀ ws, strat k = some ws → ws.sum = n - (k + 1)) :
    fpStep score strat m n size tr k st =
      fpStep score (fun _ => none) m n size tr k st := by
  cases hst : strat k with
  | none => simp only [fpStep, hst]
  | some ws =>
    simp only [fpStep, hst]
    rw [fpBestPar_eq_seq score _ (k+1) (k+1) m n ws (h ws hst)]

theorem fpGo_strat (score : K → ℚ) (strat : ℕ → Option (List ℕ))
    (m n size : ℕ) (tr : Bool) (hok : StratOk strat n) :
    ∀ s k (st : FpState K),
      fpGo score strat m n size tr k s st =
        fpGo score (fun _ => none) m n size tr k s st := by
  intro s
  induction s with
  | zero => intro _ _; rfl
  | succ s ih =>
    intro k st
    show fpGo score strat m n size tr (k+1) s (fpStep score strat m n size tr k st) = _
    rw [fpStep_strat score strat m n size tr k st (hok k), ih]
    rfl

/-- The unblocked full-pivoting factorization is independent of the
column-splitting strategy used by the parallel pivot search. -/
theorem fpUnb_strat (score : K → ℚ) (strat : ℕ → Option (List ℕ))
    (A : Mat K) (m n : ℕ) (tr : Bool) (hok : StratOk strat n) :
    fpUnb score strat A m n tr = fpUnb score (fun _ => none) A m n tr := by
  by_cases h0 : n = 0 ∨ m = 0
  · simp only [fpUnb, if_pos h0]
  · simp only [fpUnb, if_neg h0]
    rw [fpGo_strat score strat m n (min m n) tr hok]

/-- Full-pivoting `lu_in_place` produces identical outputs (factored matrix,
both permutations and inverses, transposition arrays, count) for any valid
parallel strategy as for the sequential one. -/
theorem luFP_strat (score : K → ℚ) (strat : ℕ → Option (List ℕ))
    (A : Mat K) (m n : ℕ) (rowMajor : Bool)
    (hok : StratOk strat (if rowMajor then m else n)) :
    luFP score strat A m n rowMajor =
      luFP score (fun _ => none) A m n rowMajor := by
  cases rowMajor with
  | true =>
    have hok' : StratOk strat m := by
      intro k ws hws
      have h2 := hok k ws hws
      simpa using h2
    simp [luFP, fpUnb_strat score strat (fun i j => A j i) n m true hok']
  | false =>
    have hok' : StratOk strat n := by
      intro k ws hws
      have h2 := hok k ws hws
      simpa using h2
    simp [luFP, fpUnb_strat score strat A m n false hok']

end StratEq

section FpInvariant

variable {K : Type} [Field K]

/-- Invariant of the full-pivoting elimination loop after `j` completed
steps: ranges of the recorded transpositions, the running count, bounds and
maximality of the pending pivot, and the reconstruction equation.  The `tr`
flag selects which factor carries the implicit unit diagonal (row scaling on
the transposed view instead of column scaling). -/
structure FpInv (score : K → ℚ) (A0 : Mat K) (m n size : ℕ) (tr : Bool)
    (j : ℕ) (st : FpState K) : Prop where
  rT_ge : ∀ k, k < j → k ≤ st.rowT k
  rT_lt : ∀ k, k < j → st.rowT k < m
  rT_id : ∀ k, j ≤ k → st.rowT k = k
  cT_ge : ∀ k, k < j → k ≤ st.colT k
  cT_lt : ∀ k, k < j → st.colT k < n
  cT_id : ∀ k, j ≤ k → st.colT k = k
  cnt : st.cnt =
    ((List.range j).filter (fun k => st.rowT k ≠ k)).length +
    ((List.range j).filter (fun k => st.colT k ≠ k)).length
  mrb : j < size → j ≤ st.mr ∧ st.mr < m
  mcb : j < size → j ≤ st.mc ∧ st.mc < n
  bmax : j < size → ∀ i c, j ≤ i → i < m → j ≤ c → c < n →
    score (st.A i c) ≤ score (st.A st.mr st.mc)
  eqn : ∀ t, t < m → ∀ q, q < n →
    A0 (sigmaFun st.rowT 0 j t) (sigmaFun st.colT 0 j q) =
      (∑ k ∈ Finset.range (min j (if tr then min (t+1) q else min t (q+1))),
        st.A t k * st.A k q) +
      (if (if tr then t < j ∧ t < q else q < j ∧ q < t) then 0 else st.A t q)

/-- One step of the (sequential) full-pivoting elimination preserves the
invariant. -/
theorem fpStep_inv (score : K → ℚ) (hs : ScoreOk score) (A0 : Mat K)
    (m n size : ℕ) (tr : Bool) (j : ℕ) (st : FpState K)
    (hsize : size = min m n) (hj : j < size)
    (hinv : FpInv score A0 m n size tr j st) :
    FpInv score A0 m n size tr (j+1)
      (fpStep score (fun _ => none) m n size tr j st) := by
  have hjm : j < m := by omega
  have hjn : j < n := by omega
  obtain ⟨hmr1, hmr2⟩ := hinv.mrb hj
  obtain ⟨hmc1, hmc2⟩ := hinv.mcb hj
  set rowT1 := (fun x => if x = j then st.mr else st.rowT x) with hrT1
  set colT1 := (fun x => if x = j then st.mc else st.colT x) with hcT1
  set cnt1 := st.cnt + (if st.mr ≠ j then 1 else 0) +
    (if st.mc ≠ j then 1 else 0) with hcnt1
  set A1 := (if st.mr ≠ j then rowSwap st.A j st.mr 0 n else st.A) with hA1
  set A2 := (if st.mc ≠ j then colSwap A1 j st.mc m else A1) with hA2
  set A3 := (if tr then scaleRowFP A2 j j n else scaleColPP A2 j j m) with hA3
  set A4 := fpUpdate A3 j m n with hA4
  set b := bestInSub score A4 (j+1) (j+1) m n with hb
  -- entry descriptions of the swapped matrix
  have hA1e : ∀ i c, c < n → A1 i c = st.A (swapPos j st.mr i) c := by
    intro i c hc
    rw [hA1]
    by_cases hmr0 : st.mr ≠ j
    · rw [if_pos hmr0]
      exact rowSwap_in st.A j st.mr 0 n i c ⟨by omega, hc⟩
    · rw [if_neg hmr0]
      have he : st.mr = j := by omega
      rw [he, swapPos_self]
  have hA2e : ∀ i c, i < m → c < n →
      A2 i c = st.A (swapPos j st.mr i) (swapPos j st.mc c) := by
    intro i c hi hc
    have hswn : swapPos j st.mc c < n := by
      unfold swapPos
      split_ifs <;> omega
    rw [hA2]
    by_cases hmc0 : st.mc ≠ j
    · rw [if_pos hmc0, colSwap_in A1 j st.mc m i c hi, hA1e i _ hswn]
    · rw [if_neg hmc0]
      have he : st.mc = j := by omega
      rw [hA1e i c hc, he, swapPos_self]
  have hpivA2 : A2 j j = st.A st.mr st.mc := by
    rw [hA2e j j hjm hjn, swapPos_left, swapPos_left]
  -- scaling
  have hA3safe : ∀ i c, (c = j → i ≤ j) → (i = j → c ≤ j) →
      A3 i c = A2 i c := by
    intro i c h1 h2
    rw [hA3]
    cases tr with
    | false =>
      show scaleColPP A2 j j m i c = A2 i c
      unfold scaleColPP
      rw [if_neg]
      intro hcond
      have := h1 hcond.1
      omega
    | true =>
      show scaleRowFP A2 j j n i c = A2 i c
      unfold scaleRowFP
      rw [if_neg]
      intro hcond
      have := h2 hcond.1
      omega
  have hA3offF : tr = false → ∀ i c, c ≠ j → A3 i c = A2 i c := by
    intro htr i c h1
    rw [hA3, htr]
    show scaleColPP A2 j j m i c = A2 i c
    unfold scaleColPP
    rw [if_neg]
    intro hcond
    exact h1 hcond.1
  have hA3offT : tr = true → ∀ i c, i ≠ j → A3 i c = A2 i c := by
    intro htr i c h1
    rw [hA3, htr]
    show scaleRowFP A2 j j n i c = A2 i c
    unfold scaleRowFP
    rw [if_neg]
    intro hcond
    exact h1 hcond.1
  have hA3sF : tr = false → ∀ i, j < i → i < m →
      A3 i j = A2 i j * (A2 j j)⁻¹ := by
    intro htr i h1 h2
    rw [hA3, htr]
    show scaleColPP A2 j j m i j = _
    unfold scaleColPP
    rw [if_pos ⟨rfl, h1, h2⟩]
  have hA3sT : tr = true → ∀ c, j < c → c < n →
      A3 j c = A2 j c * (A2 j j)⁻¹ := by
    intro htr c h1 h2
    rw [hA3, htr]
    show scaleRowFP A2 j j n j c = _
    unfold scaleRowFP
    rw [if_pos ⟨rfl, h1, h2⟩]
  -- pivot-zero degeneracy
  have hPivZero : st.A st.mr st.mc = 0 →
      ∀ i c, j ≤ i → i < m → j ≤ c → c < n → st.A i c = 0 := by
    intro h0 i c h1 h2 h3 h4
    have hle := hinv.bmax hj i c h1 h2 h3 h4
    rw [h0, hs.zero] at hle
    exact hs.eq_zero _ hle
  -- swap shorthand
  have hτrm : ∀ x, x < m → swapPos j st.mr x < m := by
    intro x hx
    unfold swapPos
    split_ifs <;> omega
  have hτcn : ∀ x, x < n → swapPos j st.mc x < n := by
    intro x hx
    unfold swapPos
    split_ifs <;> omega
  have hτr_lt : ∀ x, x < j → swapPos j st.mr x = x := by
    intro x hx
    exact swapPos_other (by omega) (by omega)
  have hτc_lt : ∀ x, x < j → swapPos j st.mc x = x := by
    intro x hx
    exact swapPos_other (by omega) (by omega)
  have hτr_ge : ∀ x, j ≤ x → j ≤ swapPos j st.mr x := by
    intro x hx
    unfold swapPos
    split_ifs <;> omega
  have hτc_ge : ∀ x, j ≤ x → j ≤ swapPos j st.mc x := by
    intro x hx
    unfold swapPos
    split_ifs <;> omega
  -- permutation compositions
  have hsr : ∀ x, sigmaFun rowT1 0 (j+1) x =
      sigmaFun st.rowT 0 j (swapPos j st.mr x) := by
    intro x
    rw [sigmaFun_snoc]
    have h0 : (0:ℕ) + j = j := Nat.zero_add j
    rw [h0]
    have h1 : rowT1 j = st.mr := if_pos rfl
    rw [h1]
    exact sigmaFun_congr rowT1 st.rowT j 0 _
      (fun k _ h2 => if_neg (by omega))
  have hsc : ∀ x, sigmaFun colT1 0 (j+1) x =
      sigmaFun st.colT 0 j (swapPos j st.mc x) := by
    intro x
    rw [sigmaFun_snoc]
    have h0 : (0:ℕ) + j = j := Nat.zero_add j
    rw [h0]
    have h1 : colT1 j = st.mc := if_pos rfl
    rw [h1]
    exact sigmaFun_congr colT1 st.colT j 0 _
      (fun k _ h2 => if_neg (by omega))
  -- transposition-array fields
  have hRge : ∀ k, k < j+1 → k ≤ rowT1 k := by
    intro k hk
    by_cases hkj : k = j
    · subst hkj
      have h1 : rowT1 k = st.mr := if_pos rfl
      omega
    · have h1 : rowT1 k = st.rowT k := if_neg hkj
      have := hinv.rT_ge k (by omega)
      omega
  have hRlt : ∀ k, k < j+1 → rowT1 k < m := by
    intro k hk
    by_cases hkj : k = j
    · subst hkj
      have h1 : rowT1 k = st.mr := if_pos rfl
      omega
    · have h1 : rowT1 k = st.rowT k := if_neg hkj
      have := hinv.rT_lt k (by omega)
      omega
  have hRid : ∀ k, j+1 ≤ k → rowT1 k = k := by
    intro k hk
    have h1 : rowT1 k = st.rowT k := if_neg (by omega)
    rw [h1]
    exact hinv.rT_id k (by omega)
  have hCge : ∀ k, k < j+1 → k ≤ colT1 k := by
    intro k hk
    by_cases hkj : k = j
    · subst hkj
      have h1 : colT1 k = st.mc := if_pos rfl
      omega
    · have h1 : colT1 k = st.colT k := if_neg hkj
      have := hinv.cT_ge k (by omega)
      omega
  have hClt : ∀ k, k < j+1 → colT1 k < n := by
    intro k hk
    by_cases hkj : k = j
    · subst hkj
      have h1 : colT1 k = st.mc := if_pos rfl
      omega
    · have h1 : colT1 k = st.colT k := if_neg hkj
      have := hinv.cT_lt k (by omega)
      omega
  have hCid : ∀ k, j+1 ≤ k → colT1 k = k := by
    intro k hk
    have h1 : colT1 k = st.colT k := if_neg (by omega)
    rw [h1]
    exact hinv.cT_id k (by omega)
  have hCnt : cnt1 =
      ((List.range (j+1)).filter (fun k => rowT1 k ≠ k)).length +
      ((List.range (j+1)).filter (fun k => colT1 k ≠ k)).length := by
    have hfr : ((List.range (j+1)).filter (fun k => rowT1 k ≠ k)).length =
        ((List.range j).filter (fun k => st.rowT k ≠ k)).length +
        (if st.mr ≠ j then 1 else 0) := by
      rw [List.range_succ, List.filter_append, List.length_append]
      congr 1
      · congr 1
        apply List.filter_congr
        intro k hk
        rw [List.mem_range] at hk
        have h1 : rowT1 k = st.rowT k := if_neg (by omega)
        rw [h1]
      · have h1 : rowT1 j = st.mr := if_pos rfl
        simp only [List.filter_cons, List.filter_nil, h1]
        by_cases hmr0 : st.mr ≠ j
        · simp [hmr0]
        · simp [hmr0]
    have hfc : ((List.range (j+1)).filter (fun k => colT1 k ≠ k)).length =
        ((List.range j).filter (fun k => st.colT k ≠ k)).length +
        (if st.mc ≠ j then 1 else 0) := by
      rw [List.range_succ, List.filter_append, List.length_append]
      congr 1
      · congr 1
        apply List.filter_congr
        intro k hk
        rw [List.mem_range] at hk
        have h1 : colT1 k = st.colT k := if_neg (by omega)
        rw [h1]
      · have h1 : colT1 j = st.mc := if_pos rfl
        simp only [List.filter_cons, List.filter_nil, h1]
        by_cases hmc0 : st.mc ≠ j
        · simp [hmc0]
        · simp [hmc0]
    rw [hfr, hfc, hcnt1, hinv.cnt]
    split_ifs <;> omega
  -- the reconstruction equation, generic in the presence of the rank-1 update
  have hEQN : ∀ (M : Mat K),
      (∀ i c, i < m → c < n → ¬(j < i ∧ j < c) → M i c = A3 i c) →
      (∀ i c, j < i → i < m → j < c → c < n →
        M i c = A3 i c - A3 i j * A3 j c) →
      ∀ t, t < m → ∀ q, q < n →
        A0 (sigmaFun rowT1 0 (j+1) t) (sigmaFun colT1 0 (j+1) q) =
          (∑ k ∈ Finset.range
              (min (j+1) (if tr then min (t+1) q else min t (q+1))),
            M t k * M k q) +
          (if (if tr then t < j+1 ∧ t < q else q < j+1 ∧ q < t) then 0
           else M t q) := by
    intro M hMoff hMupd t ht q hq
    rw [hsr t, hsc q]
    have ht2 : swapPos j st.mr t < m := hτrm t ht
    have hq2 : swapPos j st.mc q < n := hτcn q hq
    have hEq := hinv.eqn (swapPos j st.mr t) ht2 (swapPos j st.mc q) hq2
    have hE1 : ∀ tt k, tt < m → k < j →
        M tt k = st.A (swapPos j st.mr tt) k := by
      intro tt k h1 h2
      rw [hMoff tt k h1 (by omega) (by omega),
        hA3safe tt k (fun hc => by omega) (fun hi => by omega),
        hA2e tt k h1 (by omega), hτc_lt k h2]
    have hE2 : ∀ k c, k < j → c < n →
        M k c = st.A k (swapPos j st.mc c) := by
      intro k c h1 h2
      rw [hMoff k c (by omega) h2 (by omega),
        hA3safe k c (fun hc => by omega) (fun hi => by omega),
        hA2e k c (by omega) h2, hτr_lt k h1]
    have hMpiv : M j j = st.A st.mr st.mc := by
      rw [hMoff j j hjm hjn (by omega),
        hA3safe j j (fun _ => le_refl j) (fun _ => le_refl j), hpivA2]
    cases tr with
    | false =>
      simp only [Bool.false_eq_true, if_false] at hEq ⊢
      have hMtj : ∀ tt, j < tt → tt < m →
          M tt j = st.A (swapPos j st.mr tt) st.mc *
            (st.A st.mr st.mc)⁻¹ := by
        intro tt h1 h2
        rw [hMoff tt j h2 hjn (by omega), hA3sF rfl tt h1 h2,
          hA2e tt j h2 hjn, swapPos_left, hpivA2]
      have hMjq : ∀ c, j < c → c < n →
          M j c = st.A st.mr (swapPos j st.mc c) := by
        intro c h1 h2
        rw [hMoff j c hjm h2 (by omega), hA3offF rfl j c (by omega),
          hA2e j c hjm h2, swapPos_left]
      by_cases hqj : q < j
      · rw [hτc_lt q hqj] at hEq ⊢
        by_cases htj : t < j
        · rw [hτr_lt t htj] at hEq ⊢
          have hm1 : min j (min t (q+1)) = min t (q+1) := by omega
          have hm2 : min (j+1) (min t (q+1)) = min t (q+1) := by omega
          rw [hm1] at hEq
          rw [hm2, hEq]
          congr 1
          · apply Finset.sum_congr rfl
            intro k hk
            rw [Finset.mem_range] at hk
            rw [hE1 t k ht (by omega), hτr_lt t htj,
              hE2 k q (by omega) hq, hτc_lt q hqj]
          · by_cases hqt : q < t
            · rw [if_pos ⟨hqj, hqt⟩, if_pos ⟨by omega, hqt⟩]
            · rw [if_neg (by omega), if_neg (by omega),
                hE2 t q htj hq, hτc_lt q hqj]
        · have ht2ge : j ≤ swapPos j st.mr t := hτr_ge t (by omega)
          have hm1 : min j (min (swapPos j st.mr t) (q+1)) = q + 1 := by
            omega
          have hm2 : min (j+1) (min t (q+1)) = q + 1 := by omega
          rw [hm1, if_pos ⟨hqj, by omega⟩, add_zero] at hEq
          rw [hm2, if_pos ⟨by omega, by omega⟩, add_zero, hEq]
          apply Finset.sum_congr rfl
          intro k hk
          rw [Finset.mem_range] at hk
          rw [hE1 t k ht (by omega), hE2 k q (by omega) hq, hτc_lt q hqj]
      · by_cases hqj2 : q = j
        · rw [hqj2] at hEq ⊢
          rw [swapPos_left] at hEq ⊢
          by_cases htj : t < j
          · rw [hτr_lt t htj] at hEq ⊢
            have hm1 : min j (min t (st.mc+1)) = t := by omega
            have hm2 : min (j+1) (min t (j+1)) = t := by omega
            rw [hm1, if_neg (by omega)] at hEq
            rw [hm2, if_neg (by omega), hEq]
            congr 1
            · apply Finset.sum_congr rfl
              intro k hk
              rw [Finset.mem_range] at hk
              rw [hE1 t k ht (by omega), hτr_lt t htj,
                hE2 k j (by omega) hjn, swapPos_left]
            · rw [hE2 t j htj hjn, swapPos_left]
          · by_cases htj2 : t = j
            · rw [htj2] at hEq ⊢
              rw [swapPos_left] at hEq ⊢
              have hm1 : min j (min st.mr (st.mc+1)) = j := by omega
              have hm2 : min (j+1) (min j (j+1)) = j := by omega
              rw [hm1, if_neg (by omega)] at hEq
              rw [hm2, if_neg (by omega), hEq, hMpiv]
              congr 1
              apply Finset.sum_congr rfl
              intro k hk
              rw [Finset.mem_range] at hk
              rw [hE1 j k hjm hk, swapPos_left,
                hE2 k j hk hjn, swapPos_left]
            · have htgt : j < t := by omega
              have ht2ge : j ≤ swapPos j st.mr t := hτr_ge t (by omega)
              have hm1 : min j (min (swapPos j st.mr t) (st.mc+1)) = j := by
                omega
              have hm2 : min (j+1) (min t (j+1)) = j + 1 := by omega
              rw [hm1, if_neg (by omega)] at hEq
              rw [hm2, if_pos ⟨by omega, by omega⟩, add_zero,
                Finset.sum_range_succ, hEq]
              have hsum : ∀ k ∈ Finset.range j,
                  M t k * M k j =
                  st.A (swapPos j st.mr t) k * st.A k st.mc := by
                intro k hk
                rw [Finset.mem_range] at hk
                rw [hE1 t k ht hk, hE2 k j hk hjn, swapPos_left]
              rw [Finset.sum_congr rfl hsum]
              rw [hMtj t htgt ht, hMpiv]
              by_cases hpz : st.A st.mr st.mc = 0
              · rw [hPivZero hpz (swapPos j st.mr t) st.mc ht2ge ht2
                  hmc1 hmc2, hpz]
                ring
              · rw [mul_assoc, inv_mul_cancel₀ hpz, mul_one]
        · have hqgt : j < q := by omega
          have hq2ge : j ≤ swapPos j st.mc q := hτc_ge q (by omega)
          by_cases htj : t < j
          · rw [hτr_lt t htj] at hEq ⊢
            have hm1 : min j (min t (swapPos j st.mc q + 1)) = t := by omega
            have hm2 : min (j+1) (min t (q+1)) = t := by omega
            rw [hm1, if_neg (by omega)] at hEq
            rw [hm2, if_neg (by omega), hEq]
            congr 1
            · apply Finset.sum_congr rfl
              intro k hk
              rw [Finset.mem_range] at hk
              rw [hE1 t k ht (by omega), hτr_lt t htj,
                hE2 k q (by omega) hq]
            · rw [hE2 t q htj hq]
          · by_cases htj2 : t = j
            · rw [htj2] at hEq ⊢
              rw [swapPos_left] at hEq ⊢
              have hm1 : min j (min st.mr (swapPos j st.mc q + 1)) = j := by
                omega
              have hm2 : min (j+1) (min j (q+1)) = j := by omega
              rw [hm1, if_neg (by omega)] at hEq
              rw [hm2, if_neg (by omega), hEq, hMjq q hqgt hq]
              congr 1
              apply Finset.sum_congr rfl
              intro k hk
              rw [Finset.mem_range] at hk
              rw [hE1 j k hjm hk, swapPos_left, hE2 k q hk hq]
            · have htgt : j < t := by omega
              have ht2ge : j ≤ swapPos j st.mr t := hτr_ge t (by omega)
              have hm1 : min j (min (swapPos j st.mr t)
                  (swapPos j st.mc q + 1)) = j := by omega
              have hm2 : min (j+1) (min t (q+1)) = j + 1 := by omega
              rw [hm1, if_neg (by omega)] at hEq
              rw [hm2, if_neg (by omega), Finset.sum_range_succ, hEq]
              have hsum : ∀ k ∈ Finset.range j,
                  M t k * M k q =
                  st.A (swapPos j st.mr t) k *
                    st.A k (swapPos j st.mc q) := by
                intro k hk
                rw [Finset.mem_range] at hk
                rw [hE1 t k ht hk, hE2 k q hk hq]
              rw [Finset.sum_congr rfl hsum]
              rw [hMtj t htgt ht, hMjq q hqgt hq,
                hMupd t q htgt ht hqgt hq,
                hA3offF rfl t q (by omega), hA2e t q ht hq,
                hA3sF rfl t htgt ht, hA2e t j ht hjn, swapPos_left,
                hA3offF rfl j q (by omega), hA2e j q hjm hq, swapPos_left,
                hpivA2]
              ring
    | true =>
      simp only [if_true] at hEq ⊢
      have hMjq : ∀ c, j < c → c < n →
          M j c = st.A st.mr (swapPos j st.mc c) *
            (st.A st.mr st.mc)⁻¹ := by
        intro c h1 h2
        rw [hMoff j c hjm h2 (by omega), hA3sT rfl c h1 h2,
          hA2e j c hjm h2, swapPos_left, hpivA2]
      have hMtj : ∀ tt, j < tt → tt < m →
          M tt j = st.A (swapPos j st.mr tt) st.mc := by
        intro tt h1 h2
        rw [hMoff tt j h2 hjn (by omega), hA3offT rfl tt j (by omega),
          hA2e tt j h2 hjn, swapPos_left]
      by_cases htj : t < j
      · rw [hτr_lt t htj] at hEq ⊢
        by_cases hqj : q < j
        · rw [hτc_lt q hqj] at hEq ⊢
          have hm1 : min j (min (t+1) q) = min (t+1) q := by omega
          have hm2 : min (j+1) (min (t+1) q) = min (t+1) q := by omega
          rw [hm1] at hEq
          rw [hm2, hEq]
          congr 1
          · apply Finset.sum_congr rfl
            intro k hk
            rw [Finset.mem_range] at hk
            rw [hE1 t k ht (by omega), hτr_lt t htj,
              hE2 k q (by omega) hq, hτc_lt q hqj]
          · by_cases htq : t < q
            · rw [if_pos ⟨htj, htq⟩, if_pos ⟨by omega, htq⟩]
            · rw [if_neg (by omega), if_neg (by omega),
                hE2 t q htj hq, hτc_lt q hqj]
        · have hq2ge : j ≤ swapPos j st.mc q := hτc_ge q (by omega)
          have hm1 : min j (min (t+1) (swapPos j st.mc q)) = t + 1 := by
            omega
          have hm2 : min (j+1) (min (t+1) q) = t + 1 := by omega
          rw [hm1, if_pos ⟨htj, by omega⟩, add_zero] at hEq
          rw [hm2, if_pos ⟨by omega, by omega⟩, add_zero, hEq]
          apply Finset.sum_congr rfl
          intro k hk
          rw [Finset.mem_range] at hk
          rw [hE1 t k ht (by omega), hτr_lt t htj, hE2 k q (by omega) hq]
      · by_cases htj2 : t = j
        · rw [htj2] at hEq ⊢
          rw [swapPos_left] at hEq ⊢
          by_cases hqj : q < j
          · rw [hτc_lt q hqj] at hEq ⊢
            have hm1 : min j (min (st.mr+1) q) = q := by omega
            have hm2 : min (j+1) (min (j+1) q) = q := by omega
            rw [hm1, if_neg (by omega)] at hEq
            rw [hm2, if_neg (by omega), hEq]
            congr 1
            · apply Finset.sum_congr rfl
              intro k hk
              rw [Finset.mem_range] at hk
              rw [hE1 j k hjm (by omega), swapPos_left,
                hE2 k q (by omega) hq, hτc_lt q hqj]
            · rw [hMoff j q hjm hq (by omega),
                hA3safe j q (fun hc => by omega) (fun _ => by omega),
                hA2e j q hjm hq, swapPos_left, hτc_lt q hqj]
          · by_cases hqj2 : q = j
            · rw [hqj2] at hEq ⊢
              rw [swapPos_left] at hEq ⊢
              have hm1 : min j (min (st.mr+1) st.mc) = j := by omega
              have hm2 : min (j+1) (min (j+1) j) = j := by omega
              rw [hm1, if_neg (by omega)] at hEq
              rw [hm2, if_neg (by omega), hEq, hMpiv]
              congr 1
              apply Finset.sum_congr rfl
              intro k hk
              rw [Finset.mem_range] at hk
              rw [hE1 j k hjm hk, swapPos_left,
                hE2 k j hk hjn, swapPos_left]
            · have hqgt : j < q := by omega
              have hq2ge : j ≤ swapPos j st.mc q := hτc_ge q (by omega)
              have hm1 : min j (min (st.mr+1) (swapPos j st.mc q)) = j := by
                omega
              have hm2 : min (j+1) (min (j+1) q) = j + 1 := by omega
              rw [hm1, if_neg (by omega)] at hEq
              rw [hm2, if_pos ⟨by omega, by omega⟩, add_zero,
                Finset.sum_range_succ, hEq]
              have hsum : ∀ k ∈ Finset.range j,
                  M j k * M k q =
                  st.A st.mr k * st.A k (swapPos j st.mc q) := by
                intro k hk
                rw [Finset.mem_range] at hk
                rw [hE1 j k hjm hk, swapPos_left, hE2 k q hk hq]
              rw [Finset.sum_congr rfl hsum]
              rw [hMjq q hqgt hq, hMpiv]
              by_cases hpz : st.A st.mr st.mc = 0
              · rw [hPivZero hpz st.mr (swapPos j st.mc q) hmr1 hmr2
                  hq2ge hq2, hpz]
                ring
              · rw [mul_comm (st.A st.mr (swapPos j st.mc q))
                  ((st.A st.mr st.mc)⁻¹), ← mul_assoc,
                  mul_inv_cancel₀ hpz, one_mul]
        · have htgt : j < t := by omega
          have ht2ge : j ≤ swapPos j st.mr t := hτr_ge t (by omega)
          by_cases hqj : q < j
          · rw [hτc_lt q hqj] at hEq ⊢
            have hm1 : min j (min (swapPos j st.mr t + 1) q) = q := by omega
            have hm2 : min (j+1) (min (t+1) q) = q := by omega
            rw [hm1, if_neg (by omega)] at hEq
            rw [hm2, if_neg (by omega), hEq]
            congr 1
            · apply Finset.sum_congr rfl
              intro k hk
              rw [Finset.mem_range] at hk
              rw [hE1 t k ht (by omega), hE2 k q (by omega) hq,
                hτc_lt q hqj]
            · rw [hMoff t q ht hq (by omega),
                hA3offT rfl t q (by omega), hA2e t q ht hq, hτc_lt q hqj]
          · by_cases hqj2 : q = j
            · rw [hqj2] at hEq ⊢
              rw [swapPos_left] at hEq ⊢
              have hm1 : min j (min (swapPos j st.mr t + 1) st.mc) = j := by
                omega
              have hm2 : min (j+1) (min (t+1) j) = j := by omega
              rw [hm1, if_neg (by omega)] at hEq
              rw [hm2, if_neg (by omega), hEq, hMtj t htgt ht]
              congr 1
              apply Finset.sum_congr rfl
              intro k hk
              rw [Finset.mem_range] at hk
              rw [hE1 t k ht hk, hE2 k j hk hjn, swapPos_left]
            · have hqgt : j < q := by omega
              have hq2ge : j ≤ swapPos j st.mc q := hτc_ge q (by omega)
              have hm1 : min j (min (swapPos j st.mr t + 1)
                  (swapPos j st.mc q)) = j := by omega
              have hm2 : min (j+1) (min (t+1) q) = j + 1 := by omega
              rw [hm1, if_neg (by omega)] at hEq
              rw [hm2, if_neg (by omega), Finset.sum_range_succ, hEq]
              have hsum : ∀ k ∈ Finset.range j,
                  M t k * M k q =
                  st.A (swapPos j st.mr t) k *
                    st.A k (swapPos j st.mc q) := by
                intro k hk
                rw [Finset.mem_range] at hk
                rw [hE1 t k ht hk, hE2 k q hk hq]
              rw [Finset.sum_congr rfl hsum]
              rw [hMtj t htgt ht, hMjq q hqgt hq,
                hMupd t q htgt ht hqgt hq,
                hA3offT rfl t q (by omega), hA2e t q ht hq,
                hA3offT rfl t j (by omega), hA2e t j ht hjn, swapPos_left,
                hA3sT rfl q hqgt hq, hA2e j q hjm hq, swapPos_left,
                hpivA2]
              ring
  -- assemble, splitting on the final-step break
  by_cases hlast : j + 1 = size
  · have hstep : fpStep score (fun _ => none) m n size tr j st =
        ⟨A3, rowT1, colT1, cnt1, st.mr, st.mc⟩ := by
      rw [hA3, hA2, hA1, hcnt1, hcT1, hrT1]
      simp only [fpStep]
      rw [if_pos hlast]
    rw [hstep]
    refine ⟨hRge, hRlt, hRid, hCge, hClt, hCid, hCnt, ?_, ?_, ?_, ?_⟩
    · intro h
      exact absurd h (by omega)
    · intro h
      exact absurd h (by omega)
    · intro h
      exact absurd h (by omega)
    · exact hEQN A3 (fun i c _ _ _ => rfl)
        (fun i c h1 h2 h3 h4 => absurd h2 (by omega))
  · have hstep : fpStep score (fun _ => none) m n size tr j st =
        ⟨A4, rowT1, colT1, cnt1, j + 1 + b.1, j + 1 + b.2.1⟩ := by
      rw [hb, hA4, hA3, hA2, hA1, hcnt1, hcT1, hrT1]
      simp only [fpStep]
      rw [if_neg hlast]
    rw [hstep]
    have hbb : b = bestInMat score (fun i c => A4 (j+1+i) (j+1+c))
        (m - (j+1)) (n - (j+1)) := by
      rw [hb]
      rfl
    have hbm : 1 ≤ m - (j+1) := by omega
    have hbn : 1 ≤ n - (j+1) := by omega
    have hbnds := bestInMat_bounds score (fun i c => A4 (j+1+i) (j+1+c))
      (m - (j+1)) (n - (j+1)) hbm hbn
    rw [← hbb] at hbnds
    obtain ⟨hb1, hb2⟩ := hbnds
    refine ⟨hRge, hRlt, hRid, hCge, hClt, hCid, hCnt, ?_, ?_, ?_, ?_⟩
    · intro _
      show j + 1 ≤ j + 1 + b.1 ∧ j + 1 + b.1 < m
      exact ⟨by omega, by omega⟩
    · intro _
      show j + 1 ≤ j + 1 + b.2.1 ∧ j + 1 + b.2.1 < n
      exact ⟨by omega, by omega⟩
    · intro _ i c h1 h2 h3 h4
      have hmax := bestInMat_max score hs (fun i c => A4 (j+1+i) (j+1+c))
        (m - (j+1)) (n - (j+1)) hbm hbn (i - (j+1)) (c - (j+1))
        (by omega) (by omega)
      rw [← hbb] at hmax
      have hmax2 : score (A4 (j+1+(i-(j+1))) (j+1+(c-(j+1)))) ≤
          score (A4 (j+1+b.1) (j+1+b.2.1)) := hmax
      have e1 : j + 1 + (i - (j+1)) = i := by omega
      have e2 : j + 1 + (c - (j+1)) = c := by omega
      rw [e1, e2] at hmax2
      exact hmax2
    · exact hEQN A4
        (fun i c h1 h2 h3 => by
          rw [hA4]
          unfold fpUpdate
          rw [if_neg]
          intro hcond
          exact h3 ⟨hcond.1, hcond.2.2.1⟩)
        (fun i c h1 h2 h3 h4 => by
          rw [hA4]
          unfold fpUpdate
          rw [if_pos ⟨h1, h2, h3, h4⟩])

/-- The invariant holds at entry to the elimination loop. -/
theorem fpInv_init (score : K → ℚ) (hs : ScoreOk score) (A : Mat K)
    (m n size : ℕ) (tr : Bool) (hsize : size = min m n)
    (hm : 1 ≤ m) (hn : 1 ≤ n) :
    FpInv score A m n size tr 0
      ⟨A, fun i => i, fun i => i, 0, (bestInMat score A m n).1,
        (bestInMat score A m n).2.1⟩ := by
  obtain ⟨hb1, hb2⟩ := bestInMat_bounds score A m n hm hn
  refine ⟨?_, ?_, ?_, ?_, ?_, ?_, rfl, ?_, ?_, ?_, ?_⟩
  · intro k hk
    omega
  · intro k hk
    omega
  · intro k _
    rfl
  · intro k hk
    omega
  · intro k hk
    omega
  · intro k _
    rfl
  · intro _
    exact ⟨by omega, hb1⟩
  · intro _
    exact ⟨by omega, hb2⟩
  · intro _ i c _ hi _ hc
    exact bestInMat_max score hs A m n hm hn i c hi hc
  · intro t ht q hq
    show A t q = (∑ k ∈ Finset.range (min 0 _), _) + _
    rw [Nat.zero_min, Finset.range_zero, Finset.sum_empty, zero_add, if_neg]
    cases tr <;> simp

/-- The elimination loop preserves the invariant over any number of steps. -/
theorem fpGo_inv (score : K → ℚ) (hs : ScoreOk score) (A0 : Mat K)
    (m n size : ℕ) (tr : Bool) (hsize : size = min m n) :
    ∀ s j (st : FpState K), j + s ≤ size →
      FpInv score A0 m n size tr j st →
      FpInv score A0 m n size tr (j + s)
        (fpGo score (fun _ => none) m n size tr j s st) := by
  intro s
  induction s with
  | zero =>
    intro j st _ h
    show FpInv score A0 m n size tr (j + 0) st
    rw [Nat.add_zero]
    exact h
  | succ s ih =>
    intro j st hle h
    show FpInv score A0 m n size tr (j + (s+1))
      (fpGo score (fun _ => none) m n size tr (j+1) s
        (fpStep score (fun _ => none) m n size tr j st))
    have h1 := fpStep_inv score hs A0 m n size tr j st hsize (by omega) h
    have h2 := ih (j+1) _ (by omega) h1
    have he : j + 1 + s = j + (s + 1) := by omega
    rw [he] at h2
    exact h2

/-- The full invariant specification of the unblocked full-pivoting
factorization. -/
theorem fpUnb_inv (score : K → ℚ) (hs : ScoreOk score) (A : Mat K)
    (m n : ℕ) (tr : Bool) :
    FpInv score A m n (min m n) tr (min m n)
      (fpUnb score (fun _ => none) A m n tr) := by
  by_cases h0 : n = 0 ∨ m = 0
  · have hres : fpUnb score (fun _ => none) A m n tr =
        ⟨A, fun i => i, fun i => i, 0, 0, 0⟩ := by
      unfold fpUnb
      rw [if_pos h0]
    rw [hres]
    have hsz : min m n = 0 := by omega
    rw [hsz]
    refine ⟨?_, ?_, ?_, ?_, ?_, ?_, rfl, ?_, ?_, ?_, ?_⟩
    · intro k hk
      omega
    · intro k hk
      omega
    · intro k _
      rfl
    · intro k hk
      omega
    · intro k hk
      omega
    · intro k _
      rfl
    · intro h
      omega
    · intro h
      omega
    · intro h
      omega
    · intro t ht q hq
      show A t q = (∑ k ∈ Finset.range (min 0 _), _) + _
      rw [Nat.zero_min, Finset.range_zero, Finset.sum_empty, zero_add, if_neg]
      cases tr <;> simp
  · have hm : 1 ≤ m := by omega
    have hn : 1 ≤ n := by omega
    have hres : fpUnb score (fun _ => none) A m n tr =
        fpGo score (fun _ => none) m n (min m n) tr 0 (min m n)
          ⟨A, fun i => i, fun i => i, 0, (bestInMat score A m n).1,
            (bestInMat score A m n).2.1⟩ := by
      unfold fpUnb
      rw [if_neg h0]
    rw [hres]
    have h2 := fpGo_inv score hs A m n (min m n) tr rfl (min m n) 0 _
      (by omega) (fpInv_init score hs A m n (min m n) tr rfl hm hn)
    rw [Nat.zero_add] at h2
    exact h2

end FpInvariant

section LuFPSpec

variable {K : Type} [Field K]

theorem sigmaFunInv_lt (tr : ℕ → ℕ) :
    ∀ s i0 M, (∀ k, i0 ≤ k → k < i0 + s → tr k < M) → i0 + s ≤ M →
      ∀ x, x < M → sigmaFunInv tr i0 s x < M := by
  intro s
  induction s with
  | zero => intro _ _ _ _ x hx; exact hx
  | succ s ih =>
    intro i0 M hb hle x hx
    show sigmaFunInv tr (i0+1) s (swapPos i0 (tr i0) x) < M
    have h2 : tr i0 < M := hb i0 (le_refl _) (by omega)
    have h1 : swapPos i0 (tr i0) x < M := by
      unfold swapPos
      split_ifs <;> omega
    exact ih (i0+1) M (fun k hk1 hk2 => hb k (by omega) (by omega))
      (by omega) _ h1

/-- The row/column permutation arrays built by full-pivoting `lu_in_place`
are the composed transposition permutations, truncated at `size` because the
trailing transpositions are trivial. -/
theorem buildPerm_sigma (tr : ℕ → ℕ) (mm size : ℕ) (hsz : size ≤ mm)
    (hid : ∀ k, size ≤ k → tr k = k) :
    ∀ x, buildPerm tr mm x = sigmaFun tr 0 size x := by
  intro x
  rw [buildPerm_eq]
  show sigmaFun tr 0 mm x = sigmaFun tr 0 size x
  have h1 : mm = size + (mm - size) := by omega
  rw [h1]
  exact sigmaFun_id_ext tr (mm - size) size 0 x
    (fun k hk1 _ => hid k (by omega))

/-- Reconstruction for full pivoting, in either storage orientation: entry
`(i, j)` of `L·U` is entry `(row_perm i, col_perm j)` of the input. -/
theorem luFP_reconstruct (score : K → ℚ) (hs : ScoreOk score) (A : Mat K)
    (m n : ℕ) (rowMajor : Bool) :
    ∀ i, i < m → ∀ j, j < n →
      luProd (luFP score (fun _ => none) A m n rowMajor).1 (min m n) i j =
        A ((luFP score (fun _ => none) A m n rowMajor).2.1 i)
          ((luFP score (fun _ => none) A m n rowMajor).2.2.2.1 j) := by
  intro i hi j hj
  cases rowMajor with
  | false =>
    set r := fpUnb score (fun _ => none) A m n false with hrd
    have spec : FpInv score A m n (min m n) false (min m n) r := by
      rw [hrd]
      exact fpUnb_inv score hs A m n false
    have hF : (luFP score (fun _ => none) A m n false).1 = r.A := rfl
    have hp : (luFP score (fun _ => none) A m n false).2.1 =
        buildPerm r.rowT m := rfl
    have hq : (luFP score (fun _ => none) A m n false).2.2.2.1 =
        buildPerm r.colT n := rfl
    rw [hF, hp, hq]
    rw [buildPerm_sigma r.rowT m (min m n) (by omega)
      (fun k hk => spec.rT_id k hk) i]
    rw [buildPerm_sigma r.colT n (min m n) (by omega)
      (fun k hk => spec.cT_id k hk) j]
    have he := spec.eqn i hi j hj
    simp only [Bool.false_eq_true, if_false] at he
    have hlp : luProd r.A (min m n) i j =
        ∑ k ∈ Finset.range (min (i+1) (min (min m n) (j+1))),
          (if k = i then 1 else r.A i k) * r.A k j := rfl
    rw [hlp]
    by_cases hji : j < i
    · have hjsz : j < min m n := by omega
      have hm1 : min (min m n) (min i (j+1)) = j + 1 := by omega
      have hm2 : min (i+1) (min (min m n) (j+1)) = j + 1 := by omega
      rw [hm1, if_pos ⟨hjsz, hji⟩, add_zero] at he
      rw [hm2, he]
      apply Finset.sum_congr rfl
      intro k hk
      rw [Finset.mem_range] at hk
      rw [if_neg (by omega)]
    · have htsz : i < min m n := by omega
      have hm1 : min (min m n) (min i (j+1)) = i := by omega
      have hm2 : min (i+1) (min (min m n) (j+1)) = i + 1 := by omega
      rw [hm1, if_neg (by omega)] at he
      rw [hm2, Finset.sum_range_succ, if_pos rfl, one_mul, he]
      congr 1
      apply Finset.sum_congr rfl
      intro k hk
      rw [Finset.mem_range] at hk
      rw [if_neg (by omega)]
  | true =>
    set r := fpUnb score (fun _ => none) (fun a b => A b a) n m true with hrd
    have spec : FpInv score (fun a b => A b a) n m (min n m) true (min n m)
        r := by
      rw [hrd]
      exact fpUnb_inv score hs (fun a b => A b a) n m true
    have hF : (luFP score (fun _ => none) A m n true).1 =
        (fun a b => r.A b a) := rfl
    have hp : (luFP score (fun _ => none) A m n true).2.1 =
        buildPerm r.colT m := rfl
    have hq : (luFP score (fun _ => none) A m n true).2.2.2.1 =
        buildPerm r.rowT n := rfl
    rw [hF, hp, hq]
    rw [buildPerm_sigma r.colT m (min n m) (by omega)
      (fun k hk => spec.cT_id k hk) i]
    rw [buildPerm_sigma r.rowT n (min n m) (by omega)
      (fun k hk => spec.rT_id k hk) j]
    have he := spec.eqn j hj i hi
    simp only [if_true] at he
    have hlp : luProd (fun a b => r.A b a) (min m n) i j =
        ∑ k ∈ Finset.range (min (i+1) (min (min m n) (j+1))),
          (if k = i then 1 else r.A k i) * r.A j k := rfl
    rw [hlp]
    by_cases hji : j < i
    · have hjsz : j + 1 ≤ min n m := by omega
      have hm1 : min (min n m) (min (j+1) i) = j + 1 := by omega
      have hm2 : min (i+1) (min (min m n) (j+1)) = j + 1 := by omega
      rw [hm1, if_pos ⟨by omega, hji⟩, add_zero] at he
      rw [hm2, he]
      apply Finset.sum_congr rfl
      intro k hk
      rw [Finset.mem_range] at hk
      rw [if_neg (by omega)]
      ring
    · have htsz : i < min n m := by omega
      have hm1 : min (min n m) (min (j+1) i) = i := by omega
      have hm2 : min (i+1) (min (min m n) (j+1)) = i + 1 := by omega
      rw [hm1, if_neg (by omega)] at he
      rw [hm2, Finset.sum_range_succ, if_pos rfl, one_mul, he]
      congr 1
      apply Finset.sum_congr rfl
      intro k hk
      rw [Finset.mem_range] at hk
      rw [if_neg (by omega)]
      ring

/-- Both permutation pairs returned by full-pivoting `lu_in_place` are
mutually inverse on their index ranges. -/
theorem luFP_perm_inverse (score : K → ℚ) (hs : ScoreOk score) (A : Mat K)
    (m n : ℕ) (rowMajor : Bool) :
    ((∀ i, i < m →
      (luFP score (fun _ => none) A m n rowMajor).2.2.1
        ((luFP score (fun _ => none) A m n rowMajor).2.1 i) = i) ∧
     (∀ i, i < m →
      (luFP score (fun _ => none) A m n rowMajor).2.1
        ((luFP score (fun _ => none) A m n rowMajor).2.2.1 i) = i)) ∧
    ((∀ j, j < n →
      (luFP score (fun _ => none) A m n rowMajor).2.2.2.2.1
        ((luFP score (fun _ => none) A m n rowMajor).2.2.2.1 j) = j) ∧
     (∀ j, j < n →
      (luFP score (fun _ => none) A m n rowMajor).2.2.2.1
        ((luFP score (fun _ => none) A m n rowMajor).2.2.2.2.1 j) = j)) := by
  have key : ∀ (tr : ℕ → ℕ) (mm : ℕ), (∀ k, k < mm → tr k < mm) →
      (∀ i, i < mm → invPerm (buildPerm tr mm) mm (buildPerm tr mm i) = i) ∧
      (∀ i, i < mm →
        buildPerm tr mm (invPerm (buildPerm tr mm) mm i) = i) := by
    intro tr mm hbnd
    have hinj : ∀ x y, buildPerm tr mm x = buildPerm tr mm y → x = y := by
      intro x y hxy
      have hxy2 : sigmaFun tr 0 mm x = sigmaFun tr 0 mm y := by
        have e1 : buildPerm tr mm x = sigmaFun tr 0 mm x := by
          rw [buildPerm_eq]
        have e2 : buildPerm tr mm y = sigmaFun tr 0 mm y := by
          rw [buildPerm_eq]
        rw [← e1, ← e2]
        exact hxy
      have h1 := sigmaFunInv_sigmaFun tr mm 0 x
      have h2 := sigmaFunInv_sigmaFun tr mm 0 y
      rw [hxy2] at h1
      rw [h1] at h2
      exact h2
    constructor
    · intro i hxi
      exact invPerm_left (buildPerm tr mm) mm hinj i hxi
    · intro i hxi
      have hbnd2 : ∀ k, 0 ≤ k → k < 0 + mm → tr k < mm := by
        intro k _ hk
        exact hbnd k (by omega)
      have hx : sigmaFunInv tr 0 mm i < mm :=
        sigmaFunInv_lt tr mm 0 mm hbnd2 (by omega) i hxi
      have hpx : buildPerm tr mm (sigmaFunInv tr 0 mm i) = i := by
        rw [buildPerm_eq]
        exact sigmaFun_sigmaFunInv tr mm 0 i
      rw [← hpx, invPerm_left (buildPerm tr mm) mm hinj _ hx, hpx]
  cases rowMajor with
  | false =>
    set r := fpUnb score (fun _ => none) A m n false with hrd
    have spec : FpInv score A m n (min m n) false (min m n) r := by
      rw [hrd]
      exact fpUnb_inv score hs A m n false
    have hrb : ∀ k, k < m → r.rowT k < m := by
      intro k hk
      by_cases hks : k < min m n
      · exact spec.rT_lt k hks
      · rw [spec.rT_id k (by omega)]
        omega
    have hcb : ∀ k, k < n → r.colT k < n := by
      intro k hk
      by_cases hks : k < min m n
      · exact spec.cT_lt k hks
      · rw [spec.cT_id k (by omega)]
        omega
    exact ⟨key r.rowT m hrb, key r.colT n hcb⟩
  | true =>
    set r := fpUnb score (fun _ => none) (fun a b => A b a) n m true with hrd
    have spec : FpInv score (fun a b => A b a) n m (min n m) true (min n m)
        r := by
      rw [hrd]
      exact fpUnb_inv score hs (fun a b => A b a) n m true
    have hrb : ∀ k, k < m → r.colT k < m := by
      intro k hk
      by_cases hks : k < min n m
      · exact spec.cT_lt k hks
      · rw [spec.cT_id k (by omega)]
        omega
    have hcb : ∀ k, k < n → r.rowT k < n := by
      intro k hk
      by_cases hks : k < min n m
      · exact spec.rT_lt k hks
      · rw [spec.rT_id k (by omega)]
        omega
    exact ⟨key r.colT m hrb, key r.rowT n hcb⟩

/-- The transposition count of full-pivoting `lu_in_place` equals the number
of steps whose recorded row pivot differs from the step index plus the number
whose column pivot differs, and is at most `2 · min m n`. -/
theorem luFP_count (score : K → ℚ) (hs : ScoreOk score) (A : Mat K)
    (m n : ℕ) (rowMajor : Bool) :
    (luFP score (fun _ => none) A m n rowMajor).2.2.2.2.2.2.2 =
      ((List.range (min m n)).filter (fun k =>
        (luFP score (fun _ => none) A m n rowMajor).2.2.2.2.2.1 k ≠ k)).length +
      ((List.range (min m n)).filter (fun k =>
        (luFP score (fun _ => none) A m n rowMajor).2.2.2.2.2.2.1 k ≠ k)).length ∧
    (luFP score (fun _ => none) A m n rowMajor).2.2.2.2.2.2.2 ≤
      2 * min m n := by
  cases rowMajor with
  | false =>
    set r := fpUnb score (fun _ => none) A m n false with hrd
    have spec : FpInv score A m n (min m n) false (min m n) r := by
      rw [hrd]
      exact fpUnb_inv score hs A m n false
    have hc : (luFP score (fun _ => none) A m n false).2.2.2.2.2.2.2 =
        r.cnt := rfl
    have ht1 : (luFP score (fun _ => none) A m n false).2.2.2.2.2.1 =
        r.rowT := rfl
    have ht2 : (luFP score (fun _ => none) A m n false).2.2.2.2.2.2.1 =
        r.colT := rfl
    rw [hc, ht1, ht2]
    refine ⟨spec.cnt, ?_⟩
    rw [spec.cnt]
    have h1 := List.length_filter_le (fun k => decide (r.rowT k ≠ k))
      (List.range (min m n))
    have h2 := List.length_filter_le (fun k => decide (r.colT k ≠ k))
      (List.range (min m n))
    rw [List.length_range] at h1 h2
    omega
  | true =>
    set r := fpUnb score (fun _ => none) (fun a b => A b a) n m true with hrd
    have spec : FpInv score (fun a b => A b a) n m (min n m) true (min n m)
        r := by
      rw [hrd]
      exact fpUnb_inv score hs (fun a b => A b a) n m true
    have hc : (luFP score (fun _ => none) A m n true).2.2.2.2.2.2.2 =
        r.cnt := rfl
    have ht1 : (luFP score (fun _ => none) A m n true).2.2.2.2.2.1 =
        r.colT := rfl
    have ht2 : (luFP score (fun _ => none) A m n true).2.2.2.2.2.2.1 =
        r.rowT := rfl
    rw [hc, ht1, ht2]
    have hmc : min m n = min n m := Nat.min_comm m n
    rw [hmc]
    have hcnt := spec.cnt
    constructor
    · rw [hcnt]
      omega
    · rw [hcnt]
      have h1 := List.length_filter_le (fun k => decide (r.rowT k ≠ k))
        (List.range (min n m))
      have h2 := List.length_filter_le (fun k => decide (r.colT k ≠ k))
        (List.range (min n m))
      rw [List.length_range] at h1 h2
      omega

end LuFPSpec

section SolveSpec

variable {K : Type} [Field K]

theorem fwdUnitGo_stable (cf : K → K) (M B : Mat K) :
    ∀ i f g j, i < f → i < g →
      fwdUnitGo cf M B f i j = fwdUnitGo cf M B g i j := by
  intro i
  induction i using Nat.strong_induction_on with
  | _ i ih =>
    intro f g j hf hg
    obtain ⟨f', rfl⟩ : ∃ f', f = f' + 1 := ⟨f - 1, by omega⟩
    obtain ⟨g', rfl⟩ : ∃ g', g = g' + 1 := ⟨g - 1, by omega⟩
    show (B i j - _) = (B i j - _)
    congr 1
    apply Finset.sum_congr rfl
    intro k hk
    rw [Finset.mem_range] at hk
    rw [ih k hk f' g' j (by omega) (by omega)]

theorem fwdGo_stable (cf : K → K) (M B : Mat K) :
    ∀ i f g j, i < f → i < g →
      fwdGo cf M B f i j = fwdGo cf M B g i j := by
  intro i
  induction i using Nat.strong_induction_on with
  | _ i ih =>
    intro f g j hf hg
    obtain ⟨f', rfl⟩ : ∃ f', f = f' + 1 := ⟨f - 1, by omega⟩
    obtain ⟨g', rfl⟩ : ∃ g', g = g' + 1 := ⟨g - 1, by omega⟩
    show (B i j - _) * (cf (M i i))⁻¹ = (B i j - _) * (cf (M i i))⁻¹
    congr 2
    apply Finset.sum_congr rfl
    intro k hk
    rw [Finset.mem_range] at hk
    rw [ih k hk f' g' j (by omega) (by omega)]

theorem bwdGo_stable (cf : K → K) (M B : Mat K) (n : ℕ) :
    ∀ d i, i < n → n - i ≤ d → ∀ f g j, n - i ≤ f → n - i ≤ g →
      bwdGo cf M B n f i j = bwdGo cf M B n g i j := by
  intro d
  induction d with
  | zero => intro i hi hd; omega
  | succ d ih =>
    intro i hi hd f g j hf hg
    obtain ⟨f', rfl⟩ : ∃ f', f = f' + 1 := ⟨f - 1, by omega⟩
    obtain ⟨g', rfl⟩ : ∃ g', g = g' + 1 := ⟨g - 1, by omega⟩
    show (B i j - _) * (cf (M i i))⁻¹ = (B i j - _) * (cf (M i i))⁻¹
    congr 2
    apply Finset.sum_congr rfl
    intro k hk
    rw [Finset.mem_Ico] at hk
    rw [ih k hk.2 (by omega) f' g' j (by omega) (by omega)]

theorem bwdUnitGo_stable (cf : K → K) (M B : Mat K) (n : ℕ) :
    ∀ d i, i < n → n - i ≤ d → ∀ f g j, n - i ≤ f → n - i ≤ g →
      bwdUnitGo cf M B n f i j = bwdUnitGo cf M B n g i j := by
  intro d
  induction d with
  | zero => intro i hi hd; omega
  | succ d ih =>
    intro i hi hd f g j hf hg
    obtain ⟨f', rfl⟩ : ∃ f', f = f' + 1 := ⟨f - 1, by omega⟩
    obtain ⟨g', rfl⟩ : ∃ g', g = g' + 1 := ⟨g - 1, by omega⟩
    show (B i j - _) = (B i j - _)
    congr 1
    apply Finset.sum_congr rfl
    intro k hk
    rw [Finset.mem_Ico] at hk
    rw [ih k hk.2 (by omega) f' g' j (by omega) (by omega)]

/-- Row equation of the in-place unit-lower triangular solve. -/
theorem solveUnitLower_eq (cf : K → K) (M B : Mat K) :
    ∀ i j, (∑ k ∈ Finset.range i,
        cf (M i k) * solveUnitLower cf M B k j) +
      solveUnitLower cf M B i j = B i j := by
  intro i j
  have hunf : solveUnitLower cf M B i j = B i j -
      ∑ k ∈ Finset.range i, cf (M i k) * fwdUnitGo cf M B i k j := rfl
  have hsum : ∀ k ∈ Finset.range i,
      cf (M i k) * solveUnitLower cf M B k j =
      cf (M i k) * fwdUnitGo cf M B i k j := by
    intro k hk
    rw [Finset.mem_range] at hk
    show cf (M i k) * fwdUnitGo cf M B (k+1) k j = _
    rw [fwdUnitGo_stable cf M B k (k+1) i j (by omega) hk]
  rw [Finset.sum_congr rfl hsum, hunf]
  ring

/-- Row equation of the in-place lower triangular solve (nonzero diagonal). -/
theorem solveLower_eq (cf : K → K) (M B : Mat K) (i j : ℕ)
    (hd : cf (M i i) ≠ 0) :
    (∑ k ∈ Finset.range i, cf (M i k) * solveLower cf M B k j) +
      cf (M i i) * solveLower cf M B i j = B i j := by
  have hunf : solveLower cf M B i j = (B i j -
      ∑ k ∈ Finset.range i, cf (M i k) * fwdGo cf M B i k j) *
      (cf (M i i))⁻¹ := rfl
  have hsum : ∀ k ∈ Finset.range i,
      cf (M i k) * solveLower cf M B k j =
      cf (M i k) * fwdGo cf M B i k j := by
    intro k hk
    rw [Finset.mem_range] at hk
    show cf (M i k) * fwdGo cf M B (k+1) k j = _
    rw [fwdGo_stable cf M B k (k+1) i j (by omega) hk]
  rw [Finset.sum_congr rfl hsum, hunf]
  field_simp

/-- Row equation of the in-place upper triangular solve (nonzero diagonal). -/
theorem solveUpper_eq (cf : K → K) (M C : Mat K) (n : ℕ) (i j : ℕ)
    (hi : i < n) (hd : cf (M i i) ≠ 0) :
    cf (M i i) * solveUpper cf M C n i j +
      (∑ k ∈ Finset.Ico (i+1) n, cf (M i k) * solveUpper cf M C n k j) =
      C i j := by
  have h1 : n - i = (n - i - 1) + 1 := by omega
  have hunf : solveUpper cf M C n i j = (C i j -
      ∑ k ∈ Finset.Ico (i+1) n,
        cf (M i k) * bwdGo cf M C n (n - i - 1) k j) * (cf (M i i))⁻¹ := by
    show bwdGo cf M C n (n - i) i j = _
    rw [h1]
    rfl
  have hsum : ∀ k ∈ Finset.Ico (i+1) n,
      cf (M i k) * solveUpper cf M C n k j =
      cf (M i k) * bwdGo cf M C n (n - i - 1) k j := by
    intro k hk
    rw [Finset.mem_Ico] at hk
    show cf (M i k) * bwdGo cf M C n (n - k) k j = _
    rw [bwdGo_stable cf M C n (n - k) k hk.2 (le_refl _) (n - k) (n - i - 1)
      j (le_refl _) (by omega)]
  rw [Finset.sum_congr rfl hsum, hunf]
  field_simp

/-- Row equation of the in-place unit-upper triangular solve. -/
theorem solveUnitUpper_eq (cf : K → K) (M C : Mat K) (n : ℕ) (i j : ℕ)
    (hi : i < n) :
    solveUnitUpper cf M C n i j +
      (∑ k ∈ Finset.Ico (i+1) n, cf (M i k) * solveUnitUpper cf M C n k j) =
      C i j := by
  have h1 : n - i = (n - i - 1) + 1 := by omega
  have hunf : solveUnitUpper cf M C n i j = C i j -
      ∑ k ∈ Finset.Ico (i+1) n,
        cf (M i k) * bwdUnitGo cf M C n (n - i - 1) k j := by
    show bwdUnitGo cf M C n (n - i) i j = _
    rw [h1]
    rfl
  have hsum : ∀ k ∈ Finset.Ico (i+1) n,
      cf (M i k) * solveUnitUpper cf M C n k j =
      cf (M i k) * bwdUnitGo cf M C n (n - i - 1) k j := by
    intro k hk
    rw [Finset.mem_Ico] at hk
    show cf (M i k) * bwdUnitGo cf M C n (n - k) k j = _
    rw [bwdUnitGo_stable cf M C n (n - k) k hk.2 (le_refl _) (n - k)
      (n - i - 1) j (le_refl _) (by omega)]
  rw [Finset.sum_congr rfl hsum, hunf]
  ring

/-- The unit-lower factor of a packed LU matrix, as a total matrix. -/
def lMat (F : Mat K) : Mat K := fun i k =>
  if k < i then F i k else if k = i then 1 else 0

/-- The upper factor of a packed LU matrix, as a total matrix. -/
def uMat (F : Mat K) : Mat K := fun k c => if k ≤ c then F k c else 0

theorem luProd_full (F : Mat K) (n i j : ℕ) (hi : i < n) (hj : j < n) :
    luProd F n i j = ∑ k ∈ Finset.range n, lMat F i k * uMat F k j := by
  have hsub : Finset.range (min (i+1) (min n (j+1))) ⊆ Finset.range n := by
    intro x hx
    rw [Finset.mem_range] at hx ⊢
    omega
  have hzero : ∀ x ∈ Finset.range n,
      x ∉ Finset.range (min (i+1) (min n (j+1))) →
      lMat F i x * uMat F x j = 0 := by
    intro x _ hx
    rw [Finset.mem_range] at hx
    unfold lMat uMat
    by_cases h1 : x ≤ j
    · rw [if_neg (by omega), if_neg (by omega)]
      ring
    · rw [if_neg h1]
      ring
  rw [← Finset.sum_subset hsub hzero]
  unfold luProd lMat uMat
  apply Finset.sum_congr rfl
  intro k hk
  rw [Finset.mem_range] at hk
  by_cases hki : k = i
  · rw [if_pos hki, if_neg (by omega), if_pos hki, if_pos (by omega)]
  · rw [if_neg hki, if_pos (by omega), if_pos (by omega)]

/-- Reindexing a sum over `range n` along a bounded bijection. -/
theorem sum_perm_reindex (f : ℕ → K) (p pinv : ℕ → ℕ) (n : ℕ)
    (hpb : ∀ x, x < n → p x < n) (hib : ∀ x, x < n → pinv x < n)
    (hpi : ∀ x, x < n → pinv (p x) = x) (hip : ∀ x, x < n → p (pinv x) = x) :
    ∑ c ∈ Finset.range n, f c = ∑ r ∈ Finset.range n, f (p r) := by
  refine Finset.sum_nbij' (fun c => pinv c) (fun r => p r) ?_ ?_ ?_ ?_ ?_
  · intro a ha
    rw [Finset.mem_range] at ha ⊢
    exact hib a ha
  · intro a ha
    rw [Finset.mem_range] at ha ⊢
    exact hpb a ha
  · intro a ha
    rw [Finset.mem_range] at ha
    exact hip a ha
  · intro a ha
    rw [Finset.mem_range] at ha
    exact hpi a ha
  · intro a ha
    rw [Finset.mem_range] at ha
    rw [hip a ha]

/-- Core forward-solve correctness: against factors `F` whose `U` diagonal is
nonzero, the composed unit-lower then upper solve inverts `L·U`. -/
theorem solve_core (cf : K →+* K) (F T : Mat K) (n : ℕ)
    (hd : ∀ l, l < n → cf (F l l) ≠ 0) :
    ∀ r, r < n → ∀ j,
      (∑ c ∈ Finset.range n, cf (luProd F n r c) *
        solveUpper (⇑cf) F (solveUnitLower (⇑cf) F T) n c j) = T r j := by
  intro r hr j
  set X1 := solveUnitLower (⇑cf) F T with hX1d
  set X := solveUpper (⇑cf) F X1 n with hXd
  have hup : ∀ l, l < n →
      (∑ c ∈ Finset.range n, cf (uMat F l c) * X c j) = X1 l j := by
    intro l hl
    have hsplit : ∑ c ∈ Finset.range n, cf (uMat F l c) * X c j =
        (∑ c ∈ Finset.range l, cf (uMat F l c) * X c j) +
        ∑ c ∈ Finset.Ico l n, cf (uMat F l c) * X c j := by
      rw [Finset.range_eq_Ico]
      exact (Finset.sum_Ico_consecutive _ (by omega) (by omega)).symm
    rw [hsplit]
    have h0 : ∀ c ∈ Finset.range l, cf (uMat F l c) * X c j = 0 := by
      intro c hc
      rw [Finset.mem_range] at hc
      have h1 : uMat F l c = 0 := by
        unfold uMat
        rw [if_neg (by omega)]
      rw [h1, map_zero, zero_mul]
    rw [Finset.sum_congr rfl h0, Finset.sum_const_zero, zero_add]
    rw [Finset.sum_eq_sum_Ico_succ_bot (by omega)]
    have h1 : uMat F l l = F l l := by
      unfold uMat
      rw [if_pos (le_refl _)]
    have h2 : ∀ c ∈ Finset.Ico (l+1) n,
        cf (uMat F l c) * X c j = cf (F l c) * X c j := by
      intro c hc
      rw [Finset.mem_Ico] at hc
      have h3 : uMat F l c = F l c := by
        unfold uMat
        rw [if_pos (by omega)]
      rw [h3]
    rw [h1, Finset.sum_congr rfl h2]
    exact solveUpper_eq (⇑cf) F X1 n l j hl (hd l hl)
  have hlow : (∑ l ∈ Finset.range n, cf (lMat F r l) * X1 l j) = T r j := by
    have hsplit : ∑ l ∈ Finset.range n, cf (lMat F r l) * X1 l j =
        (∑ l ∈ Finset.range r, cf (lMat F r l) * X1 l j) +
        ∑ l ∈ Finset.Ico r n, cf (lMat F r l) * X1 l j := by
      rw [Finset.range_eq_Ico]
      exact (Finset.sum_Ico_consecutive _ (by omega) (by omega)).symm
    rw [hsplit, Finset.sum_eq_sum_Ico_succ_bot (by omega)]
    have h1 : lMat F r r = 1 := by
      unfold lMat
      rw [if_neg (by omega), if_pos rfl]
    have h2 : ∀ l ∈ Finset.Ico (r+1) n, cf (lMat F r l) * X1 l j = 0 := by
      intro l hl
      rw [Finset.mem_Ico] at hl
      have h3 : lMat F r l = 0 := by
        unfold lMat
        rw [if_neg (by omega), if_neg (by omega)]
      rw [h3, map_zero, zero_mul]
    rw [Finset.sum_congr rfl h2, Finset.sum_const_zero, add_zero, h1,
      map_one, one_mul]
    have h4 : ∀ l ∈ Finset.range r,
        cf (lMat F r l) * X1 l j = cf (F r l) * X1 l j := by
      intro l hl
      rw [Finset.mem_range] at hl
      have h5 : lMat F r l = F r l := by
        unfold lMat
        rw [if_pos hl]
      rw [h5]
    rw [Finset.sum_congr rfl h4]
    exact solveUnitLower_eq (⇑cf) F T r j
  calc ∑ c ∈ Finset.range n, cf (luProd F n r c) * X c j
      = ∑ c ∈ Finset.range n, ∑ l ∈ Finset.range n,
          cf (lMat F r l) * cf (uMat F l c) * X c j := by
        apply Finset.sum_congr rfl
        intro c hc
        rw [Finset.mem_range] at hc
        rw [luProd_full F n r c hr hc, map_sum, Finset.sum_mul]
        apply Finset.sum_congr rfl
        intro l _
        rw [map_mul]
    _ = ∑ l ∈ Finset.range n, ∑ c ∈ Finset.range n,
          cf (lMat F r l) * cf (uMat F l c) * X c j := Finset.sum_comm
    _ = ∑ l ∈ Finset.range n, cf (lMat F r l) *
          ∑ c ∈ Finset.range n, cf (uMat F l c) * X c j := by
        apply Finset.sum_congr rfl
        intro l _
        rw [Finset.mul_sum]
        apply Finset.sum_congr rfl
        intro c _
        ring
    _ = ∑ l ∈ Finset.range n, cf (lMat F r l) * X1 l j := by
        apply Finset.sum_congr rfl
        intro l hl
        rw [Finset.mem_range] at hl
        rw [hup l hl]
    _ = T r j := hlow

/-- Core transpose-solve correctness: the composed lower then unit-upper
solve against the transposed factors inverts `(L·U)ᵗ`. -/
theorem solve_coreT (cf : K →+* K) (F T : Mat K) (n : ℕ)
    (hd : ∀ l, l < n → cf (F l l) ≠ 0) :
    ∀ i, i < n → ∀ j,
      (∑ r ∈ Finset.range n, cf (luProd F n r i) *
        solveUnitUpper (⇑cf) (fun a b => F b a)
          (solveLower (⇑cf) (fun a b => F b a) T) n r j) = T i j := by
  intro i hi j
  set Y1 := solveLower (⇑cf) (fun a b => F b a) T with hY1d
  set Y2 := solveUnitUpper (⇑cf) (fun a b => F b a) Y1 n with hY2d
  have hupper : ∀ l, l < n →
      (∑ r ∈ Finset.range n, cf (lMat F r l) * Y2 r j) = Y1 l j := by
    intro l hl
    have hsplit : ∑ r ∈ Finset.range n, cf (lMat F r l) * Y2 r j =
        (∑ r ∈ Finset.range l, cf (lMat F r l) * Y2 r j) +
        ∑ r ∈ Finset.Ico l n, cf (lMat F r l) * Y2 r j := by
      rw [Finset.range_eq_Ico]
      exact (Finset.sum_Ico_consecutive _ (by omega) (by omega)).symm
    rw [hsplit]
    have h0 : ∀ r ∈ Finset.range l, cf (lMat F r l) * Y2 r j = 0 := by
      intro r hrr
      rw [Finset.mem_range] at hrr
      have h1 : lMat F r l = 0 := by
        unfold lMat
        rw [if_neg (by omega), if_neg (by omega)]
      rw [h1, map_zero, zero_mul]
    rw [Finset.sum_congr rfl h0, Finset.sum_const_zero, zero_add]
    rw [Finset.sum_eq_sum_Ico_succ_bot (by omega)]
    have h1 : lMat F l l = 1 := by
      unfold lMat
      rw [if_neg (by omega), if_pos rfl]
    have h2 : ∀ r ∈ Finset.Ico (l+1) n,
        cf (lMat F r l) * Y2 r j =
        cf ((fun a b => F b a) l r) * Y2 r j := by
      intro r hrr
      rw [Finset.mem_Ico] at hrr
      have h3 : lMat F r l = F r l := by
        unfold lMat
        rw [if_pos (by omega)]
      rw [h3]
    rw [h1, map_one, one_mul, Finset.sum_congr rfl h2]
    exact solveUnitUpper_eq (⇑cf) (fun a b => F b a) Y1 n l j hl
  have hlower : (∑ l ∈ Finset.range n, cf (uMat F l i) * Y1 l j) = T i j := by
    have hsplit : ∑ l ∈ Finset.range n, cf (uMat F l i) * Y1 l j =
        (∑ l ∈ Finset.range i, cf (uMat F l i) * Y1 l j) +
        ∑ l ∈ Finset.Ico i n, cf (uMat F l i) * Y1 l j := by
      rw [Finset.range_eq_Ico]
      exact (Finset.sum_Ico_consecutive _ (by omega) (by omega)).symm
    rw [hsplit, Finset.sum_eq_sum_Ico_succ_bot (by omega)]
    have h2 : ∀ l ∈ Finset.Ico (i+1) n, cf (uMat F l i) * Y1 l j = 0 := by
      intro l hl
      rw [Finset.mem_Ico] at hl
      have h3 : uMat F l i = 0 := by
        unfold uMat
        rw [if_neg (by omega)]
      rw [h3, map_zero, zero_mul]
    rw [Finset.sum_congr rfl h2, Finset.sum_const_zero, add_zero]
    have h1 : uMat F i i = F i i := by
      unfold uMat
      rw [if_pos (le_refl _)]
    have h4 : ∀ l ∈ Finset.range i,
        cf (uMat F l i) * Y1 l j =
        cf ((fun a b => F b a) i l) * Y1 l j := by
      intro l hl
      rw [Finset.mem_range] at hl
      have h5 : uMat F l i = F l i := by
        unfold uMat
        rw [if_pos (by omega)]
      rw [h5]
    rw [h1, Finset.sum_congr rfl h4]
    exact solveLower_eq (⇑cf) (fun a b => F b a) T i j (hd i hi)
  calc ∑ r ∈ Finset.range n, cf (luProd F n r i) * Y2 r j
      = ∑ r ∈ Finset.range n, ∑ l ∈ Finset.range n,
          cf (lMat F r l) * cf (uMat F l i) * Y2 r j := by
        apply Finset.sum_congr rfl
        intro r hrr
        rw [Finset.mem_range] at hrr
        rw [luProd_full F n r i hrr hi, map_sum, Finset.sum_mul]
        apply Finset.sum_congr rfl
        intro l _
        rw [map_mul]
    _ = ∑ l ∈ Finset.range n, ∑ r ∈ Finset.range n,
          cf (lMat F r l) * cf (uMat F l i) * Y2 r j := Finset.sum_comm
    _ = ∑ l ∈ Finset.range n, cf (uMat F l i) *
          ∑ r ∈ Finset.range n, cf (lMat F r l) * Y2 r j := by
        apply Finset.sum_congr rfl
        intro l _
        rw [Finset.mul_sum]
        apply Finset.sum_congr rfl
        intro r _
        ring
    _ = ∑ l ∈ Finset.range n, cf (uMat F l i) * Y1 l j := by
        apply Finset.sum_congr rfl
        intro l hl
        rw [Finset.mem_range] at hl
        rw [hupper l hl]
    _ = T i j := hlower

/-- From invertibility of the input and the reconstruction identity, the `U`
diagonal of the packed factors is nonzero. -/
theorem lu_diag_ne_zero (A F : Mat K) (n : ℕ) (p qc pinv qcinv : ℕ → ℕ)
    (hpb : ∀ x, x < n → p x < n) (hqb : ∀ x, x < n → qc x < n)
    (hpi : ∀ x, x < n → pinv (p x) = x)
    (hqi : ∀ x, x < n → qcinv (qc x) = x)
    (hrec : ∀ r c, r < n → c < n → A (p r) (qc c) = luProd F n r c)
    (hdet : IsUnit (Matrix.det (Matrix.of (fun i j : Fin n => A i.1 j.1)))) :
    ∀ l, l < n → F l l ≠ 0 := by
  have hpinj : Function.Injective
      (fun i : Fin n => (⟨p i.1, hpb i.1 i.2⟩ : Fin n)) := by
    intro x y hxy
    have h2 : p x.1 = p y.1 := congrArg Fin.val hxy
    have h3 : pinv (p x.1) = pinv (p y.1) := congrArg pinv h2
    rw [hpi x.1 x.2, hpi y.1 y.2] at h3
    exact Fin.ext h3
  have hqinj : Function.Injective
      (fun i : Fin n => (⟨qc i.1, hqb i.1 i.2⟩ : Fin n)) := by
    intro x y hxy
    have h2 : qc x.1 = qc y.1 := congrArg Fin.val hxy
    have h3 : qcinv (qc x.1) = qcinv (qc y.1) := congrArg qcinv h2
    rw [hqi x.1 x.2, hqi y.1 y.2] at h3
    exact Fin.ext h3
  set e1 : Fin n ≃ Fin n :=
    Equiv.ofBijective _ (Finite.injective_iff_bijective.mp hpinj) with he1
  set e2 : Fin n ≃ Fin n :=
    Equiv.ofBijective _ (Finite.injective_iff_bijective.mp hqinj) with he2
  set Mm : Matrix (Fin n) (Fin n) K :=
    Matrix.of (fun i j : Fin n => A i.1 j.1) with hMm
  set Lm : Matrix (Fin n) (Fin n) K :=
    Matrix.of (fun i j : Fin n => lMat F i.1 j.1) with hLm
  set Um : Matrix (Fin n) (Fin n) K :=
    Matrix.of (fun i j : Fin n => uMat F i.1 j.1) with hUm
  set PA : Matrix (Fin n) (Fin n) K :=
    Matrix.of (fun i j : Fin n => A (p i.1) (qc j.1)) with hPA
  have hfact : PA = Lm * Um := by
    ext i j
    rw [Matrix.mul_apply]
    show A (p i.1) (qc j.1) = _
    rw [hrec i.1 j.1 i.2 j.2, luProd_full F n i.1 j.1 i.2 j.2,
      ← Fin.sum_univ_eq_sum_range (fun k => lMat F i.1 k * uMat F k j.1) n]
    apply Finset.sum_congr rfl
    intro k _
    rfl
  have hdetL : Lm.det = 1 := by
    have htri : ∀ i j : Fin n, i < j → Lm i j = 0 := by
      intro i j hij
      show lMat F i.1 j.1 = 0
      rw [Fin.lt_def] at hij
      unfold lMat
      rw [if_neg (by omega), if_neg (by omega)]
    rw [Matrix.det_of_lowerTriangular Lm htri]
    apply Finset.prod_eq_one
    intro i _
    show lMat F i.1 i.1 = 1
    unfold lMat
    rw [if_neg (by omega), if_pos rfl]
  have hdetU : Um.det = ∏ l : Fin n, F l.1 l.1 := by
    have htri : ∀ i j : Fin n, j < i → Um i j = 0 := by
      intro i j hij
      show uMat F i.1 j.1 = 0
      rw [Fin.lt_def] at hij
      unfold uMat
      rw [if_neg (by omega)]
    rw [Matrix.det_of_upperTriangular (fun i j hij => htri i j hij)]
    apply Finset.prod_congr rfl
    intro i _
    show uMat F i.1 i.1 = F i.1 i.1
    unfold uMat
    rw [if_pos (le_refl _)]
  have hPA2 : PA = Mm.submatrix (⇑e1) (⇑e2) := by
    ext i j
    rfl
  have hss : Mm.submatrix (⇑e1) (⇑e2) =
      (Mm.submatrix id (⇑e2)).submatrix (⇑e1) id := by
    rw [Matrix.submatrix_submatrix]
    rfl
  have hdetPA : PA.det =
      ((Equiv.Perm.sign e1 : ℤ) : K) *
        (((Equiv.Perm.sign e2 : ℤ) : K) * Mm.det) := by
    rw [hPA2, hss, Matrix.det_permute e1, Matrix.det_permute' e2]
  have hsgn : ∀ σ : Equiv.Perm (Fin n), ((Equiv.Perm.sign σ : ℤ) : K) ≠ 0 := by
    intro σ
    rcases Int.units_eq_one_or (Equiv.Perm.sign σ) with h | h <;> rw [h] <;>
      simp
  have hprod : (∏ l : Fin n, F l.1 l.1) ≠ 0 := by
    have h1 : PA.det ≠ 0 := by
      rw [hdetPA]
      exact mul_ne_zero (hsgn e1) (mul_ne_zero (hsgn e2) hdet.ne_zero)
    rw [hfact, Matrix.det_mul, hdetL, hdetU, one_mul] at h1
    exact h1
  intro l hl
  exact Finset.prod_ne_zero_iff.mp hprod ⟨l, hl⟩ (Finset.mem_univ _)

end SolveSpec

section SolveEntry

variable {K : Type} [Field K]

/-- The inverse-permutation fold stays below `m` when started below `m` on
indices below `m`. -/
theorem foldl_write_lt (p : ℕ → ℕ) (j m : ℕ) :
    ∀ (l : List ℕ) (a : ℕ), a < m → (∀ i ∈ l, i < m) →
      l.foldl (fun acc i => if p i = j then i else acc) a < m := by
  intro l
  induction l with
  | nil => intro a ha _; exact ha
  | cons x xs ih =>
    intro a ha hl
    rw [List.foldl_cons]
    apply ih
    · by_cases hx : p x = j
      · rw [if_pos hx]
        exact hl x (List.mem_cons_self x xs)
      · rw [if_neg hx]
        exact ha
    · intro i hi
      exact hl i (List.mem_cons_of_mem x hi)

/-- `perm_inv` entries stay below `m` for nonempty ranges. -/
theorem invPerm_lt (p : ℕ → ℕ) (m : ℕ) (hm : 0 < m) :
    ∀ j, invPerm p m j < m := by
  intro j
  unfold invPerm
  exact foldl_write_lt p j m (List.range m) 0 hm
    (fun i hi => List.mem_range.mp hi)

/-- `row_perm` produced by partial-pivoting `lu_in_place` maps `[0, m)` into
itself. -/
theorem luPP_perm_lt (score : K → ℚ) (hs : ScoreOk score) (A : Mat K)
    (m n : ℕ) : ∀ i, i < m → (luPP score A m n).2.1 i < m := by
  set size := min n m with hszd
  set r := luImplGo score (size + 1) A (fun x => x) m 0 n 0 size 0 with hrd
  have spec : ImplSpec A (fun x => x) m 0 n 0 size 0 r := by
    rw [hrd]
    exact luPP_core_spec score hs A m n
  intro i hi
  have hp : (luPP score A m n).2.1 = r.p := rfl
  rw [hp, spec.perm i]
  apply sigmaOf_lt r.ts 0 m
  · intro q h
    have := spec.tsb q h
    omega
  · exact hi

/-- The permutation built from a bounded transposition array maps `[0, m)`
into itself. -/
theorem buildPerm_lt (tr : ℕ → ℕ) (m : ℕ) (hb : ∀ k, k < m → tr k < m) :
    ∀ x, x < m → buildPerm tr m x < m := by
  intro x hx
  rw [buildPerm_eq]
  exact sigmaFun_lt tr m 0 m (fun k _ hk => hb k (by omega)) (by omega) x hx

/-- The two forward permutations produced by full-pivoting `lu_in_place` map
their index ranges into themselves. -/
theorem luFP_perm_lt (score : K → ℚ) (hs : ScoreOk score) (A : Mat K)
    (m n : ℕ) (rowMajor : Bool) :
    (∀ i, i < m →
      (luFP score (fun _ => none) A m n rowMajor).2.1 i < m) ∧
    (∀ j, j < n →
      (luFP score (fun _ => none) A m n rowMajor).2.2.2.1 j < n) := by
  cases rowMajor with
  | false =>
    set r := fpUnb score (fun _ => none) A m n false with hrd
    have spec : FpInv score A m n (min m n) false (min m n) r := by
      rw [hrd]
      exact fpUnb_inv score hs A m n false
    have hrb : ∀ k, k < m → r.rowT k < m := by
      intro k hk
      by_cases hks : k < min m n
      · exact spec.rT_lt k hks
      · rw [spec.rT_id k (by omega)]
        omega
    have hcb : ∀ k, k < n → r.colT k < n := by
      intro k hk
      by_cases hks : k < min m n
      · exact spec.cT_lt k hks
      · rw [spec.cT_id k (by omega)]
        omega
    constructor
    · intro i hi
      have hp : (luFP score (fun _ => none) A m n false).2.1 =
          buildPerm r.rowT m := rfl
      rw [hp]
      exact buildPerm_lt r.rowT m hrb i hi
    · intro j hj
      have hq : (luFP score (fun _ => none) A m n false).2.2.2.1 =
          buildPerm r.colT n := rfl
      rw [hq]
      exact buildPerm_lt r.colT n hcb j hj
  | true =>
    set r := fpUnb score (fun _ => none) (fun a b => A b a) n m true with hrd
    have spec : FpInv score (fun a b => A b a) n m (min n m) true (min n m)
        r := by
      rw [hrd]
      exact fpUnb_inv score hs (fun a b => A b a) n m true
    have hrb : ∀ k, k < m → r.colT k < m := by
      intro k hk
      by_cases hks : k < min n m
      · exact spec.cT_lt k hks
      · rw [spec.cT_id k (by omega)]
        omega
    have hcb : ∀ k, k < n → r.rowT k < n := by
      intro k hk
      by_cases hks : k < min n m
      · exact spec.rT_lt k hks
      · rw [spec.rT_id k (by omega)]
        omega
    constructor
    · intro i hi
      have hp : (luFP score (fun _ => none) A m n true).2.1 =
          buildPerm r.colT m := rfl
      rw [hp]
      exact buildPerm_lt r.colT m hrb i hi
    · intro j hj
      have hq : (luFP score (fun _ => none) A m n true).2.2.2.1 =
          buildPerm r.rowT n := rfl
      rw [hq]
      exact buildPerm_lt r.rowT n hcb j hj

/-- `solve_in_place` after partial-pivoting LU solves `A·X = B`: the
conjugated input rows recombine the solve output to `B`. -/
theorem solvePP_correct (score : K → ℚ) (hs : ScoreOk score) (cf : K →+* K)
    (A B : Mat K) (n : ℕ)
    (hdet : IsUnit (Matrix.det (Matrix.of (fun i j : Fin n => A i.1 j.1)))) :
    ∀ r, r < n → ∀ j,
      (∑ c ∈ Finset.range n, cf (A r c) *
        solvePP (⇑cf) (luPP score A n n).1 (luPP score A n n).2.1 B n c j) =
      B r j := by
  intro r hr j
  set F := (luPP score A n n).1 with hFd
  set p := (luPP score A n n).2.1 with hpd
  set pinv := (luPP score A n n).2.2.1 with hpivd
  have hrec : ∀ r2 c, r2 < n → c < n → A (p r2) c = luProd F n r2 c := by
    intro r2 c hr2 hc
    have h := luPP_reconstruct score hs A n n r2 hr2 c hc
    rw [min_self] at h
    exact h.symm
  have hpb : ∀ x, x < n → p x < n :=
    fun x hx => luPP_perm_lt score hs A n n x hx
  have hpinvb : ∀ x, x < n → pinv x < n := by
    intro x hx
    exact invPerm_lt ((luPP score A n n).2.1) n (by omega) x
  have hpi : ∀ x, x < n → pinv (p x) = x :=
    fun x hx => (luPP_perm_inverse score hs A n n).1 x hx
  have hip : ∀ x, x < n → p (pinv x) = x :=
    fun x hx => (luPP_perm_inverse score hs A n n).2 x hx
  have hdiag : ∀ l, l < n → F l l ≠ 0 :=
    lu_diag_ne_zero A F n p (fun c => c) pinv (fun c => c)
      hpb (fun x hx => hx) hpi (fun x _ => rfl) hrec hdet
  have hdiagc : ∀ l, l < n → cf (F l l) ≠ 0 := by
    intro l hl h
    apply hdiag l hl
    apply RingHom.injective cf
    rw [map_zero]
    exact h
  have hr2 : pinv r < n := hpinvb r hr
  have h1 := solve_core cf F (permuteRows p B) n hdiagc (pinv r) hr2 j
  have h2 : ∀ c ∈ Finset.range n,
      cf (luProd F n (pinv r) c) *
        solveUpper (⇑cf) F (solveUnitLower (⇑cf) F (permuteRows p B)) n c j =
      cf (A r c) *
        solveUpper (⇑cf) F (solveUnitLower (⇑cf) F (permuteRows p B)) n c j := by
    intro c hc
    rw [Finset.mem_range] at hc
    rw [← hrec (pinv r) c hr2 hc, hip r hr]
  rw [Finset.sum_congr rfl h2] at h1
  have hT : permuteRows p B (pinv r) j = B r j := by
    unfold permuteRows
    rw [hip r hr]
  have hsolve : solvePP (⇑cf) F p B n =
      solveUpper (⇑cf) F (solveUnitLower (⇑cf) F (permuteRows p B)) n := rfl
  rw [hsolve, h1, hT]

/-- `solve_transpose_in_place` after partial-pivoting LU solves `Aᵗ·X = B`
(with the conjugation applied the way the code does). -/
theorem solvePPT_correct (score : K → ℚ) (hs : ScoreOk score) (cf : K →+* K)
    (A B : Mat K) (n : ℕ)
    (hdet : IsUnit (Matrix.det (Matrix.of (fun i j : Fin n => A i.1 j.1)))) :
    ∀ r, r < n → ∀ j,
      (∑ c ∈ Finset.range n, cf (A c r) *
        solvePPT (⇑cf) (luPP score A n n).1 (luPP score A n n).2.2.1 B n c j) =
      B r j := by
  intro r hr j
  set F := (luPP score A n n).1 with hFd
  set p := (luPP score A n n).2.1 with hpd
  set pinv := (luPP score A n n).2.2.1 with hpivd
  have hrec : ∀ r2 c, r2 < n → c < n → A (p r2) c = luProd F n r2 c := by
    intro r2 c hr2 hc
    have h := luPP_reconstruct score hs A n n r2 hr2 c hc
    rw [min_self] at h
    exact h.symm
  have hpb : ∀ x, x < n → p x < n :=
    fun x hx => luPP_perm_lt score hs A n n x hx
  have hpinvb : ∀ x, x < n → pinv x < n := by
    intro x hx
    exact invPerm_lt ((luPP score A n n).2.1) n (by omega) x
  have hpi : ∀ x, x < n → pinv (p x) = x :=
    fun x hx => (luPP_perm_inverse score hs A n n).1 x hx
  have hip : ∀ x, x < n → p (pinv x) = x :=
    fun x hx => (luPP_perm_inverse score hs A n n).2 x hx
  have hdiag : ∀ l, l < n → F l l ≠ 0 :=
    lu_diag_ne_zero A F n p (fun c => c) pinv (fun c => c)
      hpb (fun x hx => hx) hpi (fun x _ => rfl) hrec hdet
  have hdiagc : ∀ l, l < n → cf (F l l) ≠ 0 := by
    intro l hl h
    apply hdiag l hl
    apply RingHom.injective cf
    rw [map_zero]
    exact h
  set Y2 := solveUnitUpper (⇑cf) (fun a b => F b a)
    (solveLower (⇑cf) (fun a b => F b a) B) n with hY2d
  have hcoreT : (∑ r2 ∈ Finset.range n, cf (luProd F n r2 r) * Y2 r2 j) =
      B r j := solve_coreT cf F B n hdiagc r hr j
  have hsv : ∀ c, solvePPT (⇑cf) F pinv B n c j = Y2 (pinv c) j :=
    fun c => rfl
  calc ∑ c ∈ Finset.range n, cf (A c r) * solvePPT (⇑cf) F pinv B n c j
      = ∑ c ∈ Finset.range n, (fun c2 => cf (A c2 r) * Y2 (pinv c2) j) c := by
        apply Finset.sum_congr rfl
        intro c _
        rw [hsv c]
    _ = ∑ r2 ∈ Finset.range n,
          (fun c2 => cf (A c2 r) * Y2 (pinv c2) j) (p r2) :=
        sum_perm_reindex _ p pinv n hpb hpinvb hpi hip
    _ = ∑ r2 ∈ Finset.range n, cf (luProd F n r2 r) * Y2 r2 j := by
        apply Finset.sum_congr rfl
        intro r2 hr2
        rw [Finset.mem_range] at hr2
        show cf (A (p r2) r) * Y2 (pinv (p r2)) j = _
        rw [hrec r2 r hr2 hr, hpi r2 hr2]
    _ = B r j := hcoreT

/-- `solve_in_place` after full-pivoting LU solves `A·X = B`, for either
memory orientation of the input. -/
theorem solveFP_correct (score : K → ℚ) (hs : ScoreOk score) (cf : K →+* K)
    (A B : Mat K) (n : ℕ) (rowMajor : Bool)
    (hdet : IsUnit (Matrix.det (Matrix.of (fun i j : Fin n => A i.1 j.1)))) :
    ∀ r, r < n → ∀ j,
      (∑ c ∈ Finset.range n, cf (A r c) *
        solveFP (⇑cf) (luFP score (fun _ => none) A n n rowMajor).1
          (luFP score (fun _ => none) A n n rowMajor).2.1
          (luFP score (fun _ => none) A n n rowMajor).2.2.2.2.1 B n c j) =
      B r j := by
  intro r hr j
  set F := (luFP score (fun _ => none) A n n rowMajor).1 with hFd
  set p := (luFP score (fun _ => none) A n n rowMajor).2.1 with hpd
  set pinv := (luFP score (fun _ => none) A n n rowMajor).2.2.1 with hpivd
  set q := (luFP score (fun _ => none) A n n rowMajor).2.2.2.1 with hqd
  set qinv := (luFP score (fun _ => none) A n n rowMajor).2.2.2.2.1 with hqivd
  have hrec : ∀ r2 c, r2 < n → c < n → A (p r2) (q c) = luProd F n r2 c := by
    intro r2 c hr2 hc
    have h := luFP_reconstruct score hs A n n rowMajor r2 hr2 c hc
    rw [min_self] at h
    exact h.symm
  have hpb : ∀ x, x < n → p x < n :=
    fun x hx => (luFP_perm_lt score hs A n n rowMajor).1 x hx
  have hqb : ∀ x, x < n → q x < n :=
    fun x hx => (luFP_perm_lt score hs A n n rowMajor).2 x hx
  have hpinvb : ∀ x, x < n → pinv x < n := by
    intro x hx
    exact invPerm_lt ((luFP score (fun _ => none) A n n rowMajor).2.1) n
      (by omega) x
  have hqinvb : ∀ x, x < n → qinv x < n := by
    intro x hx
    exact invPerm_lt ((luFP score (fun _ => none) A n n rowMajor).2.2.2.1) n
      (by omega) x
  have hpi : ∀ x, x < n → pinv (p x) = x :=
    fun x hx => (luFP_perm_inverse score hs A n n rowMajor).1.1 x hx
  have hip : ∀ x, x < n → p (pinv x) = x :=
    fun x hx => (luFP_perm_inverse score hs A n n rowMajor).1.2 x hx
  have hqi : ∀ x, x < n → qinv (q x) = x :=
    fun x hx => (luFP_perm_inverse score hs A n n rowMajor).2.1 x hx
  have hiq : ∀ x, x < n → q (qinv x) = x :=
    fun x hx => (luFP_perm_inverse score hs A n n rowMajor).2.2 x hx
  have hdiag : ∀ l, l < n → F l l ≠ 0 :=
    lu_diag_ne_zero A F n p q pinv qinv hpb hqb hpi hqi hrec hdet
  have hdiagc : ∀ l, l < n → cf (F l l) ≠ 0 := by
    intro l hl h
    apply hdiag l hl
    apply RingHom.injective cf
    rw [map_zero]
    exact h
  set S := solveUpper (⇑cf) F (solveUnitLower (⇑cf) F (permuteRows p B)) n
    with hSd
  have hr2 : pinv r < n := hpinvb r hr
  have h1 : (∑ c ∈ Finset.range n, cf (luProd F n (pinv r) c) * S c j) =
      permuteRows p B (pinv r) j :=
    solve_core cf F (permuteRows p B) n hdiagc (pinv r) hr2 j
  have h2 : ∀ c ∈ Finset.range n,
      cf (luProd F n (pinv r) c) * S c j = cf (A r (q c)) * S c j := by
    intro c hc
    rw [Finset.mem_range] at hc
    rw [← hrec (pinv r) c hr2 hc, hip r hr]
  rw [Finset.sum_congr rfl h2] at h1
  have hT : permuteRows p B (pinv r) j = B r j := by
    unfold permuteRows
    rw [hip r hr]
  rw [hT] at h1
  have hsv : ∀ c, solveFP (⇑cf) F p qinv B n c j = S (qinv c) j :=
    fun c => rfl
  calc ∑ c ∈ Finset.range n, cf (A r c) * solveFP (⇑cf) F p qinv B n c j
      = ∑ c ∈ Finset.range n, (fun c2 => cf (A r c2) * S (qinv c2) j) c := by
        apply Finset.sum_congr rfl
        intro c _
        rw [hsv c]
    _ = ∑ c2 ∈ Finset.range n,
          (fun c3 => cf (A r c3) * S (qinv c3) j) (q c2) :=
        sum_perm_reindex _ q qinv n hqb hqinvb hqi hiq
    _ = ∑ c2 ∈ Finset.range n, cf (A r (q c2)) * S c2 j := by
        apply Finset.sum_congr rfl
        intro c2 hc2
        rw [Finset.mem_range] at hc2
        show cf (A r (q c2)) * S (qinv (q c2)) j = _
        rw [hqi c2 hc2]
    _ = B r j := h1

/-- `solve_transpose_in_place` after full-pivoting LU solves `Aᵗ·X = B`, for
either memory orientation of the input. -/
theorem solveFPT_correct (score : K → ℚ) (hs : ScoreOk score) (cf : K →+* K)
    (A B : Mat K) (n : ℕ) (rowMajor : Bool)
    (hdet : IsUnit (Matrix.det (Matrix.of (fun i j : Fin n => A i.1 j.1)))) :
    ∀ r, r < n → ∀ j,
      (∑ c ∈ Finset.range n, cf (A c r) *
        solveFPT (⇑cf) (luFP score (fun _ => none) A n n rowMajor).1
          (luFP score (fun _ => none) A n n rowMajor).2.2.1
          (luFP score (fun _ => none) A n n rowMajor).2.2.2.1 B n c j) =
      B r j := by
  intro r hr j
  set F := (luFP score (fun _ => none) A n n rowMajor).1 with hFd
  set p := (luFP score (fun _ => none) A n n rowMajor).2.1 with hpd
  set pinv := (luFP score (fun _ => none) A n n rowMajor).2.2.1 with hpivd
  set q := (luFP score (fun _ => none) A n n rowMajor).2.2.2.1 with hqd
  set qinv := (luFP score (fun _ => none) A n n rowMajor).2.2.2.2.1 with hqivd
  have hrec : ∀ r2 c, r2 < n → c < n → A (p r2) (q c) = luProd F n r2 c := by
    intro r2 c hr2 hc
    have h := luFP_reconstruct score hs A n n rowMajor r2 hr2 c hc
    rw [min_self] at h
    exact h.symm
  have hpb : ∀ x, x < n → p x < n :=
    fun x hx => (luFP_perm_lt score hs A n n rowMajor).1 x hx
  have hqb : ∀ x, x < n → q x < n :=
    fun x hx => (luFP_perm_lt score hs A n n rowMajor).2 x hx
  have hpinvb : ∀ x, x < n → pinv x < n := by
    intro x hx
    exact invPerm_lt ((luFP score (fun _ => none) A n n rowMajor).2.1) n
      (by omega) x
  have hqinvb : ∀ x, x < n → qinv x < n := by
    intro x hx
    exact invPerm_lt ((luFP score (fun _ => none) A n n rowMajor).2.2.2.1) n
      (by omega) x
  have hpi : ∀ x, x < n → pinv (p x) = x :=
    fun x hx => (luFP_perm_inverse score hs A n n rowMajor).1.1 x hx
  have hip : ∀ x, x < n → p (pinv x) = x :=
    fun x hx => (luFP_perm_inverse score hs A n n rowMajor).1.2 x hx
  have hqi : ∀ x, x < n → qinv (q x) = x :=
    fun x hx => (luFP_perm_inverse score hs A n n rowMajor).2.1 x hx
  have hiq : ∀ x, x < n → q (qinv x) = x :=
    fun x hx => (luFP_perm_inverse score hs A n n rowMajor).2.2 x hx
  have hdiag : ∀ l, l < n → F l l ≠ 0 :=
    lu_diag_ne_zero A F n p q pinv qinv hpb hqb hpi hqi hrec hdet
  have hdiagc : ∀ l, l < n → cf (F l l) ≠ 0 := by
    intro l hl h
    apply hdiag l hl
    apply RingHom.injective cf
    rw [map_zero]
    exact h
  set Y2 := solveUnitUpper (⇑cf) (fun a b => F b a)
    (solveLower (⇑cf) (fun a b => F b a) (permuteRows q B)) n with hY2d
  have hr2 : qinv r < n := hqinvb r hr
  have hcoreT : (∑ r2 ∈ Finset.range n,
      cf (luProd F n r2 (qinv r)) * Y2 r2 j) =
      permuteRows q B (qinv r) j :=
    solve_coreT cf F (permuteRows q B) n hdiagc (qinv r) hr2 j
  have hT : permuteRows q B (qinv r) j = B r j := by
    unfold permuteRows
    rw [hiq r hr]
  rw [hT] at hcoreT
  have h2 : ∀ r2 ∈ Finset.range n,
      cf (luProd F n r2 (qinv r)) * Y2 r2 j =
      cf (A (p r2) r) * Y2 r2 j := by
    intro r2 hr2b
    rw [Finset.mem_range] at hr2b
    rw [← hrec r2 (qinv r) hr2b hr2, hiq r hr]
  rw [Finset.sum_congr rfl h2] at hcoreT
  have hsv : ∀ c, solveFPT (⇑cf) F pinv q B n c j = Y2 (pinv c) j :=
    fun c => rfl
  calc ∑ c ∈ Finset.range n, cf (A c r) * solveFPT (⇑cf) F pinv q B n c j
      = ∑ c ∈ Finset.range n, (fun c2 => cf (A c2 r) * Y2 (pinv c2) j) c := by
        apply Finset.sum_congr rfl
        intro c _
        rw [hsv c]
    _ = ∑ r2 ∈ Finset.range n,
          (fun c2 => cf (A c2 r) * Y2 (pinv c2) j) (p r2) :=
        sum_perm_reindex _ p pinv n hpb hpinvb hpi hip
    _ = ∑ r2 ∈ Finset.range n, cf (A (p r2) r) * Y2 r2 j := by
        apply Finset.sum_congr rfl
        intro r2 hr2b
        rw [Finset.mem_range] at hr2b
        show cf (A (p r2) r) * Y2 (pinv (p r2)) j = _
        rw [hpi r2 hr2b]
    _ = B r j := hcoreT

end SolveEntry

section ZeroCase

variable {K : Type} [Field K]

/-- On an all-zero column the running pivot scan never updates its best. -/
theorem bestInColGo_zeroCol (score : K → ℚ) (hs0 : score 0 = 0) (col : ℕ → K)
    (hcol : ∀ i, col i = 0) :
    ∀ (s i x : ℕ), bestInColGo score col i s ((0 : ℚ), x) = ((0 : ℚ), x) := by
  intro s
  induction s with
  | zero => intro i x; rfl
  | succ s ih =>
    intro i x
    show bestInColGo score col (i+1) s
      (if score (col i) > (0 : ℚ) then (score (col i), i) else ((0 : ℚ), x)) =
      ((0 : ℚ), x)
    rw [hcol i, hs0, if_neg (lt_irrefl (0 : ℚ))]
    exact ih (i+1) x

/-- On an all-zero matrix the column pivot search defaults to the current
row. -/
theorem pivotRow_zeroMat (score : K → ℚ) (hs0 : score 0 = 0) (A : Mat K)
    (hA : ∀ i j, A i j = 0) (c j m : ℕ) : pivotRow score A c j m = j := by
  unfold pivotRow
  rw [bestInColGo_zeroCol score hs0 (fun i => A i c) (fun i => hA i c)
    (m - j) j j]

theorem rowSwap_zeroA (A : Mat K) (hA : ∀ i j, A i j = 0) (i1 i2 cl ch : ℕ) :
    rowSwap A i1 i2 cl ch = A := by
  funext i j
  unfold rowSwap
  split_ifs <;> simp [hA]

theorem colSwap_zeroA (A : Mat K) (hA : ∀ i j, A i j = 0) (j1 j2 m : ℕ) :
    colSwap A j1 j2 m = A := by
  funext i j
  unfold colSwap
  split_ifs <;> simp [hA]

theorem scaleColPP_zeroA (A : Mat K) (hA : ∀ i j, A i j = 0) (r c m : ℕ) :
    scaleColPP A r c m = A := by
  funext i c2
  unfold scaleColPP
  split_ifs <;> simp [hA]

theorem scaleRowFP_zeroA (A : Mat K) (hA : ∀ i j, A i j = 0) (r c n : ℕ) :
    scaleRowFP A r c n = A := by
  funext i c2
  unfold scaleRowFP
  split_ifs <;> simp [hA]

theorem rank1PP_zeroA (A : Mat K) (hA : ∀ i j, A i j = 0) (r c m cHi : ℕ) :
    rank1PP A r c m cHi = A := by
  funext i c2
  unfold rank1PP
  split_ifs <;> simp [hA]

theorem fpUpdate_zeroA (A : Mat K) (hA : ∀ i j, A i j = 0) (k m n : ℕ) :
    fpUpdate A k m n = A := by
  funext i c
  unfold fpUpdate
  split_ifs <;> simp [hA]

theorem ppElim_zeroA (A : Mat K) (hA : ∀ i j, A i j = 0)
    (imax m cl ch wLo n rOff j : ℕ) : ppElim A imax m cl ch wLo n rOff j = A := by
  unfold ppElim
  rw [rowSwap_zeroA A hA, scaleColPP_zeroA A hA, rank1PP_zeroA A hA]

/-- One partial-pivoting elimination step on an all-zero matrix: the pivot
defaults to the current row, the recorded offset is `0`, nothing else
changes. -/
theorem ppStep_zeroA (score : K → ℚ) (hs0 : score 0 = 0) (A : Mat K)
    (hA : ∀ i j, A i j = 0) (m cl ch wLo n rOff j : ℕ) (p : ℕ → ℕ)
    (ts : List ℕ) (cnt : ℕ) :
    ppStep score m cl ch wLo n rOff j ⟨A, p, ts, cnt⟩ =
      ⟨A, p, ts ++ [0], cnt⟩ := by
  have himax : pivotRow score A (wLo + j) (rOff + j) m = rOff + j :=
    pivotRow_zeroMat score hs0 A hA (wLo + j) (rOff + j) m
  simp only [ppStep, himax, ppElim_zeroA A hA, Nat.sub_self, ne_eq,
    not_true_eq_false, if_false]

/-- The unblocked partial-pivoting loop on an all-zero matrix only appends
zero transposition offsets. -/
theorem ppGo_zeroA (score : K → ℚ) (hs0 : score 0 = 0) (A : Mat K)
    (hA : ∀ i j, A i j = 0) (m cl ch wLo n rOff : ℕ) :
    ∀ (s j : ℕ) (p : ℕ → ℕ) (ts : List ℕ) (cnt : ℕ),
      ppGo score m cl ch wLo n rOff j s ⟨A, p, ts, cnt⟩ =
        ⟨A, p, ts ++ List.replicate s 0, cnt⟩ := by
  intro s
  induction s with
  | zero =>
    intro j p ts cnt
    show (⟨A, p, ts, cnt⟩ : PpState K) = ⟨A, p, ts ++ [], cnt⟩
    rw [List.append_nil]
  | succ s ih =>
    intro j p ts cnt
    show ppGo score m cl ch wLo n rOff (j+1) s
      (ppStep score m cl ch wLo n rOff j ⟨A, p, ts, cnt⟩) = _
    rw [ppStep_zeroA score hs0 A hA m cl ch wLo n rOff j p ts cnt,
      ih (j+1) p (ts ++ [0]) cnt, List.append_assoc]
    rfl

theorem ppUnb_zeroA (score : K → ℚ) (hs0 : score 0 = 0) (A : Mat K)
    (hA : ∀ i j, A i j = 0) (p : ℕ → ℕ) (m cl ch wLo n rOff : ℕ) :
    ppUnb score A p m cl ch wLo n rOff = ⟨A, p, List.replicate n 0, 0⟩ := by
  unfold ppUnb
  rw [ppGo_zeroA score hs0 A hA m cl ch wLo n rOff n 0 p [] 0,
    List.nil_append]

theorem fsubUnit_zeroA (A : Mat K) (hA : ∀ i j, A i j = 0) (rOff wLo c : ℕ) :
    ∀ f i, fsubUnit A rOff wLo c f i = 0 := by
  intro f
  induction f with
  | zero => intro i; rfl
  | succ f ih =>
    intro i
    show A (rOff + i) c -
      ∑ k ∈ Finset.range i, A (rOff + i) (wLo + k) * fsubUnit A rOff wLo c f k
      = 0
    simp [hA, ih]

theorem trsmUnitLower_zeroA (A : Mat K) (hA : ∀ i j, A i j = 0)
    (rOff wLo bs cLo cHi : ℕ) : trsmUnitLower A rOff wLo bs cLo cHi = A := by
  funext i c
  unfold trsmUnitLower
  split_ifs with h
  · rw [fsubUnit_zeroA A hA, hA i c]
  · rfl

theorem schurSub_zeroA (A : Mat K) (hA : ∀ i j, A i j = 0)
    (rOff bs m wLo cLo cHi : ℕ) : schurSub A rOff bs m wLo cLo cHi = A := by
  funext i c
  unfold schurSub
  split_ifs with h
  · simp [hA]
  · rfl

theorem rowSwapCols_self (A : Mat K) (i1 : ℕ) (P : ℕ → Bool) :
    rowSwapCols A i1 i1 P = A := by
  funext i j
  unfold rowSwapCols
  split_ifs with hp he
  · rw [he]
  · rfl
  · rfl

/-- Applying a run of zero transposition offsets is the identity. -/
theorem applyTransCols_replicate (P : ℕ → Bool) :
    ∀ (s i0 : ℕ) (A : Mat K),
      applyTransCols P i0 (List.replicate s 0) A = A := by
  intro s
  induction s with
  | zero => intro i0 A; rfl
  | succ s ih =>
    intro i0 A
    show applyTransCols P (i0+1) (List.replicate s 0)
      (rowSwapCols A i0 i0 P) = A
    rw [rowSwapCols_self]
    exact ih (i0+1) A

/-- The blocked partial-pivoting recursion on an all-zero matrix records only
zero offsets, keeps the permutation, and performs no swaps. -/
theorem luImplGo_zeroA (score : K → ℚ) (hs0 : score 0 = 0) :
    ∀ (fuel : ℕ) (A : Mat K), (∀ i j, A i j = 0) →
      ∀ (n : ℕ) (p : ℕ → ℕ) (m cl ch wLo rOff : ℕ), n < fuel →
      luImplGo score fuel A p m cl ch wLo n rOff =
        ⟨A, p, List.replicate n 0, 0⟩ := by
  intro fuel
  induction fuel with
  | zero =>
    intro A hA n p m cl ch wLo rOff h
    omega
  | succ f ih =>
    intro A hA n p m cl ch wLo rOff h
    by_cases h16 : n ≤ 16
    · have hunf : luImplGo score (f+1) A p m cl ch wLo n rOff =
          ppUnb score A p m cl ch wLo n rOff := by
        simp only [luImplGo]
        rw [if_pos h16]
      rw [hunf]
      exact ppUnb_zeroA score hs0 A hA p m cl ch wLo n rOff
    · have h16' : 16 < n := by omega
      obtain ⟨hbs1, hbs2⟩ := blocksize_bounds n h16'
      set bs := blocksize n with hbsd
      set L := luImplGo score f A p m wLo (wLo + n) wLo bs rOff with hLd
      set A2 := trsmUnitLower L.A rOff wLo bs (wLo + bs) (wLo + n) with hA2d
      set A3 := schurSub A2 rOff bs m wLo (wLo + bs) (wLo + n) with hA3d
      set R := luImplGo score f A3 (fun i => i) m wLo (wLo + n) (wLo + bs)
        (n - bs) (rOff + bs) with hRd
      set P := (fun c => decide ((cl ≤ c ∧ c < wLo) ∨ (wLo + n ≤ c ∧ c < ch)) :
        ℕ → Bool) with hPd
      set A5 := applyTransCols P (rOff + bs) R.ts
        (applyTransCols P rOff L.ts R.A) with hA5d
      have hunf : luImplGo score (f+1) A p m cl ch wLo n rOff =
          ⟨A5, fun i => if i < bs then L.p i else L.p (bs + R.p (i - bs)),
            L.ts ++ R.ts, L.cnt + R.cnt⟩ := by
        rw [hA5d, hPd, hRd, hA3d, hA2d, hLd, hbsd]
        simp only [luImplGo]
        rw [if_neg h16]
      rw [hunf]
      have hL : L = ⟨A, p, List.replicate bs 0, 0⟩ := by
        rw [hLd]
        exact ih A hA bs p m wLo (wLo + n) wLo rOff (by omega)
      have hA2e : A2 = A := by
        rw [hA2d, hL]
        exact trsmUnitLower_zeroA A hA rOff wLo bs (wLo + bs) (wLo + n)
      have hA3e : A3 = A := by
        rw [hA3d, hA2e]
        exact schurSub_zeroA A hA rOff bs m wLo (wLo + bs) (wLo + n)
      have hR : R = ⟨A, fun i => i, List.replicate (n - bs) 0, 0⟩ := by
        rw [hRd, hA3e]
        exact ih A hA (n - bs) (fun i => i) m wLo (wLo + n) (wLo + bs)
          (rOff + bs) (by omega)
      have hA5e : A5 = A := by
        rw [hA5d, hR, hL]
        show applyTransCols P (rOff + bs) (List.replicate (n - bs) 0)
          (applyTransCols P rOff (List.replicate bs 0) A) = A
        rw [applyTransCols_replicate, applyTransCols_replicate]
      rw [hA5e, hL, hR]
      show (⟨A, fun i => if i < bs then p i else p (bs + (i - bs)),
        List.replicate bs 0 ++ List.replicate (n - bs) 0, 0 + 0⟩ :
          PpState K) = ⟨A, p, List.replicate n 0, 0⟩
      have hp2 : (fun i => if i < bs then p i else p (bs + (i - bs))) = p := by
        funext i
        by_cases hib : i < bs
        · rw [if_pos hib]
        · rw [if_neg hib]
          have he : bs + (i - bs) = i := by omega
          rw [he]
      rw [hp2, ← List.replicate_add]
      have hbl : bs + (n - bs) = n := by omega
      rw [hbl]

/-- Partial-pivoting `lu_in_place` on an all-zero square matrix: factor
unchanged (zero), identity permutation, all offsets zero, count zero. -/
theorem luPP_zeroA (score : K → ℚ) (hs0 : score 0 = 0) (A : Mat K)
    (hA : ∀ i j, A i j = 0) (n : ℕ) :
    luPP score A n n =
      (A, (fun i => i), invPerm (fun i => i) n, List.replicate n 0, 0) := by
  simp only [luPP]
  rw [min_self,
    luImplGo_zeroA score hs0 (n+1) A hA n (fun i => i) n 0 n 0 0 (by omega),
    if_neg (lt_irrefl n)]

theorem sigmaFun_id : ∀ (s i0 x : ℕ), sigmaFun (fun y => y) i0 s x = x := by
  intro s
  induction s with
  | zero => intro i0 x; rfl
  | succ s ih =>
    intro i0 x
    show swapPos i0 i0 (sigmaFun (fun y => y) (i0+1) s x) = x
    rw [swapPos_self, ih]

theorem buildPerm_id (m : ℕ) : buildPerm (fun x => x) m = fun x => x := by
  rw [buildPerm_eq]
  funext x
  exact sigmaFun_id m 0 x

theorem invPerm_id (m : ℕ) : ∀ i, i < m → invPerm (fun x => x) m i = i := by
  intro i hi
  exact invPerm_left (fun x => x) m (fun x y h => h) i hi

theorem foldl_fix {α β : Type} (f : α → β → α) (a : α) :
    ∀ l : List β, (∀ x ∈ l, f a x = a) → l.foldl f a = a := by
  intro l
  induction l with
  | nil => intro _; rfl
  | cons x xs ih =>
    intro h
    rw [List.foldl_cons, h x (List.mem_cons_self x xs)]
    exact ih (fun y hy => h y (List.mem_cons_of_mem x hy))

/-- `best_in_matrix` on an all-zero matrix keeps the default `(0, 0, 0)`. -/
theorem bestInMat_zeroA (score : K → ℚ) (hs0 : score 0 = 0) (A : Mat K)
    (hA : ∀ i j, A i j = 0) (m n : ℕ) :
    bestInMat score A m n = (0, 0, 0) := by
  unfold bestInMat
  apply foldl_fix
  intro j _
  apply foldl_fix
  intro i _
  show (if score (A i j) > (0 : ℚ) then (i, j, score (A i j))
    else ((0 : ℕ), (0 : ℕ), (0 : ℚ))) = ((0 : ℕ), (0 : ℕ), (0 : ℚ))
  rw [hA i j, hs0, if_neg (lt_irrefl (0 : ℚ))]

/-- One full-pivoting step on an all-zero matrix with the pending best on the
diagonal: no swaps, count stays zero, and the next pending best is the next
diagonal position. -/
theorem fpStep_zeroA (score : K → ℚ) (hs0 : score 0 = 0) (A : Mat K)
    (hA : ∀ i j, A i j = 0) (m n size : ℕ) (tr : Bool) (k : ℕ) :
    fpStep score (fun _ => none) m n size tr k
      ⟨A, (fun x => x), (fun x => x), 0, k, k⟩ =
      (if k + 1 = size then ⟨A, (fun x => x), (fun x => x), 0, k, k⟩
       else ⟨A, (fun x => x), (fun x => x), 0, k+1, k+1⟩) := by
  have hupd : (fun x => if x = k then k else x) = (fun x : ℕ => x) := by
    funext x
    by_cases hx : x = k
    · rw [if_pos hx, hx]
    · rw [if_neg hx]
  have hsc : (if tr then scaleRowFP A k k n else scaleColPP A k k m) = A := by
    cases tr with
    | false =>
      simp only [Bool.false_eq_true, if_false]
      exact scaleColPP_zeroA A hA k k m
    | true =>
      simp only [if_true]
      exact scaleRowFP_zeroA A hA k k n
  have hb : bestInSub score A (k+1) (k+1) m n = (0, 0, 0) := by
    unfold bestInSub
    exact bestInMat_zeroA score hs0 _ (fun i j => hA _ _) _ _
  simp only [fpStep, ne_eq, not_true_eq_false, if_false, hsc,
    fpUpdate_zeroA A hA, hb, hupd]

/-- The full-pivoting elimination loop on an all-zero matrix. -/
theorem fpGo_zeroA (score : K → ℚ) (hs0 : score 0 = 0) (A : Mat K)
    (hA : ∀ i j, A i j = 0) (n : ℕ) (tr : Bool) :
    ∀ (s k : ℕ), k + s = n → 1 ≤ s →
      fpGo score (fun _ => none) n n n tr k s
        ⟨A, (fun x => x), (fun x => x), 0, k, k⟩ =
      ⟨A, (fun x => x), (fun x => x), 0, n - 1, n - 1⟩ := by
  intro s
  induction s with
  | zero =>
    intro k _ h1
    omega
  | succ s ih =>
    intro k hk _
    show fpGo score (fun _ => none) n n n tr (k+1) s
      (fpStep score (fun _ => none) n n n tr k
        ⟨A, (fun x => x), (fun x => x), 0, k, k⟩) = _
    rw [fpStep_zeroA score hs0 A hA n n n tr k]
    by_cases hs1 : s = 0
    · subst hs1
      rw [if_pos (by omega : k + 1 = n)]
      show (⟨A, (fun x => x), (fun x => x), 0, k, k⟩ : FpState K) = _
      have hk1 : k = n - 1 := by omega
      rw [hk1]
    · rw [if_neg (by omega : ¬ (k + 1 = n))]
      exact ih (k+1) (by omega) (by omega)

/-- Full-pivoting `lu_in_place_unblocked` on an all-zero square matrix:
matrix unchanged, both transposition arrays stay the identity, count zero. -/
theorem fpUnb_zeroA (score : K → ℚ) (hs0 : score 0 = 0) (A : Mat K)
    (hA : ∀ i j, A i j = 0) (n : ℕ) (hn : 1 ≤ n) (tr : Bool) :
    fpUnb score (fun _ => none) A n n tr =
      ⟨A, (fun x => x), (fun x => x), 0, n - 1, n - 1⟩ := by
  simp only [fpUnb]
  rw [if_neg (by omega : ¬ (n = 0 ∨ n = 0)),
    bestInMat_zeroA score hs0 A hA n n, min_self]
  exact fpGo_zeroA score hs0 A hA n tr n 0 (by omega) hn

/-- Full-pivoting `lu_in_place` on an all-zero square matrix: factor
unchanged, identity permutations, identity transposition arrays, count
zero. -/
theorem luFP_zeroA (score : K → ℚ) (hs0 : score 0 = 0) (A : Mat K)
    (hA : ∀ i j, A i j = 0) (n : ℕ) (hn : 1 ≤ n) (rowMajor : Bool) :
    luFP score (fun _ => none) A n n rowMajor =
      (A, (fun x => x), invPerm (fun x => x) n, (fun x => x),
        invPerm (fun x => x) n, (fun x => x), (fun x => x), 0) := by
  cases rowMajor with
  | false =>
    simp only [luFP, Bool.false_eq_true, if_false]
    rw [fpUnb_zeroA score hs0 A hA n hn false]
    show ((A : Mat K), buildPerm (fun x => x) n,
      invPerm (buildPerm (fun x => x) n) n, buildPerm (fun x => x) n,
      invPerm (buildPerm (fun x => x) n) n, (fun x : ℕ => x),
      (fun x : ℕ => x), 0) = _
    rw [buildPerm_id]
  | true =>
    simp only [luFP, if_true]
    rw [fpUnb_zeroA score hs0 (fun i j => A j i) (fun i j => hA j i) n hn
      true]
    show ((fun i j => A i j : Mat K), buildPerm (fun x => x) n,
      invPerm (buildPerm (fun x => x) n) n, buildPerm (fun x => x) n,
      invPerm (buildPerm (fun x => x) n) n, (fun x : ℕ => x),
      (fun x : ℕ => x), 0) = _
    rw [buildPerm_id]

/-- Reconstruction of all-zero factors is zero. -/
theorem luProd_zeroA (A : Mat K) (hA : ∀ i j, A i j = 0) (size i j : ℕ) :
    luProd A size i j = 0 := by
  unfold luProd
  apply Finset.sum_eq_zero
  intro k _
  rw [hA k j, mul_zero]

end ZeroCase

section FusedKernel

variable {K : Type} [Field K]

/-- `best_value` (full_pivoting/compute.rs, lines 176-194) at lane count 1
(the scalar SIMD fallback): lanewise strict-`>` select collapses to one
comparison. -/
def bestVal (score : K → ℚ) (bv : ℚ) (bi : ℕ) (x : K) (idx : ℕ) : ℚ × ℕ :=
  if score x > bv then (score x, idx) else (bv, bi)

/-- `best_score` (lines 196-209) at lane count 1: merge two running bests by
strict `>`, the first argument winning ties. -/
def bestSc (bv0 : ℚ) (bi0 : ℕ) (bv1 : ℚ) (bi1 : ℕ) : ℚ × ℕ :=
  if bv1 > bv0 then (bv1, bi1) else (bv0, bi0)

/-- The two-way unrolled head loop of `update_and_best_in_col` (lines
316-341) at lane count 1: position `i` feeds accumulator chain 0 and
position `i+1` chain 1, each updated by `best_value` after the fused
`mul_adde` update `dst ← lhs·rhs + dst`. -/
def uabcPairs (score : K → ℚ) (dst lhs : ℕ → K) (rhs : K) :
    ℕ → ℕ → ℚ × ℕ → ℚ × ℕ → (ℚ × ℕ) × (ℚ × ℕ)
  | _, 0, b0, b1 => (b0, b1)
  | i, p+1, b0, b1 =>
      uabcPairs score dst lhs rhs (i+2) p
        (bestVal score b0.1 b0.2 (lhs i * rhs + dst i) i)
        (bestVal score b1.1 b1.2 (lhs (i+1) * rhs + dst (i+1)) (i+1))

/-- `update_and_best_in_col` (full_pivoting/compute.rs, lines 284-367) at
lane count 1: the paired head loop, the `best_score` merge of chain 1 into
chain 0, the odd-length tail element, and the final `best_value` against the
(empty) partial load `0·rhs + 0` at index `m`. -/
def updateAndBestInCol (score : K → ℚ) (dst lhs : ℕ → K) (rhs : K)
    (m : ℕ) : ℚ × ℕ :=
  let bp := uabcPairs score dst lhs rhs 0 (m / 2) (0, 0) (0, 0)
  let b := bestSc bp.1.1 bp.1.2 bp.2.1 bp.2.2
  let b2 := if m % 2 = 1 then
      bestVal score b.1 b.2 (lhs (m - 1) * rhs + dst (m - 1)) (m - 1)
    else b
  bestVal score b2.1 b2.2 ((0 : K) * rhs + 0) m

theorem bestVal_le (score : K → ℚ) (bv : ℚ) (bi : ℕ) (x : K) (idx : ℕ) :
    bv ≤ (bestVal score bv bi x idx).1 := by
  unfold bestVal
  split_ifs with h
  · exact le_of_lt h
  · exact le_refl _

theorem bestVal_dom (score : K → ℚ) (bv : ℚ) (bi : ℕ) (x : K) (idx : ℕ) :
    score x ≤ (bestVal score bv bi x idx).1 := by
  unfold bestVal
  split_ifs with h
  · exact le_refl _
  · exact not_lt.mp h

theorem bestVal_att (score : K → ℚ) (bv : ℚ) (bi : ℕ) (x : K) (idx : ℕ) :
    bestVal score bv bi x idx = (bv, bi) ∨
      bestVal score bv bi x idx = (score x, idx) := by
  unfold bestVal
  split_ifs with h
  · right; rfl
  · left; rfl

theorem bestSc_val (bv0 : ℚ) (bi0 : ℕ) (bv1 : ℚ) (bi1 : ℕ) :
    (bestSc bv0 bi0 bv1 bi1).1 = max bv0 bv1 := by
  unfold bestSc
  split_ifs with h
  · exact (max_eq_right (le_of_lt h)).symm
  · exact (max_eq_left (not_lt.mp h)).symm

theorem bestSc_att (bv0 : ℚ) (bi0 : ℕ) (bv1 : ℚ) (bi1 : ℕ) :
    bestSc bv0 bi0 bv1 bi1 = (bv0, bi0) ∨
      bestSc bv0 bi0 bv1 bi1 = (bv1, bi1) := by
  unfold bestSc
  split_ifs with h
  · right; rfl
  · left; rfl

/-- Invariant of the paired accumulator loop: each chain's value only grows,
together they dominate every processed position, and each chain's value is
its start value or the score of the updated entry at its recorded index. -/
theorem uabcPairs_inv (score : K → ℚ) (dst lhs : ℕ → K) (rhs : K) :
    ∀ (p i : ℕ) (b0 b1 : ℚ × ℕ),
      b0.1 ≤ (uabcPairs score dst lhs rhs i p b0 b1).1.1 ∧
      b1.1 ≤ (uabcPairs score dst lhs rhs i p b0 b1).2.1 ∧
      (∀ x, i ≤ x → x < i + 2*p →
        score (lhs x * rhs + dst x) ≤
          max (uabcPairs score dst lhs rhs i p b0 b1).1.1
            (uabcPairs score dst lhs rhs i p b0 b1).2.1) ∧
      ((uabcPairs score dst lhs rhs i p b0 b1).1 = b0 ∨
        ((uabcPairs score dst lhs rhs i p b0 b1).1.1 =
            score (lhs (uabcPairs score dst lhs rhs i p b0 b1).1.2 * rhs +
              dst (uabcPairs score dst lhs rhs i p b0 b1).1.2) ∧
          i ≤ (uabcPairs score dst lhs rhs i p b0 b1).1.2 ∧
          (uabcPairs score dst lhs rhs i p b0 b1).1.2 < i + 2*p)) ∧
      ((uabcPairs score dst lhs rhs i p b0 b1).2 = b1 ∨
        ((uabcPairs score dst lhs rhs i p b0 b1).2.1 =
            score (lhs (uabcPairs score dst lhs rhs i p b0 b1).2.2 * rhs +
              dst (uabcPairs score dst lhs rhs i p b0 b1).2.2) ∧
          i ≤ (uabcPairs score dst lhs rhs i p b0 b1).2.2 ∧
          (uabcPairs score dst lhs rhs i p b0 b1).2.2 < i + 2*p)) := by
  intro p
  induction p with
  | zero =>
    intro i b0 b1
    refine ⟨le_refl _, le_refl _, ?_, Or.inl rfl, Or.inl rfl⟩
    intro x h1 h2
    omega
  | succ p ih =>
    intro i b0 b1
    have hstep : uabcPairs score dst lhs rhs i (p+1) b0 b1 =
        uabcPairs score dst lhs rhs (i+2) p
          (bestVal score b0.1 b0.2 (lhs i * rhs + dst i) i)
          (bestVal score b1.1 b1.2 (lhs (i+1) * rhs + dst (i+1)) (i+1)) := rfl
    rw [hstep]
    obtain ⟨h1, h2, h3, h4, h5⟩ := ih (i+2)
      (bestVal score b0.1 b0.2 (lhs i * rhs + dst i) i)
      (bestVal score b1.1 b1.2 (lhs (i+1) * rhs + dst (i+1)) (i+1))
    refine ⟨le_trans (bestVal_le score b0.1 b0.2 _ i) h1,
      le_trans (bestVal_le score b1.1 b1.2 _ (i+1)) h2, ?_, ?_, ?_⟩
    · intro x hx1 hx2
      by_cases hxi : x = i
      · subst hxi
        exact le_trans (le_trans (bestVal_dom score b0.1 b0.2 _ x) h1)
          (le_max_left _ _)
      · by_cases hxi1 : x = i + 1
        · subst hxi1
          exact le_trans (le_trans (bestVal_dom score b1.1 b1.2 _ _) h2)
            (le_max_right _ _)
        · exact h3 x (by omega) (by omega)
    · rcases h4 with h4 | ⟨ha, hb, hc⟩
      · rw [h4]
        rcases bestVal_att score b0.1 b0.2 (lhs i * rhs + dst i) i with
          he | he
        · rw [he]
          left
          rfl
        · rw [he]
          right
          exact ⟨rfl, by omega, by omega⟩
      · right
        exact ⟨ha, by omega, by omega⟩
    · rcases h5 with h5 | ⟨ha, hb, hc⟩
      · rw [h5]
        rcases bestVal_att score b1.1 b1.2 (lhs (i+1) * rhs + dst (i+1))
          (i+1) with he | he
        · rw [he]
          left
          rfl
        · rw [he]
          right
          exact ⟨rfl, by omega, by omega⟩
      · right
        exact ⟨ha, by omega, by omega⟩

/-- What the fused kernel does guarantee: its value dominates the score of
every updated entry, and is either the default `0` or the score of the
updated entry at the returned index (which is then in range).  It does not
guarantee the first maximal position: the two accumulator chains are merged
with chain 0 winning ties regardless of scan order. -/
theorem updateAndBestInCol_max (score : K → ℚ) (hs0 : score 0 = 0)
    (dst lhs : ℕ → K) (rhs : K) (m : ℕ) :
    (∀ x, x < m →
      score (lhs x * rhs + dst x) ≤
        (updateAndBestInCol score dst lhs rhs m).1) ∧
    ((updateAndBestInCol score dst lhs rhs m).1 = 0 ∨
      ((updateAndBestInCol score dst lhs rhs m).1 =
        score (lhs (updateAndBestInCol score dst lhs rhs m).2 * rhs +
          dst (updateAndBestInCol score dst lhs rhs m).2) ∧
       (updateAndBestInCol score dst lhs rhs m).2 < m)) := by
  obtain ⟨h1, h2, h3, h4, h5⟩ := uabcPairs_inv score dst lhs rhs (m / 2) 0
    ((0 : ℚ), (0 : ℕ)) ((0 : ℚ), (0 : ℕ))
  set bp := uabcPairs score dst lhs rhs 0 (m / 2) (0, 0) (0, 0) with hbp
  set b := bestSc bp.1.1 bp.1.2 bp.2.1 bp.2.2 with hbd
  set b2 := (if m % 2 = 1 then
      bestVal score b.1 b.2 (lhs (m - 1) * rhs + dst (m - 1)) (m - 1)
    else b) with hb2d
  have hbv : b.1 = max bp.1.1 bp.2.1 := by
    rw [hbd]
    exact bestSc_val bp.1.1 bp.1.2 bp.2.1 bp.2.2
  have hb0 : (0 : ℚ) ≤ bp.1.1 := h1
  have hb1 : (0 : ℚ) ≤ bp.2.1 := h2
  have hbnn : (0 : ℚ) ≤ b.1 := by
    rw [hbv]
    exact le_trans hb0 (le_max_left _ _)
  have hb2nn : (0 : ℚ) ≤ b2.1 := by
    rw [hb2d]
    split_ifs with h
    · exact le_trans hbnn (bestVal_le score b.1 b.2 _ _)
    · exact hbnn
  have hfin : updateAndBestInCol score dst lhs rhs m = (b2.1, b2.2) := by
    show bestVal score b2.1 b2.2 ((0 : K) * rhs + 0) m = _
    unfold bestVal
    have hz : ((0 : K) * rhs + 0) = 0 := by ring
    rw [hz, hs0, if_neg (not_lt.mpr hb2nn)]
  rw [hfin]
  have hble : b.1 ≤ b2.1 := by
    rw [hb2d]
    split_ifs with h
    · exact bestVal_le score b.1 b.2 _ _
    · exact le_refl _
  constructor
  · intro x hx
    by_cases hpar : x < 2 * (m / 2)
    · have := h3 x (by omega) (by omega)
      rw [← hbv] at this
      exact le_trans this hble
    · have hx1 : x = m - 1 ∧ m % 2 = 1 := by omega
      rw [hb2d, if_pos hx1.2]
      rw [hx1.1]
      exact bestVal_dom score b.1 b.2 _ _
  · have hbatt : b.1 = 0 ∨
        (b.1 = score (lhs b.2 * rhs + dst b.2) ∧ b.2 < m) := by
      rcases bestSc_att bp.1.1 bp.1.2 bp.2.1 bp.2.2 with he | he
      · rw [hbd, he]
        rcases h4 with h4 | ⟨ha, hb, hc⟩
        · left
          rw [h4]
        · right
          exact ⟨ha, by omega⟩
      · rw [hbd, he]
        rcases h5 with h5 | ⟨ha, hb, hc⟩
        · left
          rw [h5]
        · right
          exact ⟨ha, by omega⟩
    rw [hb2d]
    split_ifs with h
    · rcases bestVal_att score b.1 b.2 (lhs (m - 1) * rhs + dst (m - 1))
        (m - 1) with he | he
      · rw [he]
        exact hbatt
      · rw [he]
        right
        exact ⟨rfl, by omega⟩
    · exact hbatt

end FusedKernel

section WorkspaceReq

/-- Modelled from the spec: `StackReq::try_new::<usize>(k)` — `k` machine
words of 8 bytes each (64-bit target). -/
def usizeReqBytes (k : ℕ) : ℕ := 8 * k

/-- Modelled from the spec: `faer_core::temp_mat_req::<f64>(m, 1)` — an
`m × 1` double-precision temporary padded to the allocator's 64-byte
alignment unit. -/
def tempMatReqBytes (m : ℕ) : ℕ := (8 * m + 63) / 64 * 64

/-- `lu_recursive_req` (partial_pivoting/compute.rs, lines 157-176) for
`E = f64`: `try_any_of` is the maximum of its members, `try_all_of` their
sum (members live together).  Fuel-indexed; the width strictly decreases so
`n + 1` fuel suffices. -/
def luRecursiveReqBytes : ℕ → ℕ → ℕ → ℕ
  | 0, _, _ => 0
  | f+1, m, n =>
      if n ≤ 16 then 0
      else
        let bs := blocksize n
        max (luRecursiveReqBytes f m bs)
          (max (usizeReqBytes (m - bs) + luRecursiveReqBytes f (m - bs) (n - bs))
            (tempMatReqBytes m))

/-- `lu_in_place_req` (partial_pivoting/compute.rs, lines 322-335):
`try_any_of` of the transposition array and the recursive requirement. -/
def luInPlaceReqBytes (m n : ℕ) : ℕ :=
  max (usizeReqBytes (min n m)) (luRecursiveReqBytes (min n m + 1) m (min n m))

/-- The peak simultaneous allocation of `lu_in_place_impl` (lines 178-242):
its second recursive call runs while the `m - bs` word `tmp_perm` array is
live. -/
def luImplPeakBytes : ℕ → ℕ → ℕ → ℕ
  | 0, _, _ => 0
  | f+1, m, n =>
      if n ≤ 16 then 0
      else
        let bs := blocksize n
        max (luImplPeakBytes f m bs)
          (usizeReqBytes (m - bs) + luImplPeakBytes f (m - bs) (n - bs))

/-- The peak simultaneous allocation of `lu_in_place` (lines 377-399): the
`size`-word transposition array stays live across the whole
`lu_in_place_impl` call. -/
def luInPlacePeakBytes (m n : ℕ) : ℕ :=
  usizeReqBytes (min n m) + luImplPeakBytes (min n m + 1) m (min n m)

end WorkspaceReq

section Claims

variable {K : Type} [Field K]

/-- C1: for every `m×n` matrix `A` (all shapes and both storage
orientations), partial-pivoting `lu_in_place` stores factors whose product
`L·U` reproduces `A` up to the returned row permutation
(`(L·U)[i][j] = A[perm[i]][j]`), and full-pivoting `lu_in_place`
additionally up to the returned column permutation
(`(L·U)[i][j] = A[row_perm[i]][col_perm[j]]`), exactly over an exact
field. -/
theorem claim_C1 (score : K → ℚ) (hs : ScoreOk score) (A : Mat K) (m n : ℕ) :
    (∀ i, i < m → ∀ j, j < n →
      luProd (luPP score A m n).1 (min n m) i j =
        A ((luPP score A m n).2.1 i) j) ∧
    (∀ rowMajor : Bool, ∀ i, i < m → ∀ j, j < n →
      luProd (luFP score (fun _ => none) A m n rowMajor).1 (min m n) i j =
        A ((luFP score (fun _ => none) A m n rowMajor).2.1 i)
          ((luFP score (fun _ => none) A m n rowMajor).2.2.2.1 j)) :=
  ⟨luPP_reconstruct score hs A m n,
   fun rowMajor => luFP_reconstruct score hs A m n rowMajor⟩

theorem claim_C1_witness :
    luProd (luPP (fun x : ℚ => |x|) (fun _ _ => (1:ℚ)) 1 1).1 (min 1 1) 0 0 =
      (fun _ _ => (1:ℚ))
        ((luPP (fun x : ℚ => |x|) (fun _ _ => (1:ℚ)) 1 1).2.1 0) 0 ∧
    luProd (luFP (fun x : ℚ => |x|) (fun _ => none) (fun _ _ => (1:ℚ)) 1 1
        false).1 (min 1 1) 0 0 =
      (fun _ _ => (1:ℚ))
        ((luFP (fun x : ℚ => |x|) (fun _ => none) (fun _ _ => (1:ℚ)) 1 1
          false).2.1 0)
        ((luFP (fun x : ℚ => |x|) (fun _ => none) (fun _ _ => (1:ℚ)) 1 1
          false).2.2.2.1 0) :=
  ⟨(claim_C1 (fun x : ℚ => |x|) scoreOk_qabs (fun _ _ => (1:ℚ)) 1 1).1 0
      (by decide) 0 (by decide),
   (claim_C1 (fun x : ℚ => |x|) scoreOk_qabs (fun _ _ => (1:ℚ)) 1 1).2 false 0
      (by decide) 0 (by decide)⟩

/-- C2: for every invertible square `n×n` matrix `A` factored by either
pivoting strategy, every right-hand side `B`, both conjugation settings
(an arbitrary ring endomorphism `cf`, the identity or conjugation), and
both the forward and transpose entry points, the solve output `X`
satisfies `Op(A)·X = B` resp. `Op(A)ᵗ·X = B`, row by row. -/
theorem claim_C2 (score : K → ℚ) (hs : ScoreOk score) (cf : K →+* K)
    (A B : Mat K) (n : ℕ)
    (hdet : IsUnit (Matrix.det (Matrix.of (fun i j : Fin n => A i.1 j.1)))) :
    (∀ r, r < n → ∀ j,
      (∑ c ∈ Finset.range n, cf (A r c) *
        solvePP (⇑cf) (luPP score A n n).1 (luPP score A n n).2.1 B n c j) =
      B r j) ∧
    (∀ r, r < n → ∀ j,
      (∑ c ∈ Finset.range n, cf (A c r) *
        solvePPT (⇑cf) (luPP score A n n).1 (luPP score A n n).2.2.1 B n c j) =
      B r j) ∧
    (∀ rowMajor : Bool, ∀ r, r < n → ∀ j,
      (∑ c ∈ Finset.range n, cf (A r c) *
        solveFP (⇑cf) (luFP score (fun _ => none) A n n rowMajor).1
          (luFP score (fun _ => none) A n n rowMajor).2.1
          (luFP score (fun _ => none) A n n rowMajor).2.2.2.2.1 B n c j) =
      B r j) ∧
    (∀ rowMajor : Bool, ∀ r, r < n → ∀ j,
      (∑ c ∈ Finset.range n, cf (A c r) *
        solveFPT (⇑cf) (luFP score (fun _ => none) A n n rowMajor).1
          (luFP score (fun _ => none) A n n rowMajor).2.2.1
          (luFP score (fun _ => none) A n n rowMajor).2.2.2.1 B n c j) =
      B r j) :=
  ⟨solvePP_correct score hs cf A B n hdet,
   solvePPT_correct score hs cf A B n hdet,
   fun rowMajor => solveFP_correct score hs cf A B n rowMajor hdet,
   fun rowMajor => solveFPT_correct score hs cf A B n rowMajor hdet⟩

theorem claim_C2_witness :
    (∑ c ∈ Finset.range 1, (RingHom.id ℚ) ((fun _ _ => (1:ℚ)) 0 c) *
      solvePP (⇑(RingHom.id ℚ))
        (luPP (fun x : ℚ => |x|) (fun _ _ => (1:ℚ)) 1 1).1
        (luPP (fun x : ℚ => |x|) (fun _ _ => (1:ℚ)) 1 1).2.1
        (fun _ _ => (1:ℚ)) 1 c 0) =
    (fun _ _ => (1:ℚ)) 0 0 :=
  (claim_C2 (fun x : ℚ => |x|) scoreOk_qabs (RingHom.id ℚ) (fun _ _ => (1:ℚ))
    (fun _ _ => (1:ℚ)) 1
    (by rw [Matrix.det_fin_one]; exact isUnit_one)).1 0 (by decide) 0

/-- C3: every permutation pair produced by either factorization is a pair
of mutually inverse arrays on its index range: `perm_inv[perm[i]] = i` and
`perm[perm_inv[i]] = i` for every valid `i`, for the partial-pivoting row
permutation and the full-pivoting row and column permutations. -/
theorem claim_C3 (score : K → ℚ) (hs : ScoreOk score) (A : Mat K) (m n : ℕ) :
    ((∀ i, i < m →
      (luPP score A m n).2.2.1 ((luPP score A m n).2.1 i) = i) ∧
     (∀ i, i < m →
      (luPP score A m n).2.1 ((luPP score A m n).2.2.1 i) = i)) ∧
    (∀ rowMajor : Bool,
      ((∀ i, i < m →
        (luFP score (fun _ => none) A m n rowMajor).2.2.1
          ((luFP score (fun _ => none) A m n rowMajor).2.1 i) = i) ∧
       (∀ i, i < m →
        (luFP score (fun _ => none) A m n rowMajor).2.1
          ((luFP score (fun _ => none) A m n rowMajor).2.2.1 i) = i)) ∧
      ((∀ j, j < n →
        (luFP score (fun _ => none) A m n rowMajor).2.2.2.2.1
          ((luFP score (fun _ => none) A m n rowMajor).2.2.2.1 j) = j) ∧
       (∀ j, j < n →
        (luFP score (fun _ => none) A m n rowMajor).2.2.2.1
          ((luFP score (fun _ => none) A m n rowMajor).2.2.2.2.1 j) = j))) :=
  ⟨luPP_perm_inverse score hs A m n,
   fun rowMajor => luFP_perm_inverse score hs A m n rowMajor⟩

theorem claim_C3_witness :
    (luPP (fun x : ℚ => |x|) (fun _ _ => (1:ℚ)) 1 1).2.2.1
      ((luPP (fun x : ℚ => |x|) (fun _ _ => (1:ℚ)) 1 1).2.1 0) = 0 :=
  ((claim_C3 (fun x : ℚ => |x|) scoreOk_qabs (fun _ _ => (1:ℚ)) 1 1).1).1 0
    (by decide)

/-- C4: for the concrete input `A = [[0,2],[3,4]]`, full pivoting selects
the entry `4` at `(1,1)` as its first pivot — `best_in_matrix` returns
`(1,1,4)`, and both orientations record row transposition `1` and column
transposition `1` at step `0` — and partial pivoting selects `3` at row `1`
as the pivot of column `0`, recording offset `1` as its first
transposition. -/
theorem claim_C4 :
    bestInMat (fun x : ℚ => |x|)
      (fun i j => if i = 0 then (if j = 0 then (0:ℚ) else 2)
        else (if j = 0 then 3 else 4)) 2 2 = (1, 1, 4) ∧
    (luFP (fun x : ℚ => |x|) (fun _ => none)
      (fun i j => if i = 0 then (if j = 0 then (0:ℚ) else 2)
        else (if j = 0 then 3 else 4)) 2 2 false).2.2.2.2.2.1 0 = 1 ∧
    (luFP (fun x : ℚ => |x|) (fun _ => none)
      (fun i j => if i = 0 then (if j = 0 then (0:ℚ) else 2)
        else (if j = 0 then 3 else 4)) 2 2 false).2.2.2.2.2.2.1 0 = 1 ∧
    (luFP (fun x : ℚ => |x|) (fun _ => none)
      (fun i j => if i = 0 then (if j = 0 then (0:ℚ) else 2)
        else (if j = 0 then 3 else 4)) 2 2 true).2.2.2.2.2.1 0 = 1 ∧
    (luFP (fun x : ℚ => |x|) (fun _ => none)
      (fun i j => if i = 0 then (if j = 0 then (0:ℚ) else 2)
        else (if j = 0 then 3 else 4)) 2 2 true).2.2.2.2.2.2.1 0 = 1 ∧
    pivotRow (fun x : ℚ => |x|)
      (fun i j => if i = 0 then (if j = 0 then (0:ℚ) else 2)
        else (if j = 0 then 3 else 4)) 0 0 2 = 1 ∧
    (luPP (fun x : ℚ => |x|)
      (fun i j => if i = 0 then (if j = 0 then (0:ℚ) else 2)
        else (if j = 0 then 3 else 4)) 2 2).2.2.2.1.getD 0 0 = 1 := by
  decide

/-- C5 (amended): the sequential column pivot search does return the first
occurrence of a maximal-score entry, and the column-chunked parallel
reduction of per-worker bests equals the sequential column-major scan; the
fused rank-1-update-and-argmax kernel uses strict `>` comparisons and
returns a maximal-score entry of the updated column, but its two
interleaved accumulator chains mean the returned index need not be the
first maximal position in scan order. -/
theorem claim_C5 (score : K → ℚ) (hs : ScoreOk score) (A : Mat K) :
    (∀ c j m, j < m →
      j ≤ pivotRow score A c j m ∧ pivotRow score A c j m < m ∧
      (∀ i, j ≤ i → i < m →
        score (A i c) ≤ score (A (pivotRow score A c j m) c)) ∧
      (∀ i, j ≤ i → i < pivotRow score A c j m →
        score (A i c) < score (A (pivotRow score A c j m) c))) ∧
    (∀ rLo cLo m n (ws : List ℕ), ws.sum = n - cLo →
      fpBestPar score A rLo cLo m ws = bestInSub score A rLo cLo m n) ∧
    (∀ (dst lhs : ℕ → K) (rhs : K) (m : ℕ),
      (∀ x, x < m →
        score (lhs x * rhs + dst x) ≤
          (updateAndBestInCol score dst lhs rhs m).1) ∧
      ((updateAndBestInCol score dst lhs rhs m).1 = 0 ∨
        ((updateAndBestInCol score dst lhs rhs m).1 =
          score (lhs (updateAndBestInCol score dst lhs rhs m).2 * rhs +
            dst (updateAndBestInCol score dst lhs rhs m).2) ∧
         (updateAndBestInCol score dst lhs rhs m).2 < m))) :=
  ⟨fun c j m hjm => pivotRow_spec score hs A c j m hjm,
   fun rLo cLo m n ws hsum => fpBestPar_eq_seq score A rLo cLo m n ws hsum,
   fun dst lhs rhs m => updateAndBestInCol_max score hs.zero dst lhs rhs m⟩

theorem claim_C5_witness :
    0 ≤ pivotRow (fun x : ℚ => |x|) (fun _ _ => (1:ℚ)) 0 0 1 :=
  ((claim_C5 (fun x : ℚ => |x|) scoreOk_qabs (fun _ _ => (1:ℚ))).1 0 0 1
    (by decide)).1

/-- C5 counterexample: on the column `[0, 5, 5, 0]` (no update,
`lhs·rhs = 0`) the fused kernel returns index `2` with value `5`, although
the earlier index `1` already attains the same maximal score `5`: the first
occurrence does not win this tie, because position `1` sits in the odd
accumulator chain and the chain merge prefers chain 0. -/
theorem claim_C5_counterexample :
    (updateAndBestInCol (fun x : ℚ => |x|)
      (fun i => if i = 1 then (5:ℚ) else if i = 2 then 5 else 0)
      (fun _ => (0:ℚ)) 0 4).2 = 2 ∧
    (updateAndBestInCol (fun x : ℚ => |x|)
      (fun i => if i = 1 then (5:ℚ) else if i = 2 then 5 else 0)
      (fun _ => (0:ℚ)) 0 4).1 = 5 ∧
    |(fun i => if i = 1 then (5:ℚ) else if i = 2 then 5 else 0) 1| = 5 ∧ (1:ℕ) < 2 := by
  norm_num [updateAndBestInCol, uabcPairs, bestVal, bestSc]

/-- C6: on an all-zero `n×n` matrix (`n ≥ 1`) both factorizations complete,
every recorded pivot defaults to the diagonal (the partial-pivoting offset
list is all zeros; the full-pivoting transposition arrays are the
identity), the returned permutations are the identity, the transposition
counts are `0`, and reconstruction of the stored factors is the zero
matrix. -/
theorem claim_C6 (score : K → ℚ) (hs : ScoreOk score) (n : ℕ) (hn : 1 ≤ n) :
    ((luPP score (fun _ _ => (0:K)) n n).2.2.2.1 = List.replicate n 0 ∧
     (∀ i, (luPP score (fun _ _ => (0:K)) n n).2.1 i = i) ∧
     (∀ i, i < n → (luPP score (fun _ _ => (0:K)) n n).2.2.1 i = i) ∧
     (luPP score (fun _ _ => (0:K)) n n).2.2.2.2 = 0 ∧
     (∀ i j, luProd (luPP score (fun _ _ => (0:K)) n n).1 (min n n) i j = 0)) ∧
    (∀ rowMajor : Bool,
      (∀ k, (luFP score (fun _ => none) (fun _ _ => (0:K)) n n
        rowMajor).2.2.2.2.2.1 k = k) ∧
      (∀ k, (luFP score (fun _ => none) (fun _ _ => (0:K)) n n
        rowMajor).2.2.2.2.2.2.1 k = k) ∧
      (∀ i, (luFP score (fun _ => none) (fun _ _ => (0:K)) n n
        rowMajor).2.1 i = i) ∧
      (∀ i, i < n → (luFP score (fun _ => none) (fun _ _ => (0:K)) n n
        rowMajor).2.2.1 i = i) ∧
      (∀ j, (luFP score (fun _ => none) (fun _ _ => (0:K)) n n
        rowMajor).2.2.2.1 j = j) ∧
      (∀ j, j < n → (luFP score (fun _ => none) (fun _ _ => (0:K)) n n
        rowMajor).2.2.2.2.1 j = j) ∧
      (luFP score (fun _ => none) (fun _ _ => (0:K)) n n
        rowMajor).2.2.2.2.2.2.2 = 0 ∧
      (∀ i j, luProd (luFP score (fun _ => none) (fun _ _ => (0:K)) n n
        rowMajor).1 (min n n) i j = 0)) := by
  have hpp := luPP_zeroA score hs.zero (fun _ _ => (0:K)) (fun _ _ => rfl) n
  constructor
  · refine ⟨?_, ?_, ?_, ?_, ?_⟩
    · rw [hpp]
    · intro i
      rw [hpp]
    · intro i hi
      rw [hpp]
      exact invPerm_id n i hi
    · rw [hpp]
    · intro i j
      rw [hpp]
      exact luProd_zeroA (fun _ _ => (0:K)) (fun _ _ => rfl) (min n n) i j
  · intro rowMajor
    have hfp := luFP_zeroA score hs.zero (fun _ _ => (0:K)) (fun _ _ => rfl)
      n hn rowMajor
    refine ⟨?_, ?_, ?_, ?_, ?_, ?_, ?_, ?_⟩
    · intro k
      rw [hfp]
    · intro k
      rw [hfp]
    · intro i
      rw [hfp]
    · intro i hi
      rw [hfp]
      exact invPerm_id n i hi
    · intro j
      rw [hfp]
    · intro j hj
      rw [hfp]
      exact invPerm_id n j hj
    · rw [hfp]
    · intro i j
      rw [hfp]
      exact luProd_zeroA (fun _ _ => (0:K)) (fun _ _ => rfl) (min n n) i j

theorem claim_C6_witness :
    (luPP (fun x : ℚ => |x|) (fun _ _ => (0:ℚ)) 1 1).2.2.2.1 =
      List.replicate 1 0 :=
  (claim_C6 (fun x : ℚ => |x|) scoreOk_qabs 1 (by decide)).1.1

/-- C7: the full output of full-pivoting `lu_in_place_unblocked` — factor,
transposition arrays, permutations and count — is the same under any
column-splitting parallelism strategy whose chunk widths cover each
trailing block as under the sequential scan; and the partial-pivoting
transposition fixup applied to the outside columns acts on each column
independently (its effect on a column depends only on that column), which
is what makes its column-split parallel form equal to the sequential
one. -/
theorem claim_C7 (score : K → ℚ) (A : Mat K) (m n : ℕ) (rowMajor : Bool)
    (strat : ℕ → Option (List ℕ))
    (hok : StratOk strat (if rowMajor then m else n)) :
    luFP score strat A m n rowMajor =
      luFP score (fun _ => none) A m n rowMajor ∧
    (∀ (P : ℕ → Bool) (ts : List ℕ) (i0 i c : ℕ),
      applyTransCols P i0 ts A i c =
        if P c then A (sigmaOf ts i0 i) c else A i c) :=
  ⟨luFP_strat score strat A m n rowMajor hok,
   fun P ts i0 i c => applyTransCols_eq P ts i0 A i c⟩

theorem claim_C7_witness :
    luFP (fun x : ℚ => |x|) (fun _ => none) (fun _ _ => (1:ℚ)) 1 1 false =
      luFP (fun x : ℚ => |x|) (fun _ => none) (fun _ _ => (1:ℚ)) 1 1 false :=
  (claim_C7 (fun x : ℚ => |x|) (fun _ _ => (1:ℚ)) 1 1 false (fun _ => none)
    (fun k ws h => nomatch h)).1

/-- C8: the workspace size requested by partial-pivoting `lu_in_place_req`
is not always sufficient for `lu_in_place`: at `m = n = 20` (f64) the
request combines the transposition array and the recursive requirement with
`try_any_of` (a maximum), but the call keeps the transposition array live
across `lu_in_place_impl`, so the true peak (their sum) strictly exceeds
the request. -/
theorem claim_C8 : luInPlaceReqBytes 20 20 < luInPlacePeakBytes 20 20 := by
  decide

/-- C9: calling the checked entry points with any permutation-buffer length
different from the matrix side fails before any buffer is touched: the
embedded checked variants return an error and no result. -/
theorem claim_C9 (score : K → ℚ) (strat : ℕ → Option (List ℕ)) (A : Mat K)
    (m n : ℕ) (rowMajor : Bool) :
    (∀ permLen permInvLen : ℕ, permLen ≠ m ∨ permInvLen ≠ m →
      luPPChecked score A m n permLen permInvLen = .error ()) ∧
    (∀ rpLen rpiLen cpLen cpiLen : ℕ,
      rpLen ≠ m ∨ rpiLen ≠ m ∨ cpLen ≠ n ∨ cpiLen ≠ n →
      luFPChecked score strat A m n rpLen rpiLen cpLen cpiLen rowMajor =
        .error ()) := by
  constructor
  · intro permLen permInvLen h
    unfold luPPChecked
    rw [if_neg (by tauto)]
  · intro rpLen rpiLen cpLen cpiLen h
    unfold luFPChecked
    rw [if_neg (by tauto)]

theorem claim_C9_witness :
    luPPChecked (fun x : ℚ => |x|) (fun _ _ => (0:ℚ)) 2 2 1 2 = .error () :=
  (claim_C9 (fun x : ℚ => |x|) (fun _ => none) (fun _ _ => (0:ℚ)) 2 2
    false).1 1 2 (by decide)

/-- C10: the returned transposition count equals the number of elementary
swaps actually performed: for partial pivoting the number of recorded
nonzero pivot offsets among the `min(m,n)` steps (hence at most
`min(m,n)`), for full pivoting the number of steps whose row pivot differs
from the diagonal plus the number whose column pivot differs (hence at most
`2·min(m,n)`). -/
theorem claim_C10 (score : K → ℚ) (hs : ScoreOk score) (A : Mat K)
    (m n : ℕ) :
    ((luPP score A m n).2.2.2.2 =
        ((luPP score A m n).2.2.2.1.filter (fun t => t ≠ 0)).length ∧
     (luPP score A m n).2.2.2.1.length = min n m ∧
     (luPP score A m n).2.2.2.2 ≤ min n m) ∧
    (∀ rowMajor : Bool,
      (luFP score (fun _ => none) A m n rowMajor).2.2.2.2.2.2.2 =
        ((List.range (min m n)).filter (fun k =>
          (luFP score (fun _ => none) A m n rowMajor).2.2.2.2.2.1 k ≠
            k)).length +
        ((List.range (min m n)).filter (fun k =>
          (luFP score (fun _ => none) A m n rowMajor).2.2.2.2.2.2.1 k ≠
            k)).length ∧
      (luFP score (fun _ => none) A m n rowMajor).2.2.2.2.2.2.2 ≤
        2 * min m n) :=
  ⟨luPP_count score hs A m n, fun rowMajor => luFP_count score hs A m n rowMajor⟩

theorem claim_C10_witness :
    (luPP (fun x : ℚ => |x|) (fun _ _ => (1:ℚ)) 1 1).2.2.2.2 ≤ min 1 1 :=
  ((claim_C10 (fun x : ℚ => |x|) scoreOk_qabs (fun _ _ => (1:ℚ)) 1 1).1).2.2

end Claims

end FaerLU
